import Mathlib

/-!
Verification of the userspace-rcu lock-free resizable hash table
(`src/rculfhash.c`) against its natural-language specification.

The development is a sequential shallow embedding of the C code:

* Machine words are `Nat` with explicit truncation `% 2^64` where the C
  relies on fixed-width arithmetic.
* The node heap is a flat address space `Nat → NodeData`.  Allocation is
  linear (`brk` is the allocation frontier) and addresses are never reused;
  this mirrors the RCU guarantee that no freed node memory is recycled
  while stale pointers to it can still exist.
* The tagged `next` pointer word (address + `REMOVED_FLAG` + `DUMMY_FLAG`)
  is the structure `TaggedPtr`.  As in the source, the `DUMMY` bit stored
  in a node's own `next` field marks that node as a bucket dummy, and the
  `REMOVED` bit marks the node as logically deleted.
* Executions are single-threaded, so every `uatomic_cmpxchg` whose expected
  value was just read from the same location succeeds; the CAS compare is
  nevertheless modelled faithfully.  Unbounded C retry loops take a fuel
  argument; running out of fuel just stops the operation early.
* `ht->compare_fct` is modelled as equality of the (opaque) `Nat` keys and
  `ht->hash_fct` is an arbitrary caller-supplied function stored in the
  table handle, as in the source.
* The split-counter bookkeeping (`ht_count_add`/`ht_count_del`) and the
  deferred `call_rcu` resize scheduling only touch counters and the resize
  target; the chain-length trigger itself (`check_resize`) is modelled as
  the pure function it is, with the global count as an argument.
-/

namespace Urcu

/-! ### Constants (rculfhash.c lines 158-205) -/

def COUNT_COMMIT_ORDER : Nat := 10

def CHAIN_LEN_TARGET : Nat := 1

def CHAIN_LEN_RESIZE_THRESHOLD : Nat := 3

def MIN_TABLE_SIZE : Nat := 1

def MAX_TABLE_ORDER : Nat := 64

/-- `errno` value used by `-ENOENT` returns. -/
def ENOENT : Int := 2

/-! ### Bit reversal (rculfhash.c lines 277-332)

`BitReverseTable256[v]` holds the 8-bit reversal of the byte `v`; `revBits w x`
is the reversal of the low `w` bits of `x`, so `revBits 8` is exactly the
table lookup and `bit_reverse_u64` is the byte-assembly from the source
(the C `|` combines disjoint byte fields, hence it is addition here). -/

def revBits : Nat → Nat → Nat
  | 0, _ => 0
  | w + 1, x => x % 2 * 2 ^ w + revBits w (x / 2)

/-- `bit_reverse_u8` (the `BitReverseTable256` lookup); the argument is
truncated to a byte as by the C parameter type `uint8_t`. -/
def bit_reverse_u8 (v : Nat) : Nat := revBits 8 (v % 2 ^ 8)

/-- `bit_reverse_u64` -/
def bit_reverse_u64 (v : Nat) : Nat :=
  bit_reverse_u8 v * 2 ^ 56 + bit_reverse_u8 (v / 2 ^ 8) * 2 ^ 48 +
  bit_reverse_u8 (v / 2 ^ 16) * 2 ^ 40 + bit_reverse_u8 (v / 2 ^ 24) * 2 ^ 32 +
  bit_reverse_u8 (v / 2 ^ 32) * 2 ^ 24 + bit_reverse_u8 (v / 2 ^ 40) * 2 ^ 16 +
  bit_reverse_u8 (v / 2 ^ 48) * 2 ^ 8 + bit_reverse_u8 (v / 2 ^ 56)

/-- `bit_reverse_ulong` on the 64-bit build. -/
def bit_reverse_ulong (v : Nat) : Nat := bit_reverse_u64 v

/-! ### fls (rculfhash.c lines 334-471)

The portable `fls_u64`/`fls_u32` cascade: at each stage, if the top `s` bits
of the `w`-bit word are all zero the word is shifted left by `s` and the
candidate bit position is lowered by `s`.  The mask `2^w - 2^(w-s)` is the
hex constant from the source (e.g. `0xFFFFFFFF00000000` for `w=64, s=32`). -/

def fls_stage (w s : Nat) (p : Nat × Nat) : Nat × Nat :=
  if p.1 &&& (2 ^ w - 2 ^ (w - s)) = 0 then (p.1 <<< s % 2 ^ w, p.2 - s) else p

/-- `fls_u64` (portable version, lines 371-406). -/
def fls_u64 (x : Nat) : Nat :=
  if x % 2 ^ 64 = 0 then 0
  else
    (fls_stage 64 1 (fls_stage 64 2 (fls_stage 64 4 (fls_stage 64 8
      (fls_stage 64 16 (fls_stage 64 32 (x % 2 ^ 64, 64))))))).2

/-- `fls_u32` (portable version, lines 408-438). -/
def fls_u32 (x : Nat) : Nat :=
  if x % 2 ^ 32 = 0 then 0
  else
    (fls_stage 32 1 (fls_stage 32 2 (fls_stage 32 4 (fls_stage 32 8
      (fls_stage 32 16 (x % 2 ^ 32, 32)))))).2

/-- `fls_ulong` (line 440): the `CAA_BITS_PER_lONG` typo makes the 32-bit
branch unreachable, so this is `fls_u64`, which is also the correct dispatch
on the 64-bit build modelled here. -/
def fls_ulong (x : Nat) : Nat := fls_u64 x

/-- `get_count_order_u32` (lines 453-459). -/
def get_count_order_u32 (x : Nat) : Int :=
  if x = 0 then -1 else (fls_u32 (x - 1) : Int)

/-- `get_count_order_ulong` (lines 465-471). -/
def get_count_order_ulong (x : Nat) : Int :=
  if x = 0 then -1 else (fls_ulong (x - 1) : Int)

/-! ### Chain-length resize trigger (rculfhash.c lines 641-661) -/

/-- `check_resize`: returns the growth order passed to `cds_lfht_resize_lazy`
when a resize is scheduled, `none` when no resize is scheduled.
`auto_resize` is `ht->flags & CDS_LFHT_AUTO_RESIZE` and `count` is the
global approximate counter `ht->count`. -/
def check_resize (auto_resize : Bool) (count chain_len : Nat) : Option Int :=
  if !auto_resize then none
  else if count ≥ 2 ^ COUNT_COMMIT_ORDER then none
  else if chain_len ≥ CHAIN_LEN_RESIZE_THRESHOLD then
    some (get_count_order_u32 (chain_len - (CHAIN_LEN_TARGET - 1)))
  else none

/-! ### Data model -/

/-- The tagged `next` pointer word: a node address or the `END` sentinel
(`ptr = none`, i.e. `END_VALUE = NULL`), plus the two low flag bits. -/
structure TaggedPtr where
  ptr : Option Nat
  removed : Bool
  dummy : Bool
deriving DecidableEq, Repr

/-- `END_VALUE` / `get_end()`. -/
def get_end : TaggedPtr := ⟨none, false, false⟩

/-- `clear_flag` (line 664). -/
def clear_flag (p : TaggedPtr) : TaggedPtr := ⟨p.ptr, false, false⟩

/-- `is_removed` (line 670). -/
def is_removed (p : TaggedPtr) : Bool := p.removed

/-- `flag_removed` (line 676). -/
def flag_removed (p : TaggedPtr) : TaggedPtr := ⟨p.ptr, true, p.dummy⟩

/-- `is_dummy` (line 682). -/
def is_dummy (p : TaggedPtr) : Bool := p.dummy

/-- `flag_dummy` (line 688). -/
def flag_dummy (p : TaggedPtr) : TaggedPtr := ⟨p.ptr, p.removed, true⟩

/-- `is_end` (line 700): `clear_flag(node) == END_VALUE`. -/
def is_end (p : TaggedPtr) : Bool := p.ptr.isNone

/-- The fields of `struct cds_lfht_node` / `struct _cds_lfht_node` relevant
to the list algorithms: the key (opaque, `key` + `key_len` folded into one
`Nat`), the immutable bit-reversed hash, and the tagged `next` word. -/
structure NodeData where
  key : Nat
  reverse_hash : Nat
  next : TaggedPtr
deriving DecidableEq, Repr

instance : Inhabited NodeData := ⟨⟨0, 0, get_end⟩⟩

/-- The table handle `struct cds_lfht` together with its heap.

* `size`, `resize_target` are the fields of `struct rcu_table`.
* `tbl o` is the base address of the level array `t.tbl[o]` (a
  `struct rcu_level`); `nOrders` records how many `tbl` slots have ever
  been filled with a valid pointer (allocator metadata).
* `mem` is the node heap, `brk` the linear allocation frontier, and
  `initb a` records whether address `a` holds a constructed node whose
  `reverse_hash` field has been written (allocator metadata).
* `hash_fct` is the caller-supplied hash function. -/
structure HT where
  size : Nat
  resize_target : Nat
  tbl : Nat → Nat
  nOrders : Nat
  mem : Nat → NodeData
  initb : Nat → Bool
  brk : Nat
  hash_fct : Nat → Nat

/-- Store to a node's `next` word. -/
def HT.writeNext (ht : HT) (a : Nat) (p : TaggedPtr) : HT :=
  { ht with mem := fun x => if x = a then { ht.mem x with next := p } else ht.mem x }

/-- Initialising store of a node's `reverse_hash` field. -/
def HT.writeHash (ht : HT) (a : Nat) (rh : Nat) : HT :=
  { ht with
    mem := fun x => if x = a then { ht.mem x with reverse_hash := rh } else ht.mem x
    initb := fun x => if x = a then true else ht.initb x }

/-- Caller-side node construction before an `add`/`replace` call: allocate a
fresh node and set its key and reverse hash (as `cds_lfht_add` and friends
do on the caller-owned node before calling `_cds_lfht_add`). -/
def HT.allocNode (ht : HT) (key rh : Nat) : HT × Nat :=
  let a := ht.brk
  ({ ht with
      mem := fun x => if x = a then { ht.mem x with key := key, reverse_hash := rh } else ht.mem x
      initb := fun x => if x = a then true else ht.initb x
      brk := ht.brk + 1 }, a)

/-! ### The bucket index (rculfhash.c lines 719-738) -/

/-- Number of dummy nodes in the level array of a given order:
`!i ? 1 : 1UL << (i-1)`. -/
def lenOrder (o : Nat) : Nat := if o = 0 then 1 else 2 ^ (o - 1)

/-- Bucket index covered by slot `j` of order `o`:
`!i ? 0 : (1UL << (i-1)) + j`. -/
def levelIdx (o j : Nat) : Nat := if o = 0 then 0 else 2 ^ (o - 1) + j

/-- `lookup_bucket`: address of `&ht->t.tbl[order]->nodes[index & mask]`. -/
def lookup_bucket (ht : HT) (size hash : Nat) : Nat :=
  let index := hash &&& (size - 1)
  let order := fls_ulong index
  ht.tbl order + (index &&& (if order = 0 then 0 else 2 ^ (order - 1) - 1))

/-- The address of the dummy node anchoring bucket `idx`, written directly
in terms of the order decomposition (`lookup_bucket` computes exactly this,
see `lookup_bucket_eq_bucketAddr`). -/
def bucketAddr (ht : HT) (idx : Nat) : Nat :=
  ht.tbl (fls_ulong idx) + (if fls_ulong idx = 0 then 0 else idx - 2 ^ (fls_ulong idx - 1))

/-! ### Bucket garbage collection (rculfhash.c lines 740-785) -/

/-- Outcome of the inner scan of `_cds_lfht_gc_bucket`: either the walk
reached `END` or a node past `node`'s reverse hash (return), or it found a
node whose successor word carries the `REMOVED` flag. -/
inductive GcStep where
  | done
  | unlink (iter_prev : Nat) (iter next : TaggedPtr)

def gc_inner (ht : HT) (node_rh : Nat) : Nat → Nat → TaggedPtr → GcStep
  | 0, _, _ => .done
  | fuel + 1, iter_prev, iter =>
    match iter.ptr with
    | none => .done
    | some it =>
      if (ht.mem it).reverse_hash > node_rh then .done
      else
        let next := (ht.mem it).next
        if is_removed next then .unlink iter_prev iter next
        else gc_inner ht node_rh fuel it next

/-- `_cds_lfht_gc_bucket`: restart from the dummy after every unlink CAS. -/
def _cds_lfht_gc_bucket (ht : HT) (dummy node : Nat) : Nat → HT
  | 0 => ht
  | fuel + 1 =>
    match gc_inner ht (ht.mem node).reverse_hash (fuel + 1) dummy (ht.mem dummy).next with
    | .done => ht
    | .unlink iter_prev iter next =>
      let new_next0 := if is_dummy iter then flag_dummy (clear_flag next) else clear_flag next
      let new_next := if is_removed iter then flag_removed new_next0 else new_next0
      let ht1 := if (ht.mem iter_prev).next = iter then ht.writeNext iter_prev new_next else ht
      _cds_lfht_gc_bucket ht1 dummy node fuel

/-! ### Replace (rculfhash.c lines 787-856) -/

/-- The CAS-retry loop of `_cds_lfht_replace`: presets the new node's `next`
and tries to swing `old_node->p.next` from the observed successor to
`flag_removed(new_node)`; on CAS failure it retries with the value the CAS
returned; it gives up (returns `false`) once the observed successor carries
the `REMOVED` flag. -/
def replace_loop (ht : HT) (old_node new_node : Nat) : Nat → TaggedPtr → HT × Bool
  | 0, _ => (ht, false)
  | fuel + 1, old_next =>
    if is_removed old_next then (ht, false)
    else
      let ht1 := ht.writeNext new_node (clear_flag old_next)
      let ret_next := (ht1.mem old_node).next
      if ret_next = old_next then (ht1.writeNext old_node ⟨some new_node, true, false⟩, true)
      else replace_loop ht1 old_node new_node fuel ret_next

/-- `_cds_lfht_replace`. -/
def _cds_lfht_replace (ht : HT) (size : Nat) (old_node : Option Nat)
    (old_next : TaggedPtr) (new_node : Nat) (fuel : Nat) : HT × Int :=
  match old_node with
  | none => (ht, -ENOENT)
  | some o =>
    let p := replace_loop ht o new_node fuel old_next
    if p.2 then
      let dummy := lookup_bucket p.1 size (bit_reverse_ulong ((p.1.mem o).reverse_hash))
      (_cds_lfht_gc_bucket p.1 dummy new_node fuel, 0)
    else (p.1, -ENOENT)

/-! ### Add (rculfhash.c lines 858-962) -/

/-- `enum add_mode`. -/
inductive add_mode where
  | ADD_DEFAULT
  | ADD_UNIQUE
  | ADD_REPLACE
deriving DecidableEq, Repr

/-- Outcome of the inner walk of `_cds_lfht_add`: the insertion point was
found, a matching key was found (unique/replace modes), a logically removed
successor must be garbage collected first, or the walk ran out of fuel. -/
inductive WalkResult where
  | insert (iter_prev : Nat) (iter : TaggedPtr)
  | found (iter_node : Nat) (next : TaggedPtr)
  | gcNode (iter_prev : Nat) (iter next : TaggedPtr)
  | out

/-- The inner walk of `_cds_lfht_add` (lines 887-915).  The
`check_resize(ht, size, ++chain_len)` call on the way only feeds the lazy
resize trigger (modelled by `check_resize` above) and has no effect on the
list, so the chain-length accumulator is dropped here. -/
def add_walk (ht : HT) (node : Nat) (mode : add_mode) (dummy : Bool) :
    Nat → Nat → TaggedPtr → WalkResult
  | 0, _, _ => .out
  | fuel + 1, iter_prev, iter =>
    match iter.ptr with
    | none => .insert iter_prev iter
    | some it =>
      if (ht.mem it).reverse_hash > (ht.mem node).reverse_hash then .insert iter_prev iter
      else if dummy = true ∧ (ht.mem it).reverse_hash = (ht.mem node).reverse_hash then
        .insert iter_prev iter
      else
        let next := (ht.mem it).next
        if is_removed next then .gcNode iter_prev iter next
        else if (mode = .ADD_UNIQUE ∨ mode = .ADD_REPLACE) ∧ is_dummy next = false ∧
            (ht.mem it).reverse_hash = (ht.mem node).reverse_hash ∧
            (ht.mem it).key = (ht.mem node).key then
          .found it next
        else add_walk ht node mode dummy fuel it next

/-- The outer retry loop of `_cds_lfht_add` (the `for (;;)` at line 876,
with the `insert`, `replace` and `gc_node` labels). -/
def add_loop (size node : Nat) (mode : add_mode) (dummy : Bool) (start : Nat) :
    HT → Nat → HT × Option Nat
  | ht, 0 => (ht, none)
  | ht, fuel + 1 =>
    match add_walk ht node mode dummy (fuel + 1) start (ht.mem start).next with
    | .out => (ht, none)
    | .insert iter_prev iter =>
      let ht1 := ht.writeNext node
        (if dummy then flag_dummy (clear_flag iter) else clear_flag iter)
      let new_node : TaggedPtr :=
        if is_dummy iter then flag_dummy ⟨some node, false, false⟩ else ⟨some node, false, false⟩
      if (ht1.mem iter_prev).next = iter then
        (ht1.writeNext iter_prev new_node,
          if mode = .ADD_REPLACE then none else some node)
      else add_loop size node mode dummy start ht1 fuel
    | .found it next =>
      if mode = .ADD_UNIQUE then (ht, some it)
      else
        let p := _cds_lfht_replace ht size (some it) next node fuel
        if p.2 = 0 then (p.1, some it)
        else add_loop size node mode dummy start p.1 fuel
    | .gcNode iter_prev iter next =>
      let new_next := if is_dummy iter then flag_dummy (clear_flag next) else clear_flag next
      let ht1 := if (ht.mem iter_prev).next = iter then ht.writeNext iter_prev new_next else ht
      add_loop size node mode dummy start ht1 fuel

/-- `_cds_lfht_add`.  The `!size` special case is the initial head insert. -/
def _cds_lfht_add (ht : HT) (size node : Nat) (mode : add_mode) (dummy : Bool)
    (fuel : Nat) : HT × Option Nat :=
  if size = 0 then (ht.writeNext node (flag_dummy get_end), some node)
  else
    let start := lookup_bucket ht size (bit_reverse_ulong ((ht.mem node).reverse_hash))
    add_loop size node mode dummy start ht fuel

/-! ### Delete (rculfhash.c lines 964-1016) -/

/-- `_cds_lfht_del`.  Sequentially the logical-removal CAS loop runs once:
the expected value is read immediately before the CAS. -/
def _cds_lfht_del (ht : HT) (size : Nat) (node : Option Nat) (fuel : Nat) : HT × Int :=
  match node with
  | none => (ht, -ENOENT)
  | some n =>
    let next := (ht.mem n).next
    if is_removed next then (ht, -ENOENT)
    else
      let ht1 := ht.writeNext n (flag_removed next)
      let dummy := lookup_bucket ht1 size (bit_reverse_ulong ((ht1.mem n).reverse_hash))
      (_cds_lfht_gc_bucket ht1 dummy n fuel, 0)

/-! ### Lookup (rculfhash.c lines 1322-1359) -/

/-- `struct cds_lfht_iter`. -/
structure Iter where
  node : Option Nat
  next : TaggedPtr
deriving DecidableEq, Repr

def lookup_loop (ht : HT) (key reverse_hash : Nat) : Nat → Option Nat → Iter
  | 0, _ => ⟨none, get_end⟩
  | fuel + 1, node =>
    match node with
    | none => ⟨none, get_end⟩
    | some n =>
      if (ht.mem n).reverse_hash > reverse_hash then ⟨none, get_end⟩
      else
        let next := (ht.mem n).next
        if is_removed next = false ∧ is_dummy next = false ∧
            (ht.mem n).reverse_hash = reverse_hash ∧ (ht.mem n).key = key then
          ⟨some n, next⟩
        else lookup_loop ht key reverse_hash fuel next.ptr

/-- `cds_lfht_lookup`. -/
def cds_lfht_lookup (ht : HT) (key : Nat) (fuel : Nat) : Iter :=
  let hash := ht.hash_fct key
  let reverse_hash := bit_reverse_ulong hash
  let start := lookup_bucket ht ht.size hash
  lookup_loop ht key reverse_hash fuel ((ht.mem start).next).ptr

/-! ### Node count (rculfhash.c lines 1558-1607) -/

/-- The chain walk of `cds_lfht_count_nodes`; the accumulator is
`(count, removed)`. -/
def count_loop (ht : HT) : Nat → Nat → Nat × Nat → Nat × Nat
  | 0, _, acc => acc
  | fuel + 1, n, acc =>
    let next := (ht.mem n).next
    let acc1 :=
      if is_removed next then (if is_dummy next then acc else (acc.1, acc.2 + 1))
      else (if is_dummy next then acc else (acc.1 + 1, acc.2))
    match next.ptr with
    | none => acc1
    | some m => count_loop ht fuel m acc1

/-- `cds_lfht_count_nodes` (exact `count` and `removed` outputs). -/
def cds_lfht_count_nodes (ht : HT) (fuel : Nat) : Nat × Nat :=
  count_loop ht fuel (ht.tbl 0 + 0) (0, 0)

/-! ### Public update operations (rculfhash.c lines 1432-1496) -/

/-- `cds_lfht_add`: the caller's node gets its reverse hash from the table's
hash function, then `_cds_lfht_add` in `ADD_DEFAULT` mode. -/
def cds_lfht_add (ht : HT) (key : Nat) (fuel : Nat) : HT :=
  let p := ht.allocNode key (bit_reverse_ulong (ht.hash_fct key))
  (_cds_lfht_add p.1 p.1.size p.2 .ADD_DEFAULT false fuel).1

/-- `cds_lfht_add_unique`. -/
def cds_lfht_add_unique (ht : HT) (key : Nat) (fuel : Nat) : HT × Option Nat :=
  let p := ht.allocNode key (bit_reverse_ulong (ht.hash_fct key))
  _cds_lfht_add p.1 p.1.size p.2 .ADD_UNIQUE false fuel

/-- `cds_lfht_add_replace`. -/
def cds_lfht_add_replace (ht : HT) (key : Nat) (fuel : Nat) : HT × Option Nat :=
  let p := ht.allocNode key (bit_reverse_ulong (ht.hash_fct key))
  _cds_lfht_add p.1 p.1.size p.2 .ADD_REPLACE false fuel

/-- `cds_lfht_replace` on an iterator, with a freshly built new node. -/
def cds_lfht_replace (ht : HT) (old_iter : Iter) (new_key new_rh : Nat)
    (fuel : Nat) : HT × Int :=
  let p := ht.allocNode new_key new_rh
  _cds_lfht_replace p.1 p.1.size old_iter.node old_iter.next p.2 fuel

/-- `cds_lfht_del` on an iterator. -/
def cds_lfht_del (ht : HT) (iter_node : Option Nat) (fuel : Nat) : HT × Int :=
  _cds_lfht_del ht ht.size iter_node fuel

/-! ### Resize engine (rculfhash.c lines 1082-1320 and 1609-1694) -/

/-- The `calloc` of a level array in `init_table`: a fresh zeroed array of
`lenOrder i` nodes, published in `ht->t.tbl[i]`. -/
def callocLevel (ht : HT) (i : Nat) : HT :=
  let base := ht.brk
  { ht with
    tbl := fun o => if o = i then base else ht.tbl o
    mem := fun x => if base ≤ x ∧ x < base + lenOrder i then ⟨0, 0, get_end⟩ else ht.mem x
    nOrders := max ht.nOrders (i + 1)
    brk := ht.brk + lenOrder i }

/-- One step of `init_table_populate_partition` (lines 1089-1099): set the
dummy's reverse hash, then link it with `_cds_lfht_add` in dummy mode at the
table size in effect at this order (`!i ? 0 : 1UL << (i-1)`). -/
def populate_step (i fuel : Nat) (ht : HT) (j : Nat) : HT :=
  let a := ht.tbl i + j
  let ht1 := ht.writeHash a (bit_reverse_ulong (levelIdx i j))
  (_cds_lfht_add ht1 (if i = 0 then 0 else 2 ^ (i - 1)) a .ADD_DEFAULT true fuel).1

/-- `init_table_populate` (sequential; the thread partitioning only splits
the same `j` range over workers). -/
def init_table_populate (ht : HT) (i fuel : Nat) : HT :=
  (List.range (lenOrder i)).foldl (populate_step i fuel) ht

/-- The order loop of `init_table` (lines 1126-1154): stop if the resize
target dropped below this order's size, otherwise allocate, populate, and
publish the new size `!i ? 1 : 1UL << i` (which is `2^i`). -/
def init_table_loop (fuel : Nat) : HT → Nat → Nat → HT
  | ht, _, 0 => ht
  | ht, i, len + 1 =>
    if ht.resize_target < 2 ^ i then ht
    else
      let ht1 := callocLevel ht i
      let ht2 := init_table_populate ht1 i fuel
      let ht3 := { ht2 with size := 2 ^ i }
      init_table_loop fuel ht3 (i + 1) len

/-- `init_table`. -/
def init_table (ht : HT) (first_order len_order fuel : Nat) : HT :=
  init_table_loop fuel ht first_order len_order

/-- One step of `remove_table_partition` (lines 1189-1199): rewrite the
dummy's reverse hash, then logically delete and GC it at size
`!i ? 0 : 1UL << (i-1)`. -/
def remove_step (i fuel : Nat) (ht : HT) (j : Nat) : HT :=
  let a := ht.tbl i + j
  let ht1 := ht.writeHash a (bit_reverse_ulong (levelIdx i j))
  (_cds_lfht_del ht1 (if i = 0 then 0 else 2 ^ (i - 1)) (some a) fuel).1

/-- `remove_table` (sequential). -/
def remove_table (ht : HT) (i fuel : Nat) : HT :=
  (List.range (lenOrder i)).foldl (remove_step i fuel) ht

/-- The descending order loop of `fini_table` (lines 1228-1264): stop if the
resize target grew above this order, otherwise publish the smaller size and
remove the order's dummies.  `synchronize_rcu` and the deferred `free` of
the level array are no-ops on the sequential heap (addresses are never
reused). -/
def fini_table_loop (fuel first_order : Nat) : HT → Nat → HT
  | ht, 0 => ht
  | ht, k + 1 =>
    let i := first_order + k
    if ht.resize_target > 2 ^ (i - 1) then ht
    else
      let ht1 := { ht with size := 2 ^ (i - 1) }
      let ht2 := remove_table ht1 i fuel
      fini_table_loop fuel first_order ht2 k

/-- `fini_table`. -/
def fini_table (ht : HT) (first_order len_order fuel : Nat) : HT :=
  fini_table_loop fuel first_order ht len_order

/-- `_do_cds_lfht_grow`. -/
def _do_cds_lfht_grow (ht : HT) (old_size new_size fuel : Nat) : HT :=
  let old_order := (get_count_order_ulong old_size + 1).toNat
  let new_order := (get_count_order_ulong new_size + 1).toNat
  init_table ht old_order (new_order - old_order) fuel

/-- `_do_cds_lfht_shrink`. -/
def _do_cds_lfht_shrink (ht : HT) (old_size new_size fuel : Nat) : HT :=
  let new_size1 := max new_size MIN_TABLE_SIZE
  let old_order := (get_count_order_ulong old_size + 1).toNat
  let new_order := (get_count_order_ulong new_size1 + 1).toNat
  fini_table ht new_order (old_order - new_order) fuel

/-- The body of the `do { ... }` loop of `_do_cds_lfht_resize`. -/
def resize_step (fuel : Nat) (ht : HT) : HT :=
  let old_size := ht.size
  let new_size := ht.resize_target
  if old_size < new_size then _do_cds_lfht_grow ht old_size new_size fuel
  else if old_size > new_size then _do_cds_lfht_shrink ht old_size new_size fuel
  else ht

/-- `_do_cds_lfht_resize`: re-run the body until `t.size == resize_target`
(`loops` bounds the number of `do`-iterations). -/
def _do_cds_lfht_resize (fuel : Nat) : HT → Nat → HT
  | ht, 0 => ht
  | ht, loops + 1 =>
    let ht1 := resize_step fuel ht
    if ht1.size = ht1.resize_target then ht1
    else _do_cds_lfht_resize fuel ht1 loops

/-- `resize_target_update_count` (lines 1677-1683). -/
def resize_target_update_count (ht : HT) (count : Nat) : HT :=
  { ht with resize_target := max count MIN_TABLE_SIZE }

/-- `cds_lfht_resize` (lines 1685-1694), the blocking resize API. -/
def cds_lfht_resize (ht : HT) (new_size loops fuel : Nat) : HT :=
  _do_cds_lfht_resize fuel (resize_target_update_count ht new_size) loops

/-! ### Table creation (rculfhash.c lines 1272-1320) -/

/-- The zeroed handle from `calloc(1, sizeof(struct cds_lfht))`. -/
def emptyHT (hash_fct : Nat → Nat) : HT :=
  { size := 0, resize_target := 0, tbl := fun _ => 0, nOrders := 0,
    mem := fun _ => ⟨0, 0, get_end⟩, initb := fun _ => false, brk := 0,
    hash_fct := hash_fct }

/-- `_cds_lfht_new`: rejects a nonzero non-power-of-two `init_size`
(`init_size && (init_size & (init_size - 1))`), then builds orders
`0 .. get_count_order_ulong(max(init_size, MIN_TABLE_SIZE))` with the
resize target preset to the requested size. -/
def _cds_lfht_new (hash_fct : Nat → Nat) (init_size fuel : Nat) : Option HT :=
  if init_size ≠ 0 ∧ init_size &&& (init_size - 1) ≠ 0 then none
  else
    let order := (get_count_order_ulong (max init_size MIN_TABLE_SIZE) + 1).toNat
    let ht := { emptyHT hash_fct with resize_target := 2 ^ (order - 1) }
    some (init_table ht 0 order fuel)

/-! ### Reachable states and reachable nodes -/

/-- Following `next` pointers `n` steps from the list head
(`&ht->t.tbl[0]->nodes[0]`). -/
def followN (ht : HT) : Nat → Option Nat
  | 0 => some (ht.tbl 0 + 0)
  | n + 1 =>
    match followN ht n with
    | none => none
    | some a => ((ht.mem a).next).ptr

/-- A node address is reachable if some number of `next` steps from the
list head lands on it. -/
def reachable (ht : HT) (a : Nat) : Prop := ∃ n, followN ht n = some a

/-- Table states reachable from `_cds_lfht_new` by any sequence of the
mutating operations (sequentially, with arbitrary fuel for the internal
retry loops and arbitrary keys; sizes are bounded by the machine width as
in the C, where `unsigned long` sizes with `MAX_TABLE_ORDER = 64` levels
cap the table at `2^63` buckets). -/
inductive Reach : HT → Prop where
  | init : ∀ (hf : Nat → Nat) (init_size fuel : Nat) (ht : HT),
      init_size ≤ 2 ^ 63 → _cds_lfht_new hf init_size fuel = some ht → Reach ht
  | add : ∀ ht key fuel, Reach ht → Reach (cds_lfht_add ht key fuel)
  | add_unique : ∀ ht key fuel, Reach ht → Reach (cds_lfht_add_unique ht key fuel).1
  | add_replace : ∀ ht key fuel, Reach ht → Reach (cds_lfht_add_replace ht key fuel).1
  | del : ∀ ht it fuel, Reach ht → Reach (cds_lfht_del ht it fuel).1
  | gc : ∀ ht dummy node fuel, Reach ht → Reach (_cds_lfht_gc_bucket ht dummy node fuel)
  | resize : ∀ ht new_size loops fuel, Reach ht → new_size ≤ 2 ^ 63 →
      Reach (cds_lfht_resize ht new_size loops fuel)

/-! ### The sortedness invariant (for claim C1)

`Inv` is maintained by every operation; its `sorted` field is the
split-order invariant: reverse hashes are non-decreasing along every `next`
link in the heap (in particular along every reachable adjacency). -/

structure Inv (ht : HT) : Prop where
  sorted : ∀ a b, ((ht.mem a).next).ptr = some b →
    (ht.mem a).reverse_hash ≤ (ht.mem b).reverse_hash
  linkInit : ∀ a b, ((ht.mem a).next).ptr = some b → ht.initb b = true
  noOutUninit : ∀ a, ht.initb a = false → ((ht.mem a).next).ptr = none
  initBrk : ∀ a, ht.initb a = true → a < ht.brk
  tblRange : ∀ o, o < ht.nOrders → ht.tbl o + lenOrder o ≤ ht.brk
  tblDisjoint : ∀ o1 o2, o1 < ht.nOrders → o2 < ht.nOrders → o1 ≠ o2 →
    ∀ j1 j2, j1 < lenOrder o1 → j2 < lenOrder o2 → ht.tbl o1 + j1 ≠ ht.tbl o2 + j2
  dh : ∀ o j, o < ht.nOrders → j < lenOrder o → ht.initb (ht.tbl o + j) = true →
    (ht.mem (ht.tbl o + j)).reverse_hash = revBits 64 (levelIdx o j)
  sizePow : ht.size = 0 ∨ ∃ k ≤ 63, ht.size = 2 ^ k
  sizeOrders : ∀ k, ht.size = 2 ^ k → k < ht.nOrders
  anchors : ∀ idx, idx < ht.size →
    ht.initb (bucketAddr ht idx) = true ∧
    (ht.mem (bucketAddr ht idx)).reverse_hash = revBits 64 idx
  rtBound : ht.resize_target ≤ 2 ^ 63

/-! ### Spec-side definitions (for comparison against the code)

These two follow the specification's words (section 4.1) and are compared
with the source functions `fls_ulong` / `get_count_order_u32`. -/

/-- Spec 4.1: `msb_index(x)`: position of the most significant set bit
(1..W), 0 if `x == 0`. -/
def msb_index (x : Nat) : Nat := if x = 0 then 0 else Nat.log2 x + 1

/-- Spec 4.1: `ceil_log2(x)`: smallest `k` with `x ≤ 2^k`; −1 if `x == 0`. -/
def ceil_log2 (x : Nat) : Int := if x = 0 then -1 else (Nat.clog 2 x : Int)

/-! ### Concrete tables used as counterexample inputs -/

/-- A tiny concrete table for the replace counterexample: the dummy head
(address 0) links to the user node at address 1 (key 10, reverse hash 5),
which links to the user node at address 2 (key 20, reverse hash 7).
Address 3 holds a caller-built replacement node (key 10, reverse hash 5),
not yet linked. -/
def replaceCexHT : HT :=
  { size := 1, resize_target := 1, tbl := fun _ => 0, nOrders := 1,
    mem := fun x =>
      if x = 0 then ⟨0, 0, ⟨some 1, false, true⟩⟩
      else if x = 1 then ⟨10, 5, ⟨some 2, false, false⟩⟩
      else if x = 2 then ⟨20, 7, get_end⟩
      else if x = 3 then ⟨10, 5, get_end⟩
      else ⟨0, 0, get_end⟩,
    initb := fun x => x < 4, brk := 4, hash_fct := id }

/-- The table created by `_cds_lfht_new` with identity hash and
`init_size = 4` (concrete counterexample input for the resize claim). -/
def newHT4 : HT := (_cds_lfht_new id 4 20).getD (emptyHT id)

/-- The state of `newHT4` after `cds_lfht_resize(ht, 5)` has published the
resize target `5`: the body of `_do_cds_lfht_resize` is a fixpoint here. -/
def stuck5 : HT := resize_target_update_count newHT4 5

/-- Everything of the handle except the node heap: the list operations
(`add`, `gc`, `del`, `replace`) only store to `next` words, so they
preserve this shape. -/
def SameShape (ht ht' : HT) : Prop :=
  ht'.size = ht.size ∧ ht'.resize_target = ht.resize_target ∧ ht'.tbl = ht.tbl ∧
  ht'.nOrders = ht.nOrders ∧ ht'.initb = ht.initb ∧ ht'.brk = ht.brk ∧
  ht'.hash_fct = ht.hash_fct

/-- Like `SameShape` but allowing `initb` and `mem` to change (the dummy
population and removal steps write `reverse_hash` fields and the allocator
metadata, but not the sizes, level pointers or the frontier). -/
def EqSkel (ht ht' : HT) : Prop :=
  ht'.size = ht.size ∧ ht'.resize_target = ht.resize_target ∧ ht'.tbl = ht.tbl ∧
  ht'.nOrders = ht.nOrders ∧ ht'.brk = ht.brk ∧ ht'.hash_fct = ht.hash_fct

/-! ### Statement abbreviations for the claims -/

/-- Sequential semantics of `_cds_lfht_replace` on a non-nil iterator
`(o, obs)`: it fails with `-ENOENT` exactly when the node was logically
removed (the observed successor, or the node's current successor, carries
the `REMOVED` flag); a merely changed successor makes it retry and succeed;
and on success the single CAS that links the new node also sets the
`REMOVED` flag in the old node's `next`. -/
def replaceSpec (ht : HT) (size o new_node fuel : Nat) (obs : TaggedPtr) : Prop :=
  ((_cds_lfht_replace ht size (some o) obs new_node fuel).2 = -ENOENT ↔
    (is_removed obs = true ∨ is_removed (ht.mem o).next = true)) ∧
  ((_cds_lfht_replace ht size (some o) obs new_node fuel).2 = -ENOENT ∨
    (_cds_lfht_replace ht size (some o) obs new_node fuel).2 = 0) ∧
  ((_cds_lfht_replace ht size (some o) obs new_node fuel).2 = -ENOENT →
    ∀ a, a ≠ new_node →
      (_cds_lfht_replace ht size (some o) obs new_node fuel).1.mem a = ht.mem a) ∧
  ((_cds_lfht_replace ht size (some o) obs new_node fuel).2 = 0 →
    ((replace_loop ht o new_node fuel obs).1.mem o).next = ⟨some new_node, true, false⟩)

/-- The order/position decomposition performed by `lookup_bucket` for a
power-of-two table size `2^k`, phrased with the specification's
`msb_index`: the bucket index is `h mod size`, the level is its msb index,
and the code's masked indexing equals the position `idx - 2^(order-1)`
(position 0 at level 0). -/
def bucketDecompSpec (ht : HT) (h k : Nat) : Prop :=
  (h &&& (2 ^ k - 1)) = h % 2 ^ k ∧
  (msb_index (h % 2 ^ k) = 0 ↔ h % 2 ^ k = 0) ∧
  fls_ulong (h % 2 ^ k) = msb_index (h % 2 ^ k) ∧
  lookup_bucket ht (2 ^ k) h =
    ht.tbl (msb_index (h % 2 ^ k)) +
      (if msb_index (h % 2 ^ k) = 0 then 0
       else h % 2 ^ k - 2 ^ (msb_index (h % 2 ^ k) - 1)) ∧
  ((h % 2 ^ k) &&& (if msb_index (h % 2 ^ k) = 0 then 0
      else 2 ^ (msb_index (h % 2 ^ k) - 1) - 1)) =
    (if msb_index (h % 2 ^ k) = 0 then 0
     else h % 2 ^ k - 2 ^ (msb_index (h % 2 ^ k) - 1))


/-! ## Lemmas about bit reversal -/

theorem revBits_lt (w x : Nat) : revBits w x < 2 ^ w := by
  induction w generalizing x with
  | zero => simp [revBits]
  | succ w ih =>
    have h1 : x % 2 ≤ 1 := Nat.le_of_lt_succ (Nat.mod_lt x (by norm_num))
    have h2 := ih (x / 2)
    have h3 : x % 2 * 2 ^ w ≤ 2 ^ w := by
      calc x % 2 * 2 ^ w ≤ 1 * 2 ^ w := Nat.mul_le_mul_right _ h1
        _ = 2 ^ w := one_mul _
    have h4 : (2 : Nat) ^ (w + 1) = 2 ^ w + 2 ^ w := by rw [pow_succ]; ring
    simp only [revBits]
    omega

theorem revBits_zero (w : Nat) : revBits w 0 = 0 := by
  induction w with
  | zero => rfl
  | succ w ih => simp [revBits, ih]

theorem revBits_decomp (k : Nat) : ∀ w x : Nat, k ≤ w →
    revBits w x = revBits k (x % 2 ^ k) * 2 ^ (w - k) + revBits (w - k) (x / 2 ^ k) := by
  induction k with
  | zero => intro w x _; simp [revBits]
  | succ k ih =>
    intro w x hk
    obtain ⟨w', rfl⟩ : ∃ w', w = w' + 1 := ⟨w - 1, by omega⟩
    have hk' : k ≤ w' := by omega
    have e1 : (x % 2 ^ (k + 1)) % 2 = x % 2 :=
      Nat.mod_mod_of_dvd x ⟨2 ^ k, by rw [pow_succ]; ring⟩
    have e2 : (x % 2 ^ (k + 1)) / 2 = x / 2 % 2 ^ k := by
      rw [show (2 : Nat) ^ (k + 1) = 2 * 2 ^ k by rw [pow_succ]; ring]
      exact Nat.mod_mul_right_div_self x 2 (2 ^ k)
    have e3 : x / 2 / 2 ^ k = x / 2 ^ (k + 1) := by
      rw [Nat.div_div_eq_div_mul, show (2 : Nat) * 2 ^ k = 2 ^ (k + 1) by rw [pow_succ]; ring]
    have e4 : w' + 1 - (k + 1) = w' - k := by omega
    have e5 : (2 : Nat) ^ w' = 2 ^ k * 2 ^ (w' - k) := by
      rw [← pow_add]; congr 1; omega
    calc revBits (w' + 1) x = x % 2 * 2 ^ w' + revBits w' (x / 2) := rfl
      _ = x % 2 * 2 ^ w' +
          (revBits k (x / 2 % 2 ^ k) * 2 ^ (w' - k) + revBits (w' - k) (x / 2 / 2 ^ k)) := by
        rw [ih w' (x / 2) hk']
      _ = ((x % 2 ^ (k + 1)) % 2 * 2 ^ k + revBits k ((x % 2 ^ (k + 1)) / 2)) * 2 ^ (w' - k) +
          revBits (w' - k) (x / 2 ^ (k + 1)) := by
        rw [e1, e2, e3, e5]; ring
      _ = revBits (k + 1) (x % 2 ^ (k + 1)) * 2 ^ (w' + 1 - (k + 1)) +
          revBits (w' + 1 - (k + 1)) (x / 2 ^ (k + 1)) := by
        rw [e4, show revBits (k + 1) (x % 2 ^ (k + 1)) =
          (x % 2 ^ (k + 1)) % 2 * 2 ^ k + revBits k ((x % 2 ^ (k + 1)) / 2) from rfl]

theorem revBits_mod_self (w x : Nat) : revBits w (x % 2 ^ w) = revBits w x := by
  have h := revBits_decomp w w x le_rfl
  have h2 := revBits_decomp w w (x % 2 ^ w) le_rfl
  simp only [Nat.sub_self, pow_zero, mul_one, revBits] at h h2
  rw [h, h2, Nat.mod_mod_of_dvd _ dvd_rfl]

theorem revBits_revBits (w : Nat) : ∀ x : Nat, x < 2 ^ w → revBits w (revBits w x) = x := by
  induction w with
  | zero => intro x hx; interval_cases x; rfl
  | succ w ih =>
    intro x hx
    have hrlt := revBits_lt w (x / 2)
    have hy : revBits (w + 1) x = x % 2 * 2 ^ w + revBits w (x / 2) := rfl
    have h1 : (x % 2 * 2 ^ w + revBits w (x / 2)) % 2 ^ w = revBits w (x / 2) := by
      rw [mul_comm, Nat.mul_add_mod, Nat.mod_eq_of_lt hrlt]
    have h2 : (x % 2 * 2 ^ w + revBits w (x / 2)) / 2 ^ w = x % 2 := by
      rw [mul_comm, Nat.mul_add_div (Nat.two_pow_pos w), Nat.div_eq_of_lt hrlt, Nat.add_zero]
    have hd := revBits_decomp w (w + 1) (revBits (w + 1) x) (by omega)
    rw [hy] at hd
    rw [hy, hd, h1, h2]
    have e1 : w + 1 - w = 1 := by omega
    rw [e1, ih (x / 2) (by
      have : (2 : Nat) ^ (w + 1) = 2 ^ w * 2 := by rw [pow_succ]
      omega)]
    have e2 : revBits 1 (x % 2) = x % 2 := by
      simp [revBits, Nat.mod_mod_of_dvd x dvd_rfl]
    rw [e2]
    omega

theorem revBits_mod_le (k w x : Nat) (h : k ≤ w) : revBits w (x % 2 ^ k) ≤ revBits w x := by
  rw [revBits_decomp k w x h, revBits_decomp k w (x % 2 ^ k) h,
    Nat.mod_mod_of_dvd _ dvd_rfl, Nat.div_eq_of_lt (Nat.mod_lt x (Nat.two_pow_pos k)),
    revBits_zero]
  exact Nat.le_add_right _ _

/-- The byte-table assembly of `bit_reverse_u64` computes the 64-bit
reversal. -/
theorem bit_reverse_u64_eq (v : Nat) : bit_reverse_u64 v = revBits 64 v := by
  have d : ∀ w x : Nat, 8 ≤ w →
      revBits w x = revBits 8 (x % 2 ^ 8) * 2 ^ (w - 8) + revBits (w - 8) (x / 2 ^ 8) :=
    fun w x h => revBits_decomp 8 w x h
  have e1 := d 64 v (by norm_num)
  have e2 := d 56 (v / 2 ^ 8) (by norm_num)
  have e3 := d 48 (v / 2 ^ 16) (by norm_num)
  have e4 := d 40 (v / 2 ^ 24) (by norm_num)
  have e5 := d 32 (v / 2 ^ 32) (by norm_num)
  have e6 := d 24 (v / 2 ^ 40) (by norm_num)
  have e7 := d 16 (v / 2 ^ 48) (by norm_num)
  norm_num at e1 e2 e3 e4 e5 e6 e7
  have dd1 : v / 256 / 256 = v / 65536 := by rw [Nat.div_div_eq_div_mul]
  have dd2 : v / 65536 / 256 = v / 16777216 := by rw [Nat.div_div_eq_div_mul]
  have dd3 : v / 16777216 / 256 = v / 4294967296 := by rw [Nat.div_div_eq_div_mul]
  have dd4 : v / 4294967296 / 256 = v / 1099511627776 := by rw [Nat.div_div_eq_div_mul]
  have dd5 : v / 1099511627776 / 256 = v / 281474976710656 := by rw [Nat.div_div_eq_div_mul]
  have dd6 : v / 281474976710656 / 256 = v / 72057594037927936 := by rw [Nat.div_div_eq_div_mul]
  rw [dd1] at e2; rw [dd2] at e3; rw [dd3] at e4; rw [dd4] at e5; rw [dd5] at e6; rw [dd6] at e7
  rw [e1, e2, e3, e4, e5, e6, e7]
  unfold bit_reverse_u64 bit_reverse_u8
  norm_num
  have em : revBits 8 (v / 72057594037927936 % 256) = revBits 8 (v / 72057594037927936) := by
    have := revBits_mod_self 8 (v / 72057594037927936)
    norm_num at this
    exact this
  rw [em]
  ring

theorem bit_reverse_ulong_eq (v : Nat) : bit_reverse_ulong v = revBits 64 v :=
  bit_reverse_u64_eq v

theorem bit_reverse_ulong_lt (v : Nat) : bit_reverse_ulong v < 2 ^ 64 := by
  rw [bit_reverse_ulong_eq]; exact revBits_lt 64 v

theorem bit_reverse_ulong_invol (v : Nat) (h : v < 2 ^ 64) :
    bit_reverse_ulong (bit_reverse_ulong v) = v := by
  rw [bit_reverse_ulong_eq, bit_reverse_ulong_eq]; exact revBits_revBits 64 v h

/-! ## Lemmas about the fls cascade -/

theorem testBit_div_two_pow (x k i : Nat) : (x / 2 ^ k).testBit i = x.testBit (k + i) := by
  rw [← Nat.shiftRight_eq_div_pow, Nat.testBit_shiftRight]

/-- The high-bit mask test of each cascade stage: for a `w`-bit word, ANDing
with `2^w - 2^(w-s)` (the top `s` bits) is zero iff the word is below
`2^(w-s)`. -/
theorem and_highmask_eq_zero_iff (w s x : Nat) (hsw : s ≤ w) (hx : x < 2 ^ w) :
    (x &&& (2 ^ w - 2 ^ (w - s)) = 0) ↔ x < 2 ^ (w - s) := by
  have hmask : 2 ^ w - 2 ^ (w - s) = 2 ^ (w - s) * (2 ^ s - 1) := by
    have h1 : (2 : Nat) ^ (w - s) * 2 ^ s = 2 ^ w := by
      rw [← pow_add]; congr 1; omega
    have h2 : (1 : Nat) ≤ 2 ^ s := Nat.one_le_two_pow
    rw [Nat.mul_sub_one]
    omega
  constructor
  · intro h0
    by_contra hlt
    push_neg at hlt
    have hd : x / 2 ^ (w - s) ≠ 0 := by
      have : 1 ≤ x / 2 ^ (w - s) := (Nat.one_le_div_iff (Nat.two_pow_pos _)).2 hlt
      omega
    obtain ⟨i, hi⟩ := Nat.ne_zero_implies_bit_true hd
    rw [testBit_div_two_pow] at hi
    have hiw : w - s + i < w := by
      by_contra hbig
      push_neg at hbig
      have hge := Nat.testBit_implies_ge hi
      have : (2 : Nat) ^ w ≤ 2 ^ (w - s + i) := Nat.pow_le_pow_right (by norm_num) hbig
      omega
    have hbm : (2 ^ w - 2 ^ (w - s)).testBit (w - s + i) = true := by
      rw [hmask, Nat.testBit_mul_pow_two]
      have e1 : w - s + i - (w - s) = i := by omega
      simp [e1, Nat.testBit_two_pow_sub_one]
      omega
    have : (x &&& (2 ^ w - 2 ^ (w - s))).testBit (w - s + i) = true := by
      rw [Nat.testBit_and, hi, hbm]; rfl
    rw [h0] at this
    simp at this
  · intro hlt
    apply Nat.eq_of_testBit_eq
    intro i
    rw [Nat.testBit_and, Nat.zero_testBit]
    rcases lt_or_ge i (w - s) with hi | hi
    · have : (2 ^ w - 2 ^ (w - s)).testBit i = false := by
        rw [hmask, Nat.testBit_mul_pow_two]
        simp
        omega
      simp [this]
    · have : x.testBit i = false :=
        Nat.testBit_lt_two_pow (lt_of_lt_of_le hlt (Nat.pow_le_pow_right (by norm_num) hi))
      simp [this]

/-- Verified behaviour of one cascade stage on a value `x0 * 2^k` that has
already been shifted `k` places: the shift count grows, the value stays an
exact shift of `x0`, stays below `2^w`, and afterwards the top `s` bits are
no longer all zero. -/
theorem fls_stage_spec (w s x0 k : Nat) (hsw : s ≤ w) (hx0 : 0 < x0)
    (hxw : x0 * 2 ^ k < 2 ^ w) (hxl : 2 ^ (w - 2 * s) ≤ x0 * 2 ^ k) :
    ∃ k', k ≤ k' ∧ fls_stage w s (x0 * 2 ^ k, w - k) = (x0 * 2 ^ k', w - k') ∧
      x0 * 2 ^ k' < 2 ^ w ∧ 2 ^ (w - s) ≤ x0 * 2 ^ k' := by
  unfold fls_stage
  by_cases hc : x0 * 2 ^ k &&& (2 ^ w - 2 ^ (w - s)) = 0
  · have hlt : x0 * 2 ^ k < 2 ^ (w - s) := (and_highmask_eq_zero_iff w s _ hsw hxw).1 hc
    have hk : 2 ^ k ≤ x0 * 2 ^ k := Nat.le_mul_of_pos_left _ hx0
    have hks : k < w - s := by
      have h2 : (2 : Nat) ^ k < 2 ^ (w - s) := lt_of_le_of_lt hk hlt
      exact (Nat.pow_lt_pow_iff_right (by norm_num)).1 h2
    have hlt2 : x0 * 2 ^ (k + s) < 2 ^ w := by
      calc x0 * 2 ^ (k + s) = x0 * 2 ^ k * 2 ^ s := by rw [pow_add, ← mul_assoc]
        _ < 2 ^ (w - s) * 2 ^ s := (Nat.mul_lt_mul_right (Nat.two_pow_pos s)).2 hlt
        _ = 2 ^ w := by rw [← pow_add]; congr 1; omega
    refine ⟨k + s, by omega, ?_, hlt2, ?_⟩
    · have hsh : (x0 * 2 ^ k) <<< s = x0 * 2 ^ (k + s) := by
        rw [Nat.shiftLeft_eq, mul_assoc, ← pow_add]
      simp only [if_pos hc]
      rw [hsh, Nat.mod_eq_of_lt hlt2]
      have e : w - k - s = w - (k + s) := by omega
      rw [e]
    · have h3 : 2 ^ (w - 2 * s) * 2 ^ s ≤ x0 * 2 ^ k * 2 ^ s := Nat.mul_le_mul_right _ hxl
      have h4 : (2 : Nat) ^ (w - s) ≤ 2 ^ (w - 2 * s) * 2 ^ s := by
        rw [← pow_add]
        apply Nat.pow_le_pow_right (by norm_num)
        omega
      calc (2 : Nat) ^ (w - s) ≤ 2 ^ (w - 2 * s) * 2 ^ s := h4
        _ ≤ x0 * 2 ^ k * 2 ^ s := h3
        _ = x0 * 2 ^ (k + s) := by rw [pow_add, mul_assoc]
  · have hge : 2 ^ (w - s) ≤ x0 * 2 ^ k := by
      by_contra h
      push_neg at h
      exact hc ((and_highmask_eq_zero_iff w s _ hsw hxw).2 h)
    exact ⟨k, le_rfl, by simp only [if_neg hc], hxw, hge⟩

theorem fls_u64_spec (x : Nat) (h0 : 0 < x) (hw : x < 2 ^ 64) :
    0 < fls_u64 x ∧ fls_u64 x ≤ 64 ∧ 2 ^ (fls_u64 x - 1) ≤ x ∧ x < 2 ^ fls_u64 x := by
  have hx64 : x % 2 ^ 64 = x := Nat.mod_eq_of_lt hw
  have hne : ¬(x % 2 ^ 64 = 0) := by omega
  have hx0 : x = x * 2 ^ 0 := by norm_num
  obtain ⟨k1, hk1, he1, hw1, hl1⟩ := fls_stage_spec 64 32 x 0 (by norm_num) h0
    (by rw [← hx0]; exact hw) (by rw [← hx0]; norm_num; omega)
  obtain ⟨k2, hk2, he2, hw2, hl2⟩ := fls_stage_spec 64 16 x k1 (by norm_num) h0 hw1
    (by norm_num; exact hl1)
  obtain ⟨k3, hk3, he3, hw3, hl3⟩ := fls_stage_spec 64 8 x k2 (by norm_num) h0 hw2
    (by norm_num; exact hl2)
  obtain ⟨k4, hk4, he4, hw4, hl4⟩ := fls_stage_spec 64 4 x k3 (by norm_num) h0 hw3
    (by norm_num; exact hl3)
  obtain ⟨k5, hk5, he5, hw5, hl5⟩ := fls_stage_spec 64 2 x k4 (by norm_num) h0 hw4
    (by norm_num; exact hl4)
  obtain ⟨k6, hk6, he6, hw6, hl6⟩ := fls_stage_spec 64 1 x k5 (by norm_num) h0 hw5
    (by norm_num; exact hl5)
  have heq : fls_u64 x = 64 - k6 := by
    unfold fls_u64
    rw [if_neg hne, hx64]
    rw [show ((x, 64) : Nat × Nat) = (x * 2 ^ 0, 64 - 0) by norm_num]
    rw [he1, he2, he3, he4, he5, he6]
  have hk64 : k6 < 64 := by
    have h1 : 2 ^ k6 ≤ x * 2 ^ k6 := Nat.le_mul_of_pos_left _ h0
    have h2 : (2 : Nat) ^ k6 < 2 ^ 64 := lt_of_le_of_lt h1 hw6
    exact (Nat.pow_lt_pow_iff_right (by norm_num)).1 h2
  have hxlt : x < 2 ^ (64 - k6) := by
    have he : (2 : Nat) ^ 64 = 2 ^ (64 - k6) * 2 ^ k6 := by
      rw [← pow_add]; congr 1; omega
    rw [he] at hw6
    exact Nat.lt_of_mul_lt_mul_right hw6
  have hxge : 2 ^ (64 - k6 - 1) ≤ x := by
    have he : (2 : Nat) ^ 63 = 2 ^ (63 - k6) * 2 ^ k6 := by
      rw [← pow_add]; congr 1; omega
    have h63 : (2 : Nat) ^ 63 ≤ x * 2 ^ k6 := hl6
    rw [he] at h63
    have := Nat.le_of_mul_le_mul_right h63 (Nat.two_pow_pos k6)
    have e : 64 - k6 - 1 = 63 - k6 := by omega
    rw [e]
    exact this
  rw [heq]
  exact ⟨by omega, by omega, hxge, hxlt⟩

theorem fls_u64_zero : fls_u64 0 = 0 := by norm_num [fls_u64]

theorem fls_u32_spec (x : Nat) (h0 : 0 < x) (hw : x < 2 ^ 32) :
    0 < fls_u32 x ∧ fls_u32 x ≤ 32 ∧ 2 ^ (fls_u32 x - 1) ≤ x ∧ x < 2 ^ fls_u32 x := by
  have hx32 : x % 2 ^ 32 = x := Nat.mod_eq_of_lt hw
  have hne : ¬(x % 2 ^ 32 = 0) := by omega
  have hx0 : x = x * 2 ^ 0 := by norm_num
  obtain ⟨k1, hk1, he1, hw1, hl1⟩ := fls_stage_spec 32 16 x 0 (by norm_num) h0
    (by rw [← hx0]; exact hw) (by rw [← hx0]; norm_num; omega)
  obtain ⟨k2, hk2, he2, hw2, hl2⟩ := fls_stage_spec 32 8 x k1 (by norm_num) h0 hw1
    (by norm_num; exact hl1)
  obtain ⟨k3, hk3, he3, hw3, hl3⟩ := fls_stage_spec 32 4 x k2 (by norm_num) h0 hw2
    (by norm_num; exact hl2)
  obtain ⟨k4, hk4, he4, hw4, hl4⟩ := fls_stage_spec 32 2 x k3 (by norm_num) h0 hw3
    (by norm_num; exact hl3)
  obtain ⟨k5, hk5, he5, hw5, hl5⟩ := fls_stage_spec 32 1 x k4 (by norm_num) h0 hw4
    (by norm_num; exact hl4)
  have heq : fls_u32 x = 32 - k5 := by
    unfold fls_u32
    rw [if_neg hne, hx32]
    rw [show ((x, 32) : Nat × Nat) = (x * 2 ^ 0, 32 - 0) by norm_num]
    rw [he1, he2, he3, he4, he5]
  have hk32 : k5 < 32 := by
    have h1 : 2 ^ k5 ≤ x * 2 ^ k5 := Nat.le_mul_of_pos_left _ h0
    have h2 : (2 : Nat) ^ k5 < 2 ^ 32 := lt_of_le_of_lt h1 hw5
    exact (Nat.pow_lt_pow_iff_right (by norm_num)).1 h2
  have hxlt : x < 2 ^ (32 - k5) := by
    have he : (2 : Nat) ^ 32 = 2 ^ (32 - k5) * 2 ^ k5 := by
      rw [← pow_add]; congr 1; omega
    rw [he] at hw5
    exact Nat.lt_of_mul_lt_mul_right hw5
  have hxge : 2 ^ (32 - k5 - 1) ≤ x := by
    have he : (2 : Nat) ^ 31 = 2 ^ (31 - k5) * 2 ^ k5 := by
      rw [← pow_add]; congr 1; omega
    have h31 : (2 : Nat) ^ 31 ≤ x * 2 ^ k5 := hl5
    rw [he] at h31
    have := Nat.le_of_mul_le_mul_right h31 (Nat.two_pow_pos k5)
    have e : 32 - k5 - 1 = 31 - k5 := by omega
    rw [e]
    exact this
  rw [heq]
  exact ⟨by omega, by omega, hxge, hxlt⟩

theorem fls_u32_zero : fls_u32 0 = 0 := by norm_num [fls_u32]

/-- Uniqueness: `fls_u64 x` is the only `k ≥ 1` with `2^(k-1) ≤ x < 2^k`. -/
theorem fls_u64_eq (x k : Nat) (hw : x < 2 ^ 64) (hk : 0 < k)
    (h1 : 2 ^ (k - 1) ≤ x) (h2 : x < 2 ^ k) : fls_u64 x = k := by
  have h0 : 0 < x := lt_of_lt_of_le (Nat.two_pow_pos (k - 1)) h1
  obtain ⟨hf0, _, hf1, hf2⟩ := fls_u64_spec x h0 hw
  by_contra hne
  rcases Nat.lt_or_ge (fls_u64 x) k with h | h
  · have : (2 : Nat) ^ fls_u64 x ≤ 2 ^ (k - 1) := Nat.pow_le_pow_right (by norm_num) (by omega)
    omega
  · have : (2 : Nat) ^ k ≤ 2 ^ (fls_u64 x - 1) := Nat.pow_le_pow_right (by norm_num) (by omega)
    omega

theorem fls_u32_eq (x k : Nat) (hw : x < 2 ^ 32) (hk : 0 < k)
    (h1 : 2 ^ (k - 1) ≤ x) (h2 : x < 2 ^ k) : fls_u32 x = k := by
  have h0 : 0 < x := lt_of_lt_of_le (Nat.two_pow_pos (k - 1)) h1
  obtain ⟨hf0, _, hf1, hf2⟩ := fls_u32_spec x h0 hw
  by_contra hne
  rcases Nat.lt_or_ge (fls_u32 x) k with h | h
  · have : (2 : Nat) ^ fls_u32 x ≤ 2 ^ (k - 1) := Nat.pow_le_pow_right (by norm_num) (by omega)
    omega
  · have : (2 : Nat) ^ k ≤ 2 ^ (fls_u32 x - 1) := Nat.pow_le_pow_right (by norm_num) (by omega)
    omega

/-! ## Bucket-index arithmetic -/

theorem fls_ulong_zero : fls_ulong 0 = 0 := fls_u64_zero

theorem fls_ulong_spec (x : Nat) (h0 : 0 < x) (hw : x < 2 ^ 64) :
    0 < fls_ulong x ∧ fls_ulong x ≤ 64 ∧ 2 ^ (fls_ulong x - 1) ≤ x ∧ x < 2 ^ fls_ulong x :=
  fls_u64_spec x h0 hw

theorem fls_ulong_eq (x k : Nat) (hw : x < 2 ^ 64) (hk : 0 < k)
    (h1 : 2 ^ (k - 1) ≤ x) (h2 : x < 2 ^ k) : fls_ulong x = k :=
  fls_u64_eq x k hw hk h1 h2

/-- Within a nonzero level, the masked indexing `idx & (2^(order-1) - 1)`
computes the offset `idx - 2^(order-1)` into the level array. -/
theorem mask_eq_sub (idx : Nat) (h0 : 0 < idx) (hw : idx < 2 ^ 64) :
    idx &&& (2 ^ (fls_ulong idx - 1) - 1) = idx - 2 ^ (fls_ulong idx - 1) := by
  obtain ⟨hf0, _, hf1, hf2⟩ := fls_ulong_spec idx h0 hw
  rw [Nat.and_pow_two_sub_one_eq_mod]
  have h2 : idx < 2 ^ (fls_ulong idx - 1) * 2 := by
    have e : (2 : Nat) ^ (fls_ulong idx - 1) * 2 = 2 ^ fls_ulong idx := by
      rw [← pow_succ]; congr 1; omega
    omega
  rw [Nat.mod_eq_sub_mod hf1, Nat.mod_eq_of_lt (by omega)]

/-- `fls` of the bucket index covered by slot `j` of order `o`. -/
theorem fls_ulong_levelIdx (o j : Nat) (ho : 0 < o) (ho64 : o ≤ 64) (hj : j < 2 ^ (o - 1)) :
    fls_ulong (levelIdx o j) = o := by
  have he : levelIdx o j = 2 ^ (o - 1) + j := by simp [levelIdx, Nat.pos_iff_ne_zero.1 ho]
  have h2 : 2 ^ (o - 1) + j < 2 ^ o := by
    have : (2 : Nat) ^ (o - 1) * 2 = 2 ^ o := by rw [← pow_succ]; congr 1; omega
    omega
  have h64 : levelIdx o j < 2 ^ 64 := by
    have : (2 : Nat) ^ o ≤ 2 ^ 64 := Nat.pow_le_pow_right (by norm_num) ho64
    omega
  exact fls_ulong_eq _ o h64 ho (by omega) (by omega)

/-- The slot of `bucketAddr` lies inside the level array. -/
theorem bucketAddr_slot_lt (idx : Nat) (hw : idx < 2 ^ 64) :
    (if fls_ulong idx = 0 then 0 else idx - 2 ^ (fls_ulong idx - 1)) < lenOrder (fls_ulong idx) := by
  rcases Nat.eq_zero_or_pos idx with rfl | h0
  · simp [fls_ulong_zero, lenOrder]
  · obtain ⟨hf0, _, hf1, hf2⟩ := fls_ulong_spec idx h0 hw
    have hne : fls_ulong idx ≠ 0 := by omega
    simp only [hne, if_neg, lenOrder, if_false]
    have e : (2 : Nat) ^ (fls_ulong idx - 1) * 2 = 2 ^ fls_ulong idx := by
      rw [← pow_succ]; congr 1; omega
    omega

/-- `bucketAddr` at the bucket index of slot `j` of order `o` is that slot. -/
theorem bucketAddr_levelIdx (ht : HT) (o j : Nat) (ho64 : o ≤ 64) (hj : j < lenOrder o) :
    bucketAddr ht (levelIdx o j) = ht.tbl o + j := by
  rcases Nat.eq_zero_or_pos o with rfl | ho
  · have hj0 : j = 0 := by simpa [lenOrder] using hj
    subst hj0
    simp [bucketAddr, levelIdx, fls_ulong_zero]
  · have hj' : j < 2 ^ (o - 1) := by simpa [lenOrder, Nat.pos_iff_ne_zero.1 ho] using hj
    have hf := fls_ulong_levelIdx o j ho ho64 hj'
    have he : levelIdx o j = 2 ^ (o - 1) + j := by simp [levelIdx, Nat.pos_iff_ne_zero.1 ho]
    rw [bucketAddr, hf, if_neg (by omega), he]
    congr 1
    omega

/-- `lookup_bucket` computes `bucketAddr` of `hash mod size` when the size is
a power of two. -/
theorem lookup_bucket_eq (ht : HT) (k hash : Nat) (hk : k ≤ 64) :
    lookup_bucket ht (2 ^ k) hash = bucketAddr ht (hash % 2 ^ k) := by
  unfold lookup_bucket bucketAddr
  rw [Nat.and_pow_two_sub_one_eq_mod]
  set idx := hash % 2 ^ k with hidx
  have hw : idx < 2 ^ 64 := by
    have h1 : idx < 2 ^ k := Nat.mod_lt hash (Nat.two_pow_pos k)
    have h2 : (2 : Nat) ^ k ≤ 2 ^ 64 := Nat.pow_le_pow_right (by norm_num) hk
    omega
  rcases Nat.eq_zero_or_pos idx with h0 | h0
  · rw [h0]
    simp [fls_ulong_zero]
  · have hne : fls_ulong idx ≠ 0 := by
      obtain ⟨hf0, _, _, _⟩ := fls_ulong_spec idx h0 hw
      omega
    show ht.tbl (fls_ulong idx) +
        (idx &&& if fls_ulong idx = 0 then 0 else 2 ^ (fls_ulong idx - 1) - 1) =
      ht.tbl (fls_ulong idx) + (if fls_ulong idx = 0 then 0 else idx - 2 ^ (fls_ulong idx - 1))
    rw [if_neg hne, if_neg hne, mask_eq_sub idx h0 hw]

/-! ## Frame lemmas for the heap operations -/

@[simp] theorem writeNext_size (ht : HT) (a : Nat) (p : TaggedPtr) :
    (ht.writeNext a p).size = ht.size := rfl

@[simp] theorem writeNext_rt (ht : HT) (a : Nat) (p : TaggedPtr) :
    (ht.writeNext a p).resize_target = ht.resize_target := rfl

@[simp] theorem writeNext_tbl (ht : HT) (a : Nat) (p : TaggedPtr) :
    (ht.writeNext a p).tbl = ht.tbl := rfl

@[simp] theorem writeNext_nOrders (ht : HT) (a : Nat) (p : TaggedPtr) :
    (ht.writeNext a p).nOrders = ht.nOrders := rfl

@[simp] theorem writeNext_initb (ht : HT) (a : Nat) (p : TaggedPtr) :
    (ht.writeNext a p).initb = ht.initb := rfl

@[simp] theorem writeNext_brk (ht : HT) (a : Nat) (p : TaggedPtr) :
    (ht.writeNext a p).brk = ht.brk := rfl

@[simp] theorem writeNext_hf (ht : HT) (a : Nat) (p : TaggedPtr) :
    (ht.writeNext a p).hash_fct = ht.hash_fct := rfl

@[simp] theorem writeNext_mem (ht : HT) (a : Nat) (p : TaggedPtr) (x : Nat) :
    (ht.writeNext a p).mem x = if x = a then { ht.mem a with next := p } else ht.mem x := by
  unfold HT.writeNext
  by_cases h : x = a <;> simp [h]

@[simp] theorem writeHash_size (ht : HT) (a rh : Nat) : (ht.writeHash a rh).size = ht.size := rfl

@[simp] theorem writeHash_rt (ht : HT) (a rh : Nat) :
    (ht.writeHash a rh).resize_target = ht.resize_target := rfl

@[simp] theorem writeHash_tbl (ht : HT) (a rh : Nat) : (ht.writeHash a rh).tbl = ht.tbl := rfl

@[simp] theorem writeHash_nOrders (ht : HT) (a rh : Nat) :
    (ht.writeHash a rh).nOrders = ht.nOrders := rfl

@[simp] theorem writeHash_brk (ht : HT) (a rh : Nat) : (ht.writeHash a rh).brk = ht.brk := rfl

@[simp] theorem writeHash_hf (ht : HT) (a rh : Nat) :
    (ht.writeHash a rh).hash_fct = ht.hash_fct := rfl

@[simp] theorem writeHash_mem (ht : HT) (a rh : Nat) (x : Nat) :
    (ht.writeHash a rh).mem x =
      if x = a then { ht.mem a with reverse_hash := rh } else ht.mem x := by
  unfold HT.writeHash
  by_cases h : x = a <;> simp [h]

@[simp] theorem writeHash_initb (ht : HT) (a rh : Nat) (x : Nat) :
    (ht.writeHash a rh).initb x = if x = a then true else ht.initb x := rfl

@[simp] theorem allocNode_fst_size (ht : HT) (k rh : Nat) :
    (ht.allocNode k rh).1.size = ht.size := rfl

@[simp] theorem allocNode_fst_rt (ht : HT) (k rh : Nat) :
    (ht.allocNode k rh).1.resize_target = ht.resize_target := rfl

@[simp] theorem allocNode_fst_tbl (ht : HT) (k rh : Nat) :
    (ht.allocNode k rh).1.tbl = ht.tbl := rfl

@[simp] theorem allocNode_fst_nOrders (ht : HT) (k rh : Nat) :
    (ht.allocNode k rh).1.nOrders = ht.nOrders := rfl

@[simp] theorem allocNode_fst_brk (ht : HT) (k rh : Nat) :
    (ht.allocNode k rh).1.brk = ht.brk + 1 := rfl

@[simp] theorem allocNode_fst_hf (ht : HT) (k rh : Nat) :
    (ht.allocNode k rh).1.hash_fct = ht.hash_fct := rfl

@[simp] theorem allocNode_snd (ht : HT) (k rh : Nat) : (ht.allocNode k rh).2 = ht.brk := rfl

@[simp] theorem allocNode_fst_mem (ht : HT) (k rh : Nat) (x : Nat) :
    (ht.allocNode k rh).1.mem x =
      if x = ht.brk then { ht.mem ht.brk with key := k, reverse_hash := rh } else ht.mem x := by
  unfold HT.allocNode
  by_cases h : x = ht.brk <;> simp [h]

@[simp] theorem allocNode_fst_initb (ht : HT) (k rh : Nat) (x : Nat) :
    (ht.allocNode k rh).1.initb x = if x = ht.brk then true else ht.initb x := rfl

@[simp] theorem callocLevel_size (ht : HT) (i : Nat) : (callocLevel ht i).size = ht.size := rfl

@[simp] theorem callocLevel_rt (ht : HT) (i : Nat) :
    (callocLevel ht i).resize_target = ht.resize_target := rfl

@[simp] theorem callocLevel_tbl (ht : HT) (i : Nat) (o : Nat) :
    (callocLevel ht i).tbl o = if o = i then ht.brk else ht.tbl o := rfl

@[simp] theorem callocLevel_nOrders (ht : HT) (i : Nat) :
    (callocLevel ht i).nOrders = max ht.nOrders (i + 1) := rfl

@[simp] theorem callocLevel_initb (ht : HT) (i : Nat) : (callocLevel ht i).initb = ht.initb := rfl

@[simp] theorem callocLevel_brk (ht : HT) (i : Nat) :
    (callocLevel ht i).brk = ht.brk + lenOrder i := rfl

@[simp] theorem callocLevel_hf (ht : HT) (i : Nat) :
    (callocLevel ht i).hash_fct = ht.hash_fct := rfl

@[simp] theorem callocLevel_mem (ht : HT) (i : Nat) (x : Nat) :
    (callocLevel ht i).mem x =
      if ht.brk ≤ x ∧ x < ht.brk + lenOrder i then ⟨0, 0, get_end⟩ else ht.mem x := rfl

theorem sameShape_refl (ht : HT) : SameShape ht ht := by
  unfold SameShape
  exact ⟨rfl, rfl, rfl, rfl, rfl, rfl, rfl⟩

theorem sameShape_trans {a b c : HT} (h1 : SameShape a b) (h2 : SameShape b c) :
    SameShape a c := by
  obtain ⟨e1, e2, e3, e4, e5, e6, e7⟩ := h1
  obtain ⟨f1, f2, f3, f4, f5, f6, f7⟩ := h2
  exact ⟨f1.trans e1, f2.trans e2, f3.trans e3, f4.trans e4, f5.trans e5, f6.trans e6, f7.trans e7⟩

theorem writeNext_sameShape (ht : HT) (a : Nat) (p : TaggedPtr) :
    SameShape ht (ht.writeNext a p) :=
  ⟨rfl, rfl, rfl, rfl, rfl, rfl, rfl⟩

theorem gc_bucket_sameShape (d n : Nat) :
    ∀ (fuel : Nat) (ht : HT), SameShape ht (_cds_lfht_gc_bucket ht d n fuel) := by
  intro fuel
  induction fuel with
  | zero => intro ht; exact sameShape_refl ht
  | succ fuel ih =>
    intro ht
    unfold _cds_lfht_gc_bucket
    cases gc_inner ht (ht.mem n).reverse_hash (fuel + 1) d (ht.mem d).next with
    | done => exact sameShape_refl ht
    | unlink p iter nx =>
      simp only
      by_cases hc : (ht.mem p).next = iter
      · rw [if_pos hc]
        exact sameShape_trans (writeNext_sameShape ht p _) (ih _)
      · rw [if_neg hc]
        exact ih _

theorem replace_loop_sameShape (o n : Nat) :
    ∀ (fuel : Nat) (ht : HT) (obs : TaggedPtr),
      SameShape ht (replace_loop ht o n fuel obs).1 := by
  intro fuel
  induction fuel with
  | zero => intro ht obs; exact sameShape_refl ht
  | succ fuel ih =>
    intro ht obs
    unfold replace_loop
    by_cases hr : is_removed obs
    · rw [if_pos hr]; exact sameShape_refl ht
    · rw [if_neg hr]
      simp only
      by_cases hc : ((ht.writeNext n (clear_flag obs)).mem o).next = obs
      · rw [if_pos hc]
        exact sameShape_trans (writeNext_sameShape ht n _) (writeNext_sameShape _ o _)
      · rw [if_neg hc]
        exact sameShape_trans (writeNext_sameShape ht n _) (ih _ _)

theorem replace_sameShape (ht : HT) (size : Nat) (o : Option Nat) (obs : TaggedPtr)
    (n fuel : Nat) : SameShape ht (_cds_lfht_replace ht size o obs n fuel).1 := by
  unfold _cds_lfht_replace
  cases o with
  | none => exact sameShape_refl ht
  | some o =>
    simp only
    by_cases hf : (replace_loop ht o n fuel obs).2
    · rw [if_pos hf]
      exact sameShape_trans (replace_loop_sameShape o n fuel ht obs) (gc_bucket_sameShape _ _ _ _)
    · rw [if_neg hf]
      exact replace_loop_sameShape o n fuel ht obs

theorem add_loop_sameShape (size node : Nat) (mode : add_mode) (dummy : Bool) (start : Nat) :
    ∀ (fuel : Nat) (ht : HT), SameShape ht (add_loop size node mode dummy start ht fuel).1 := by
  intro fuel
  induction fuel with
  | zero => intro ht; exact sameShape_refl ht
  | succ fuel ih =>
    intro ht
    unfold add_loop
    cases add_walk ht node mode dummy (fuel + 1) start (ht.mem start).next with
    | out => exact sameShape_refl ht
    | insert p iter =>
      simp only
      by_cases hc : ((ht.writeNext node
          (if dummy then flag_dummy (clear_flag iter) else clear_flag iter)).mem p).next = iter
      · rw [if_pos hc]
        exact sameShape_trans (writeNext_sameShape ht node _) (writeNext_sameShape _ p _)
      · rw [if_neg hc]
        exact sameShape_trans (writeNext_sameShape ht node _) (ih _)
    | found it nx =>
      simp only
      by_cases hm : mode = add_mode.ADD_UNIQUE
      · rw [if_pos hm]; exact sameShape_refl ht
      · rw [if_neg hm]
        by_cases hz : (_cds_lfht_replace ht size (some it) nx node fuel).2 = 0
        · rw [if_pos hz]
          exact replace_sameShape ht size (some it) nx node fuel
        · rw [if_neg hz]
          exact sameShape_trans (replace_sameShape ht size (some it) nx node fuel) (ih _)
    | gcNode p iter nx =>
      simp only
      by_cases hc : (ht.mem p).next = iter
      · rw [if_pos hc]
        exact sameShape_trans (writeNext_sameShape ht p _) (ih _)
      · rw [if_neg hc]
        exact ih _

theorem add_sameShape (ht : HT) (size node : Nat) (mode : add_mode) (dummy : Bool)
    (fuel : Nat) : SameShape ht (_cds_lfht_add ht size node mode dummy fuel).1 := by
  unfold _cds_lfht_add
  by_cases hs : size = 0
  · rw [if_pos hs]; exact writeNext_sameShape ht node _
  · rw [if_neg hs]
    exact add_loop_sameShape size node mode dummy _ fuel ht

theorem del_sameShape (ht : HT) (size : Nat) (node : Option Nat) (fuel : Nat) :
    SameShape ht (_cds_lfht_del ht size node fuel).1 := by
  unfold _cds_lfht_del
  cases node with
  | none => exact sameShape_refl ht
  | some n =>
    simp only
    by_cases hr : is_removed (ht.mem n).next
    · rw [if_pos hr]; exact sameShape_refl ht
    · rw [if_neg hr]
      exact sameShape_trans (writeNext_sameShape ht n _) (gc_bucket_sameShape _ _ _ _)

theorem eqSkel_refl (ht : HT) : EqSkel ht ht := ⟨rfl, rfl, rfl, rfl, rfl, rfl⟩

theorem eqSkel_trans {a b c : HT} (h1 : EqSkel a b) (h2 : EqSkel b c) : EqSkel a c := by
  obtain ⟨e1, e2, e3, e4, e5, e6⟩ := h1
  obtain ⟨f1, f2, f3, f4, f5, f6⟩ := h2
  exact ⟨f1.trans e1, f2.trans e2, f3.trans e3, f4.trans e4, f5.trans e5, f6.trans e6⟩

theorem SameShape.eqSkel {a b : HT} (h : SameShape a b) : EqSkel a b := by
  obtain ⟨e1, e2, e3, e4, _, e6, e7⟩ := h
  exact ⟨e1, e2, e3, e4, e6, e7⟩

theorem writeHash_eqSkel (ht : HT) (a rh : Nat) : EqSkel ht (ht.writeHash a rh) :=
  ⟨rfl, rfl, rfl, rfl, rfl, rfl⟩

theorem populate_step_eqSkel (i fuel : Nat) (ht : HT) (j : Nat) :
    EqSkel ht (populate_step i fuel ht j) := by
  unfold populate_step
  exact eqSkel_trans (writeHash_eqSkel ht _ _) (add_sameShape _ _ _ _ _ _).eqSkel

theorem remove_step_eqSkel (i fuel : Nat) (ht : HT) (j : Nat) :
    EqSkel ht (remove_step i fuel ht j) := by
  unfold remove_step
  exact eqSkel_trans (writeHash_eqSkel ht _ _) (del_sameShape _ _ _ _).eqSkel

theorem foldl_eqSkel (f : HT → Nat → HT) (hstep : ∀ ht j, EqSkel ht (f ht j)) :
    ∀ (l : List Nat) (ht : HT), EqSkel ht (l.foldl f ht) := by
  intro l
  induction l with
  | nil => intro ht; exact eqSkel_refl ht
  | cons j l ih =>
    intro ht
    exact eqSkel_trans (hstep ht j) (ih (f ht j))

theorem init_table_populate_eqSkel (ht : HT) (i fuel : Nat) :
    EqSkel ht (init_table_populate ht i fuel) :=
  foldl_eqSkel _ (populate_step_eqSkel i fuel) _ ht

theorem remove_table_eqSkel (ht : HT) (i fuel : Nat) : EqSkel ht (remove_table ht i fuel) :=
  foldl_eqSkel _ (remove_step_eqSkel i fuel) _ ht

/-! ## Size evolution of the resize engine -/

theorem gco_pow2 (k : Nat) (hk : k ≤ 64) :
    (get_count_order_ulong (2 ^ k) + 1).toNat = k + 1 := by
  rcases Nat.eq_zero_or_pos k with rfl | hkpos
  · norm_num [get_count_order_ulong, fls_ulong_zero]
  · have hne : (2 : Nat) ^ k ≠ 0 := by positivity
    have h1 : 2 ^ (k - 1) ≤ 2 ^ k - 1 := by
      have ha : (2 : Nat) ^ (k - 1) * 2 = 2 ^ k := by rw [← pow_succ]; congr 1; omega
      have hb : (1 : Nat) ≤ 2 ^ (k - 1) := Nat.one_le_two_pow
      omega
    have h2 : 2 ^ k - 1 < 2 ^ k := by
      have := Nat.two_pow_pos k
      omega
    have h64 : 2 ^ k - 1 < 2 ^ 64 := by
      have : (2 : Nat) ^ k ≤ 2 ^ 64 := Nat.pow_le_pow_right (by norm_num) hk
      omega
    have hfls : fls_ulong (2 ^ k - 1) = k := fls_ulong_eq _ k h64 hkpos h1 h2
    unfold get_count_order_ulong
    rw [if_neg hne, hfls]
    omega

theorem init_table_loop_size (fuel : Nat) :
    ∀ (l : Nat) (f : Nat) (ht : HT), 0 < l →
      (∀ i, f ≤ i → i < f + l → 2 ^ i ≤ ht.resize_target) →
      (init_table_loop fuel ht f l).size = 2 ^ (f + l - 1) ∧
      (init_table_loop fuel ht f l).resize_target = ht.resize_target := by
  intro l
  induction l with
  | zero => intro f ht h; omega
  | succ l ih =>
    intro f ht _ hall
    unfold init_table_loop
    rw [if_neg (by
      have := hall f (le_refl f) (by omega)
      omega)]
    simp only
    have hsk1 : EqSkel (callocLevel ht f) (init_table_populate (callocLevel ht f) f fuel) :=
      init_table_populate_eqSkel (callocLevel ht f) f fuel
    have hrt2 : (init_table_populate (callocLevel ht f) f fuel).resize_target =
        ht.resize_target := by
      rw [hsk1.2.1, callocLevel_rt]
    rcases Nat.eq_zero_or_pos l with rfl | hl
    · constructor
      · show (init_table_loop fuel _ (f + 1) 0).size = 2 ^ (f + 1 - 1)
        unfold init_table_loop
        simp only
        congr 1
      · show (init_table_loop fuel _ (f + 1) 0).resize_target = ht.resize_target
        unfold init_table_loop
        exact hrt2
    · have hht3 := ih (f + 1)
        { init_table_populate (callocLevel ht f) f fuel with size := 2 ^ f } hl
        (fun i hi1 hi2 => by
          show 2 ^ i ≤ (init_table_populate (callocLevel ht f) f fuel).resize_target
          rw [hrt2]
          exact hall i (by omega) (by omega))
      constructor
      · rw [hht3.1]; congr 1; omega
      · rw [hht3.2]; exact hrt2

theorem fini_table_loop_size (fuel fo : Nat) :
    ∀ (k : Nat) (ht : HT), 0 < k →
      (∀ i, fo ≤ i → i < fo + k → ht.resize_target ≤ 2 ^ (i - 1)) →
      (fini_table_loop fuel fo ht k).size = 2 ^ (fo - 1) ∧
      (fini_table_loop fuel fo ht k).resize_target = ht.resize_target := by
  intro k
  induction k with
  | zero => intro ht h; omega
  | succ k ih =>
    intro ht _ hall
    unfold fini_table_loop
    rw [if_neg (by
      have := hall (fo + k) (by omega) (by omega)
      omega)]
    simp only
    have hsk : EqSkel { ht with size := 2 ^ (fo + k - 1) }
        (remove_table { ht with size := 2 ^ (fo + k - 1) } (fo + k) fuel) :=
      remove_table_eqSkel _ _ _
    have hsz2 : (remove_table { ht with size := 2 ^ (fo + k - 1) } (fo + k) fuel).size =
        2 ^ (fo + k - 1) := hsk.1
    have hrt2 : (remove_table { ht with size := 2 ^ (fo + k - 1) } (fo + k) fuel).resize_target =
        ht.resize_target := hsk.2.1
    rcases Nat.eq_zero_or_pos k with rfl | hk
    · constructor
      · show (fini_table_loop fuel fo _ 0).size = 2 ^ (fo - 1)
        unfold fini_table_loop
        rw [hsz2]
        congr 1
      · show (fini_table_loop fuel fo _ 0).resize_target = ht.resize_target
        unfold fini_table_loop
        exact hrt2
    · have := ih (remove_table { ht with size := 2 ^ (fo + k - 1) } (fo + k) fuel) hk
        (fun i hi1 hi2 => by
          rw [hrt2]
          exact hall i (by omega) (by omega))
      exact ⟨this.1, this.2.trans hrt2⟩

/-- One pass of the `do { }` resize body drives a power-of-two table to a
power-of-two target. -/
theorem resize_step_to_target (ht : HT) (j m fuel : Nat) (hj : ht.size = 2 ^ j)
    (hj63 : j ≤ 63) (hm : m ≤ 63) (hrt : ht.resize_target = 2 ^ m) :
    (resize_step fuel ht).size = 2 ^ m ∧ (resize_step fuel ht).resize_target = 2 ^ m := by
  unfold resize_step
  rcases lt_trichotomy j m with hlt | heq | hgt
  · have hcond : ht.size < ht.resize_target := by
      rw [hj, hrt]
      exact Nat.pow_lt_pow_right (by norm_num) hlt
    rw [if_pos hcond]
    unfold _do_cds_lfht_grow
    rw [hj, hrt, gco_pow2 j (by omega), gco_pow2 m (by omega)]
    unfold init_table
    have h := init_table_loop_size fuel ((m + 1) - (j + 1)) (j + 1) ht (by omega)
      (fun i hi1 hi2 => by
        rw [hrt]
        exact Nat.pow_le_pow_right (by norm_num) (by omega))
    rw [h.1, h.2, hrt]
    constructor
    · congr 1; omega
    · rfl
  · rw [if_neg (by rw [hj, hrt, heq]; omega), if_neg (by rw [hj, hrt, heq]; omega)]
    rw [hj, hrt, heq]
    exact ⟨rfl, rfl⟩
  · have hcond1 : ¬ ht.size < ht.resize_target := by
      rw [hj, hrt]
      have := Nat.pow_lt_pow_right (show 1 < 2 by norm_num) hgt
      omega
    have hcond2 : ht.size > ht.resize_target := by
      rw [hj, hrt]
      exact Nat.pow_lt_pow_right (by norm_num) hgt
    rw [if_neg hcond1, if_pos hcond2]
    unfold _do_cds_lfht_shrink
    have hmax : max ht.resize_target MIN_TABLE_SIZE = 2 ^ m := by
      rw [hrt]
      have : (1 : Nat) ≤ 2 ^ m := Nat.one_le_two_pow
      simp [MIN_TABLE_SIZE]
      omega
    simp only [hj, hmax, gco_pow2 j (by omega), gco_pow2 m (by omega)]
    unfold fini_table
    have h := fini_table_loop_size fuel (m + 1) ((j + 1) - (m + 1)) ht (by omega)
      (fun i hi1 hi2 => by
        rw [hrt]
        exact Nat.pow_le_pow_right (by norm_num) (by omega))
    rw [h.1, h.2, hrt]
    constructor
    · congr 1
    · rfl

theorem do_resize_to_target (fuel : Nat) (ht : HT) (loops j m : Nat) (hj : ht.size = 2 ^ j)
    (hj63 : j ≤ 63) (hm : m ≤ 63) (hrt : ht.resize_target = 2 ^ m) (hl : 0 < loops) :
    (_do_cds_lfht_resize fuel ht loops).size = 2 ^ m := by
  obtain ⟨lo, rfl⟩ : ∃ lo, loops = lo + 1 := ⟨loops - 1, by omega⟩
  unfold _do_cds_lfht_resize
  have h := resize_step_to_target ht j m fuel hj hj63 hm hrt
  rw [if_pos (by rw [h.1, h.2])]
  exact h.1

/-! ## Fine-grained heap projection lemmas -/

@[simp] theorem writeNext_rhash (ht : HT) (a : Nat) (p : TaggedPtr) (x : Nat) :
    ((ht.writeNext a p).mem x).reverse_hash = (ht.mem x).reverse_hash := by
  rw [writeNext_mem]
  by_cases h : x = a
  · subst h
    rw [if_pos rfl]
  · rw [if_neg h]

@[simp] theorem writeNext_key (ht : HT) (a : Nat) (p : TaggedPtr) (x : Nat) :
    ((ht.writeNext a p).mem x).key = (ht.mem x).key := by
  rw [writeNext_mem]
  by_cases h : x = a
  · subst h
    rw [if_pos rfl]
  · rw [if_neg h]

theorem writeNext_next (ht : HT) (a : Nat) (p : TaggedPtr) (x : Nat) :
    ((ht.writeNext a p).mem x).next = if x = a then p else (ht.mem x).next := by
  rw [writeNext_mem]
  by_cases h : x = a
  · subst h
    rw [if_pos rfl, if_pos rfl]
  · rw [if_neg h, if_neg h]

theorem bucketAddr_tbl_congr (ht ht' : HT) (idx : Nat) (h : ht'.tbl = ht.tbl) :
    bucketAddr ht' idx = bucketAddr ht idx := by
  unfold bucketAddr
  rw [h]

/-! ## Walk specifications -/

/-- Facts established by the inner walk of `_cds_lfht_add` about its
outcome, assuming only that `iter` is the value stored in `iter_prev`'s
`next` word and that the walk started at or below the node's reverse
hash. -/
theorem add_walk_spec (ht : HT) (node : Nat) (mode : add_mode) (dummy : Bool) (start : Nat) :
    ∀ (fuel : Nat) (prev : Nat) (iter : TaggedPtr),
      (ht.mem prev).next = iter →
      (ht.mem prev).reverse_hash ≤ (ht.mem node).reverse_hash →
      (prev = start ∨ ∃ q, ((ht.mem q).next).ptr = some prev) →
      (match add_walk ht node mode dummy fuel prev iter with
       | .insert p it => (ht.mem p).next = it ∧
           (ht.mem p).reverse_hash ≤ (ht.mem node).reverse_hash ∧
           (p = start ∨ ∃ q, ((ht.mem q).next).ptr = some p) ∧
           (∀ t, it.ptr = some t →
             (ht.mem node).reverse_hash ≤ (ht.mem t).reverse_hash)
       | .found x nx => (∃ q, ((ht.mem q).next).ptr = some x) ∧
           (ht.mem x).reverse_hash = (ht.mem node).reverse_hash ∧
           nx = (ht.mem x).next
       | .gcNode p it nx => (ht.mem p).next = it ∧
           (ht.mem p).reverse_hash ≤ (ht.mem node).reverse_hash ∧
           (p = start ∨ ∃ q, ((ht.mem q).next).ptr = some p) ∧
           ∃ x, it.ptr = some x ∧ nx = (ht.mem x).next
       | .out => True) := by
  intro fuel
  induction fuel with
  | zero =>
    intro prev iter _ _ _
    exact trivial
  | succ fuel ih =>
    intro prev iter hW1 hW2 hW3
    unfold add_walk
    cases hp : iter.ptr with
    | none =>
      exact ⟨hW1, hW2, hW3, fun t ht => by rw [hp] at ht; cases ht⟩
    | some it =>
      simp only
      by_cases hgt : (ht.mem it).reverse_hash > (ht.mem node).reverse_hash
      · rw [if_pos hgt]
        refine ⟨hW1, hW2, hW3, fun t htt => ?_⟩
        rw [hp] at htt
        have h := Option.some.inj htt
        subst h
        omega
      · rw [if_neg hgt]
        by_cases hde : dummy = true ∧ (ht.mem it).reverse_hash = (ht.mem node).reverse_hash
        · rw [if_pos hde]
          refine ⟨hW1, hW2, hW3, fun t htt => ?_⟩
          rw [hp] at htt
          have h := Option.some.inj htt
          subst h
          exact le_of_eq hde.2.symm
        · rw [if_neg hde]
          by_cases hrm : is_removed (ht.mem it).next
          · rw [if_pos hrm]
            exact ⟨hW1, hW2, hW3, it, hp, rfl⟩
          · rw [if_neg hrm]
            by_cases hfd : (mode = add_mode.ADD_UNIQUE ∨ mode = add_mode.ADD_REPLACE) ∧
                is_dummy (ht.mem it).next = false ∧
                (ht.mem it).reverse_hash = (ht.mem node).reverse_hash ∧
                (ht.mem it).key = (ht.mem node).key
            · rw [if_pos hfd]
              exact ⟨⟨prev, by rw [hW1, hp]⟩, hfd.2.2.1, rfl⟩
            · rw [if_neg hfd]
              exact ih it (ht.mem it).next rfl (by omega) (Or.inr ⟨prev, by rw [hW1, hp]⟩)

/-- The unlink step found by the inner scan of `_cds_lfht_gc_bucket` is
the `next` word of the node `iter` points at. -/
theorem gc_inner_spec (ht : HT) (rh : Nat) :
    ∀ (fuel : Nat) (prev : Nat) (iter : TaggedPtr),
      (match gc_inner ht rh fuel prev iter with
       | .done => True
       | .unlink _ it nx => ∃ x, it.ptr = some x ∧ nx = (ht.mem x).next) := by
  intro fuel
  induction fuel with
  | zero => intro prev iter; exact trivial
  | succ fuel ih =>
    intro prev iter
    unfold gc_inner
    cases hp : iter.ptr with
    | none => exact trivial
    | some it =>
      simp only
      by_cases hgt : (ht.mem it).reverse_hash > rh
      · rw [if_pos hgt]; exact trivial
      · rw [if_neg hgt]
        by_cases hrm : is_removed (ht.mem it).next
        · rw [if_pos hrm]
          exact ⟨it, hp, rfl⟩
        · rw [if_neg hrm]
          exact ih it (ht.mem it).next

/-! ## Invariant preservation: primitive writes -/

/-- Storing a tagged word `p` into `a`'s `next` preserves the invariant as
long as the write does not give an uninitialised node a successor and the
target (if any) is an initialised node of reverse hash at least `a`'s. -/
theorem inv_writeNext (ht : HT) (a : Nat) (p : TaggedPtr) (hInv : Inv ht)
    (hOut : p.ptr = none ∨ ht.initb a = true)
    (hTgt : ∀ b, p.ptr = some b → ht.initb b = true ∧
      (ht.mem a).reverse_hash ≤ (ht.mem b).reverse_hash) :
    Inv (ht.writeNext a p) := by
  constructor
  · intro x y hxy
    rw [writeNext_rhash, writeNext_rhash]
    rw [writeNext_next] at hxy
    by_cases h : x = a
    · rw [if_pos h] at hxy
      subst h
      exact (hTgt y hxy).2
    · rw [if_neg h] at hxy
      exact hInv.sorted x y hxy
  · intro x y hxy
    rw [writeNext_initb]
    rw [writeNext_next] at hxy
    by_cases h : x = a
    · rw [if_pos h] at hxy
      exact (hTgt y hxy).1
    · rw [if_neg h] at hxy
      exact hInv.linkInit x y hxy
  · intro x hx
    rw [writeNext_initb] at hx
    rw [writeNext_next]
    by_cases h : x = a
    · rw [if_pos h]
      subst h
      rcases hOut with h1 | h1
      · exact h1
      · rw [h1] at hx; cases hx
    · rw [if_neg h]
      exact hInv.noOutUninit x hx
  · intro x hx
    rw [writeNext_initb] at hx
    rw [writeNext_brk]
    exact hInv.initBrk x hx
  · intro o ho
    rw [writeNext_brk]
    exact hInv.tblRange o ho
  · intro o1 o2 h1 h2 hne j1 j2 hj1 hj2
    exact hInv.tblDisjoint o1 o2 h1 h2 hne j1 j2 hj1 hj2
  · intro o j ho hj hi
    rw [writeNext_rhash]
    rw [writeNext_initb] at hi
    exact hInv.dh o j ho hj hi
  · exact hInv.sizePow
  · exact hInv.sizeOrders
  · intro idx hidx
    rw [bucketAddr_tbl_congr ht (ht.writeNext a p) idx rfl, writeNext_initb, writeNext_rhash]
    exact hInv.anchors idx hidx
  · exact hInv.rtBound

/-- An initialising `reverse_hash` store to a not-yet-constructed node
below the frontier preserves the invariant, provided the value is the
correct dummy hash in case the address is a level-array slot. -/
theorem inv_writeHash (ht : HT) (a rh : Nat) (hInv : Inv ht)
    (hFresh : ht.initb a = false) (hBrk : a < ht.brk)
    (hDh : ∀ o j, o < ht.nOrders → j < lenOrder o → ht.tbl o + j = a →
      rh = revBits 64 (levelIdx o j)) :
    Inv (ht.writeHash a rh) := by
  have hNoIn : ∀ x, ((ht.mem x).next).ptr = some a → False := fun x hx => by
    rw [hInv.linkInit x a hx] at hFresh
    cases hFresh
  have hNoOut : ((ht.mem a).next).ptr = none := hInv.noOutUninit a hFresh
  have hMemNext : ∀ x, ((ht.writeHash a rh).mem x).next = (ht.mem x).next := fun x => by
    rw [writeHash_mem]
    by_cases h : x = a
    · subst h; rw [if_pos rfl]
    · rw [if_neg h]
  have hMemRh : ∀ x, x ≠ a →
      ((ht.writeHash a rh).mem x).reverse_hash = (ht.mem x).reverse_hash := fun x hx => by
    rw [writeHash_mem, if_neg hx]
  have hMemRhA : ((ht.writeHash a rh).mem a).reverse_hash = rh := by
    rw [writeHash_mem, if_pos rfl]
  constructor
  · intro x y hxy
    rw [hMemNext] at hxy
    have hxa : x ≠ a := fun h => by rw [h, hNoOut] at hxy; cases hxy
    have hya : y ≠ a := fun h => hNoIn x (h ▸ hxy)
    rw [hMemRh x hxa, hMemRh y hya]
    exact hInv.sorted x y hxy
  · intro x y hxy
    rw [hMemNext] at hxy
    rw [writeHash_initb]
    by_cases h : y = a
    · rw [if_pos h]
    · rw [if_neg h]
      exact hInv.linkInit x y hxy
  · intro x hx
    rw [writeHash_initb] at hx
    by_cases h : x = a
    · rw [if_pos h] at hx; cases hx
    · rw [if_neg h] at hx
      rw [hMemNext]
      exact hInv.noOutUninit x hx
  · intro x hx
    rw [writeHash_initb] at hx
    rw [writeHash_brk]
    by_cases h : x = a
    · subst h; exact hBrk
    · rw [if_neg h] at hx
      exact hInv.initBrk x hx
  · intro o ho
    rw [writeHash_brk]
    exact hInv.tblRange o ho
  · intro o1 o2 h1 h2 hne j1 j2 hj1 hj2
    exact hInv.tblDisjoint o1 o2 h1 h2 hne j1 j2 hj1 hj2
  · intro o j ho hj hi
    by_cases h : ht.tbl o + j = a
    · rw [show (ht.writeHash a rh).tbl = ht.tbl from rfl] at hi ⊢
      rw [h, hMemRhA]
      exact hDh o j ho hj h
    · rw [show (ht.writeHash a rh).tbl = ht.tbl from rfl] at hi ⊢
      rw [hMemRh _ h]
      rw [writeHash_initb, if_neg h] at hi
      exact hInv.dh o j ho hj hi
  · exact hInv.sizePow
  · exact hInv.sizeOrders
  · intro idx hidx
    obtain ⟨hai, har⟩ := hInv.anchors idx hidx
    have hne : bucketAddr ht idx ≠ a := fun h => by
      rw [h, hFresh] at hai; cases hai
    rw [bucketAddr_tbl_congr ht (ht.writeHash a rh) idx rfl, writeHash_initb, if_neg hne,
      hMemRh _ hne]
    exact ⟨hai, har⟩
  · exact hInv.rtBound

theorem fls_ulong_le_of_lt_pow (idx k : Nat) (hk : k ≤ 64) (h : idx < 2 ^ k) :
    fls_ulong idx ≤ k := by
  rcases Nat.eq_zero_or_pos idx with rfl | hpos
  · rw [fls_ulong_zero]; omega
  · have hw : idx < 2 ^ 64 := lt_of_lt_of_le h (Nat.pow_le_pow_right (by omega) hk)
    obtain ⟨hf0, hf64, hf1, hf2⟩ := fls_ulong_spec idx hpos hw
    by_contra hcon
    push_neg at hcon
    have : 2 ^ k ≤ 2 ^ (fls_ulong idx - 1) := Nat.pow_le_pow_right (by omega) (by omega)
    omega

/-- Every anchor address of a live bucket lies below the allocation
frontier. -/
theorem anchor_lt_brk (ht : HT) (hInv : Inv ht) (idx : Nat) (hidx : idx < ht.size) :
    bucketAddr ht idx < ht.brk := by
  rcases hInv.sizePow with h0 | ⟨k, hk63, hk⟩
  · rw [h0] at hidx; omega
  · rw [hk] at hidx
    have hw : idx < 2 ^ 64 := lt_of_lt_of_le hidx (Nat.pow_le_pow_right (by omega) (by omega))
    have hfle : fls_ulong idx ≤ k := fls_ulong_le_of_lt_pow idx k (by omega) hidx
    have hkO : k < ht.nOrders := hInv.sizeOrders k hk
    have hfO : fls_ulong idx < ht.nOrders := by omega
    have hslot := bucketAddr_slot_lt idx hw
    have hrange := hInv.tblRange (fls_ulong idx) hfO
    unfold bucketAddr
    omega

/-- Allocating a caller-side node at the frontier preserves the invariant:
the fresh address has no links in or out. -/
theorem inv_allocNode (ht : HT) (key rh : Nat) (hInv : Inv ht) :
    Inv (ht.allocNode key rh).1 := by
  have hFresh : ht.initb ht.brk = false := by
    cases hb : ht.initb ht.brk
    · rfl
    · exact absurd (hInv.initBrk ht.brk hb) (by omega)
  have hNoIn : ∀ x, ((ht.mem x).next).ptr = some ht.brk → False := fun x hx => by
    rw [hInv.linkInit x ht.brk hx] at hFresh; cases hFresh
  have hNoOut : ((ht.mem ht.brk).next).ptr = none := hInv.noOutUninit ht.brk hFresh
  have hMemNext : ∀ x, ((ht.allocNode key rh).1.mem x).next = (ht.mem x).next := fun x => by
    rw [allocNode_fst_mem]
    by_cases h : x = ht.brk
    · subst h; rw [if_pos rfl]
    · rw [if_neg h]
  have hMemRh : ∀ x, x ≠ ht.brk →
      ((ht.allocNode key rh).1.mem x).reverse_hash = (ht.mem x).reverse_hash := fun x hx => by
    rw [allocNode_fst_mem, if_neg hx]
  constructor
  · intro x y hxy
    rw [hMemNext] at hxy
    have hxa : x ≠ ht.brk := fun h => by rw [h, hNoOut] at hxy; cases hxy
    have hya : y ≠ ht.brk := fun h => hNoIn x (h ▸ hxy)
    rw [hMemRh x hxa, hMemRh y hya]
    exact hInv.sorted x y hxy
  · intro x y hxy
    rw [hMemNext] at hxy
    rw [allocNode_fst_initb]
    by_cases h : y = ht.brk
    · rw [if_pos h]
    · rw [if_neg h]
      exact hInv.linkInit x y hxy
  · intro x hx
    rw [allocNode_fst_initb] at hx
    by_cases h : x = ht.brk
    · rw [if_pos h] at hx; cases hx
    · rw [if_neg h] at hx
      rw [hMemNext]
      exact hInv.noOutUninit x hx
  · intro x hx
    rw [allocNode_fst_initb] at hx
    rw [allocNode_fst_brk]
    by_cases h : x = ht.brk
    · omega
    · rw [if_neg h] at hx
      have := hInv.initBrk x hx
      omega
  · intro o ho
    rw [allocNode_fst_brk, allocNode_fst_tbl]
    have := hInv.tblRange o ho
    omega
  · intro o1 o2 h1 h2 hne j1 j2 hj1 hj2
    exact hInv.tblDisjoint o1 o2 h1 h2 hne j1 j2 hj1 hj2
  · intro o j ho hj hi
    have hjl : j < lenOrder o := hj
    have hlt : ht.tbl o + j < ht.brk := by
      have := hInv.tblRange o ho
      omega
    have hne : ht.tbl o + j ≠ ht.brk := by omega
    rw [allocNode_fst_tbl] at hi ⊢
    rw [hMemRh _ hne]
    rw [allocNode_fst_initb, if_neg hne] at hi
    exact hInv.dh o j ho hj hi
  · exact hInv.sizePow
  · exact hInv.sizeOrders
  · intro idx hidx
    have hlt : bucketAddr ht idx < ht.brk := anchor_lt_brk ht hInv idx hidx
    have hne : bucketAddr ht idx ≠ ht.brk := by omega
    rw [bucketAddr_tbl_congr ht (ht.allocNode key rh).1 idx rfl, allocNode_fst_initb,
      if_neg hne, hMemRh _ hne]
    exact hInv.anchors idx hidx
  · exact hInv.rtBound

/-- Allocating a level array for order `i` (the next order above the
current size) preserves the invariant: the fresh slots are uninitialised
and unlinked, every existing structure lies below the old frontier. -/
theorem inv_callocLevel (ht : HT) (i : Nat) (hInv : Inv ht) (hle : i ≤ ht.nOrders)
    (hsz : ∀ k, ht.size = 2 ^ k → k < i) : Inv (callocLevel ht i) := by
  have hOther : ∀ o, o < max ht.nOrders (i + 1) → o ≠ i → o < ht.nOrders := by
    intro o ho hne
    rcases Nat.lt_or_ge o ht.nOrders with h | h
    · exact h
    · omega
  have hFreshI : ∀ x, ht.brk ≤ x → ht.initb x = false := by
    intro x hx
    cases hb : ht.initb x
    · rfl
    · exact absurd (hInv.initBrk x hb) (by omega)
  have hMem : ∀ x, x < ht.brk → (callocLevel ht i).mem x = ht.mem x := by
    intro x hx
    rw [callocLevel_mem, if_neg (by omega)]
  constructor
  · intro x y hxy
    by_cases hx : ht.brk ≤ x ∧ x < ht.brk + lenOrder i
    · rw [callocLevel_mem, if_pos hx] at hxy
      exact Option.noConfusion hxy
    · rw [callocLevel_mem, if_neg hx] at hxy
      have hy : ¬ (ht.brk ≤ y ∧ y < ht.brk + lenOrder i) := by
        intro hy
        have hb := hInv.linkInit x y hxy
        rw [hFreshI y hy.1] at hb
        cases hb
      rw [callocLevel_mem, if_neg hx, callocLevel_mem, if_neg hy]
      exact hInv.sorted x y hxy
  · intro x y hxy
    rw [callocLevel_initb]
    by_cases hx : ht.brk ≤ x ∧ x < ht.brk + lenOrder i
    · rw [callocLevel_mem, if_pos hx] at hxy
      exact Option.noConfusion hxy
    · rw [callocLevel_mem, if_neg hx] at hxy
      exact hInv.linkInit x y hxy
  · intro x hx
    rw [callocLevel_initb] at hx
    by_cases hfr : ht.brk ≤ x ∧ x < ht.brk + lenOrder i
    · rw [callocLevel_mem, if_pos hfr]
      rfl
    · rw [callocLevel_mem, if_neg hfr]
      exact hInv.noOutUninit x hx
  · intro x hx
    rw [callocLevel_initb] at hx
    rw [callocLevel_brk]
    have := hInv.initBrk x hx
    omega
  · intro o ho
    rw [callocLevel_brk]
    rw [callocLevel_nOrders] at ho
    rw [callocLevel_tbl]
    by_cases h : o = i
    · rw [if_pos h, h]
    · rw [if_neg h]
      have hoN := hOther o ho h
      have := hInv.tblRange o hoN
      omega
  · intro o1 o2 h1 h2 hne j1 j2 hj1 hj2
    rw [callocLevel_nOrders] at h1 h2
    rw [callocLevel_tbl, callocLevel_tbl]
    by_cases e1 : o1 = i
    · rw [if_pos e1]
      have ho2i : o2 ≠ i := fun h => hne (e1.trans h.symm)
      rw [if_neg ho2i]
      have ho2 : o2 < ht.nOrders := hOther o2 h2 ho2i
      have := hInv.tblRange o2 ho2
      omega
    · rw [if_neg e1]
      by_cases e2 : o2 = i
      · rw [if_pos e2]
        have ho1 : o1 < ht.nOrders := hOther o1 h1 e1
        have := hInv.tblRange o1 ho1
        omega
      · rw [if_neg e2]
        exact hInv.tblDisjoint o1 o2 (hOther o1 h1 e1) (hOther o2 h2 e2) hne j1 j2 hj1 hj2
  · intro o j ho hj hi
    rw [callocLevel_nOrders] at ho
    rw [callocLevel_tbl] at hi ⊢
    by_cases h : o = i
    · rw [if_pos h] at hi
      rw [callocLevel_initb] at hi
      rw [hFreshI (ht.brk + j) (by omega)] at hi
      cases hi
    · rw [if_neg h] at hi ⊢
      have hoN := hOther o ho h
      have hjl : j < lenOrder o := hj
      have hlt : ht.tbl o + j < ht.brk := by
        have := hInv.tblRange o hoN
        omega
      rw [hMem _ hlt]
      rw [callocLevel_initb] at hi
      exact hInv.dh o j hoN hj hi
  · exact hInv.sizePow
  · intro k hk
    rw [callocLevel_nOrders]
    rw [callocLevel_size] at hk
    have := hInv.sizeOrders k hk
    omega
  · intro idx hidx
    rw [callocLevel_size] at hidx
    have hki : fls_ulong idx ≠ i := by
      rcases hInv.sizePow with h0 | ⟨k, hk63, hk⟩
      · rw [h0] at hidx; omega
      · have hkI := hsz k hk
        rw [hk] at hidx
        have hfle : fls_ulong idx ≤ k := fls_ulong_le_of_lt_pow idx k (by omega) hidx
        omega
    have hba : bucketAddr (callocLevel ht i) idx = bucketAddr ht idx := by
      unfold bucketAddr
      rw [callocLevel_tbl, if_neg hki]
    rw [hba]
    have hlt : bucketAddr ht idx < ht.brk := anchor_lt_brk ht hInv idx hidx
    rw [callocLevel_initb, hMem _ hlt]
    exact hInv.anchors idx hidx
  · exact hInv.rtBound

/-- Rewriting an already-initialised node's `reverse_hash` with its current
value (as `remove_table` does before deleting a dummy) is a no-op. -/
theorem writeHash_eq_self (ht : HT) (a rh : Nat) (hI : ht.initb a = true)
    (hR : (ht.mem a).reverse_hash = rh) : ht.writeHash a rh = ht := by
  have hm : (fun x => if x = a then { ht.mem x with reverse_hash := rh } else ht.mem x)
      = ht.mem := by
    funext x
    by_cases h : x = a
    · subst h
      rw [if_pos rfl, ← hR]
    · rw [if_neg h]
  have hb : (fun x => if x = a then true else ht.initb x) = ht.initb := by
    funext x
    by_cases h : x = a
    · subst h
      rw [if_pos rfl, hI]
    · rw [if_neg h]
  unfold HT.writeHash
  rw [hm, hb]

/-! ## Tagged-pointer target computations -/

theorem dummy_build_ptr (b : Bool) (nx : TaggedPtr) :
    (if b = true then flag_dummy (clear_flag nx) else clear_flag nx).ptr = nx.ptr := by
  cases b <;> rfl

theorem tag_build_ptr (b1 b2 : Bool) (nx : TaggedPtr) :
    (if b1 = true then
        flag_removed (if b2 = true then flag_dummy (clear_flag nx) else clear_flag nx)
      else (if b2 = true then flag_dummy (clear_flag nx) else clear_flag nx)).ptr = nx.ptr := by
  cases b1 <;> cases b2 <;> rfl

theorem new_node_ptr (b : Bool) (node : Nat) :
    (if b = true then flag_dummy ⟨some node, false, false⟩
      else (⟨some node, false, false⟩ : TaggedPtr)).ptr = some node := by
  cases b <;> rfl

/-! ## Reverse hashes are never modified by the list operations -/

theorem gc_bucket_memRh (d n : Nat) :
    ∀ (fuel : Nat) (ht : HT) (x : Nat),
      ((_cds_lfht_gc_bucket ht d n fuel).mem x).reverse_hash = (ht.mem x).reverse_hash := by
  intro fuel
  induction fuel with
  | zero => intro ht x; rfl
  | succ fuel ih =>
    intro ht x
    unfold _cds_lfht_gc_bucket
    cases gc_inner ht (ht.mem n).reverse_hash (fuel + 1) d (ht.mem d).next with
    | done => rfl
    | unlink p iter nx =>
      simp only
      by_cases hc : (ht.mem p).next = iter
      · rw [if_pos hc, ih, writeNext_rhash]
      · rw [if_neg hc, ih]

theorem replace_loop_memRh (o n : Nat) :
    ∀ (fuel : Nat) (ht : HT) (obs : TaggedPtr) (x : Nat),
      (((replace_loop ht o n fuel obs).1).mem x).reverse_hash = (ht.mem x).reverse_hash := by
  intro fuel
  induction fuel with
  | zero => intro ht obs x; rfl
  | succ fuel ih =>
    intro ht obs x
    unfold replace_loop
    by_cases hr : is_removed obs
    · rw [if_pos hr]
    · rw [if_neg hr]
      simp only
      by_cases hc : ((ht.writeNext n (clear_flag obs)).mem o).next = obs
      · rw [if_pos hc]
        exact (writeNext_rhash _ o _ x).trans (writeNext_rhash ht n _ x)
      · rw [if_neg hc]
        exact (ih _ _ x).trans (writeNext_rhash ht n _ x)

theorem replace_memRh (ht : HT) (size : Nat) (o : Option Nat) (obs : TaggedPtr)
    (n fuel x : Nat) :
    (((_cds_lfht_replace ht size o obs n fuel).1).mem x).reverse_hash
      = (ht.mem x).reverse_hash := by
  unfold _cds_lfht_replace
  cases o with
  | none => rfl
  | some oo =>
    simp only
    by_cases hf : (replace_loop ht oo n fuel obs).2
    · rw [if_pos hf]
      exact (gc_bucket_memRh _ n fuel _ x).trans (replace_loop_memRh oo n fuel ht obs x)
    · rw [if_neg hf]
      exact replace_loop_memRh oo n fuel ht obs x

/-! ## Invariant preservation: the list operations -/

/-- A physical unlink write: `p`'s next word is swung to the successor of
the node `x` it currently points at (the GC shortcut). -/
theorem inv_unlink (ht : HT) (p x : Nat) (q : TaggedPtr) (hInv : Inv ht)
    (hlink : ((ht.mem p).next).ptr = some x)
    (hq : q.ptr = ((ht.mem x).next).ptr) : Inv (ht.writeNext p q) := by
  apply inv_writeNext ht p q hInv
  · right
    cases hb : ht.initb p
    · have h2 := hInv.noOutUninit p hb
      rw [h2] at hlink
      cases hlink
    · rfl
  · intro b hb
    rw [hq] at hb
    have h1 := hInv.linkInit x b hb
    have h2 := hInv.sorted p x hlink
    have h3 := hInv.sorted x b hb
    exact ⟨h1, by omega⟩

/-- `_cds_lfht_gc_bucket` preserves the invariant (the unlink CAS only
shortcuts past logically removed nodes). -/
theorem inv_gc_bucket (d n : Nat) :
    ∀ (fuel : Nat) (ht : HT), Inv ht → Inv (_cds_lfht_gc_bucket ht d n fuel) := by
  intro fuel
  induction fuel with
  | zero => intro ht hInv; exact hInv
  | succ fuel ih =>
    intro ht hInv
    unfold _cds_lfht_gc_bucket
    have hspec := gc_inner_spec ht (ht.mem n).reverse_hash (fuel + 1) d (ht.mem d).next
    cases hgc : gc_inner ht (ht.mem n).reverse_hash (fuel + 1) d (ht.mem d).next with
    | done => exact hInv
    | unlink p iter nx =>
      rw [hgc] at hspec
      obtain ⟨x, hx, hnx⟩ := hspec
      simp only
      by_cases hc : (ht.mem p).next = iter
      · rw [if_pos hc]
        refine ih _ (inv_unlink ht p x _ hInv ?_ ?_)
        · rw [hc]; exact hx
        · rw [tag_build_ptr, hnx]
      · rw [if_neg hc]
        exact ih _ hInv

/-- `_cds_lfht_del` preserves the invariant: the logical-removal write only
sets the `REMOVED` flag (same target), and the GC pass preserves it. -/
theorem inv_del (ht : HT) (size : Nat) (node : Option Nat) (fuel : Nat) (hInv : Inv ht) :
    Inv (_cds_lfht_del ht size node fuel).1 := by
  unfold _cds_lfht_del
  cases node with
  | none => exact hInv
  | some nn =>
    simp only
    by_cases hr : is_removed (ht.mem nn).next
    · rw [if_pos hr]
      exact hInv
    · rw [if_neg hr]
      refine inv_gc_bucket _ _ _ _
        (inv_writeNext ht nn (flag_removed (ht.mem nn).next) hInv ?_ ?_)
      · cases hp : ((ht.mem nn).next).ptr with
        | none => exact Or.inl hp
        | some t =>
          right
          cases hb : ht.initb nn
          · have h2 := hInv.noOutUninit nn hb
            rw [h2] at hp
            cases hp
          · rfl
      · intro b hb
        have hb' : ((ht.mem nn).next).ptr = some b := hb
        exact ⟨hInv.linkInit nn b hb', hInv.sorted nn b hb'⟩

/-- The CAS-retry loop of `_cds_lfht_replace` preserves the invariant,
given that the old and new nodes are initialised, of equal reverse hash,
and the observed successor (if any) is an initialised node at or above the
new node's reverse hash. -/
theorem inv_replace_loop (o n : Nat) :
    ∀ (fuel : Nat) (ht : HT) (obs : TaggedPtr), Inv ht →
      ht.initb o = true → ht.initb n = true →
      (ht.mem n).reverse_hash = (ht.mem o).reverse_hash →
      (∀ t, obs.ptr = some t → ht.initb t = true ∧
        (ht.mem n).reverse_hash ≤ (ht.mem t).reverse_hash) →
      Inv (replace_loop ht o n fuel obs).1 := by
  intro fuel
  induction fuel with
  | zero => intro ht obs hInv _ _ _ _; exact hInv
  | succ fuel ih =>
    intro ht obs hInv ho hn heq hobs
    unfold replace_loop
    by_cases hr : is_removed obs
    · rw [if_pos hr]; exact hInv
    · rw [if_neg hr]
      simp only
      have hInv1 : Inv (ht.writeNext n (clear_flag obs)) := by
        refine inv_writeNext ht n (clear_flag obs) hInv (Or.inr hn) ?_
        intro b hb
        exact hobs b hb
      by_cases hc : ((ht.writeNext n (clear_flag obs)).mem o).next = obs
      · rw [if_pos hc]
        refine inv_writeNext _ o ⟨some n, true, false⟩ hInv1 (Or.inr ?_) ?_
        · rw [writeNext_initb]; exact ho
        · intro b hb
          have hbn : b = n := by
            have h : some n = some b := hb
            exact (Option.some.inj h).symm
          subst hbn
          constructor
          · rw [writeNext_initb]; exact hn
          · rw [writeNext_rhash, writeNext_rhash]
            omega
      · rw [if_neg hc]
        refine ih _ _ hInv1 ?_ ?_ ?_ ?_
        · rw [writeNext_initb]; exact ho
        · rw [writeNext_initb]; exact hn
        · rw [writeNext_rhash, writeNext_rhash]; exact heq
        · intro t htp
          rw [writeNext_initb, writeNext_rhash, writeNext_rhash]
          rw [writeNext_next] at htp
          by_cases hon : o = n
          · rw [if_pos hon] at htp
            exact hobs t htp
          · rw [if_neg hon] at htp
            have h1 := hInv.linkInit o t htp
            have h2 := hInv.sorted o t htp
            exact ⟨h1, by omega⟩

/-- `_cds_lfht_replace` preserves the invariant whenever the target node,
the new node and the observed successor satisfy the conditions under which
the add path invokes it. -/
theorem inv_replace (ht : HT) (size : Nat) (o : Option Nat) (obs : TaggedPtr) (n fuel : Nat)
    (hInv : Inv ht)
    (hcond : ∀ oo, o = some oo → ht.initb oo = true ∧ ht.initb n = true ∧
      (ht.mem n).reverse_hash = (ht.mem oo).reverse_hash ∧
      (∀ t, obs.ptr = some t → ht.initb t = true ∧
        (ht.mem n).reverse_hash ≤ (ht.mem t).reverse_hash)) :
    Inv (_cds_lfht_replace ht size o obs n fuel).1 := by
  unfold _cds_lfht_replace
  cases o with
  | none => exact hInv
  | some oo =>
    obtain ⟨h1, h2, h3, h4⟩ := hcond oo rfl
    simp only
    by_cases hf : (replace_loop ht oo n fuel obs).2
    · rw [if_pos hf]
      exact inv_gc_bucket _ _ _ _ (inv_replace_loop oo n fuel ht obs hInv h1 h2 h3 h4)
    · rw [if_neg hf]
      exact inv_replace_loop oo n fuel ht obs hInv h1 h2 h3 h4

/-- The outer retry loop of `_cds_lfht_add` preserves the invariant, given
an initialised node and an initialised start anchor at or below the node's
reverse hash. -/
theorem inv_add_loop (size node : Nat) (mode : add_mode) (dummy : Bool) (start : Nat) :
    ∀ (fuel : Nat) (ht : HT), Inv ht → ht.initb node = true → ht.initb start = true →
      (ht.mem start).reverse_hash ≤ (ht.mem node).reverse_hash →
      Inv (add_loop size node mode dummy start ht fuel).1 := by
  intro fuel
  induction fuel with
  | zero => intro ht hInv _ _ _; exact hInv
  | succ fuel ih =>
    intro ht hInv hnode hstart hle
    unfold add_loop
    have hspec := add_walk_spec ht node mode dummy start (fuel + 1) start (ht.mem start).next
      rfl hle (Or.inl rfl)
    cases hw : add_walk ht node mode dummy (fuel + 1) start (ht.mem start).next with
    | out => exact hInv
    | insert p iter =>
      rw [hw] at hspec
      obtain ⟨hW1, hW2, hWp, hTgtIns⟩ := hspec
      simp only
      have hInv1 : Inv (ht.writeNext node
          (if dummy = true then flag_dummy (clear_flag iter) else clear_flag iter)) := by
        refine inv_writeNext ht node _ hInv (Or.inr hnode) ?_
        intro b hb
        rw [dummy_build_ptr] at hb
        refine ⟨?_, hTgtIns b hb⟩
        have hpb : ((ht.mem p).next).ptr = some b := by rw [hW1]; exact hb
        exact hInv.linkInit p b hpb
      by_cases hc : ((ht.writeNext node
          (if dummy = true then flag_dummy (clear_flag iter) else clear_flag iter)).mem p).next
          = iter
      · rw [if_pos hc]
        refine inv_writeNext _ p _ hInv1 (Or.inr ?_) ?_
        · rw [writeNext_initb]
          rcases hWp with h | ⟨q, hq⟩
          · rw [h]; exact hstart
          · exact hInv.linkInit q p hq
        · intro b hb
          rw [new_node_ptr] at hb
          have hbn : b = node := (Option.some.inj hb).symm
          subst hbn
          rw [writeNext_initb, writeNext_rhash, writeNext_rhash]
          exact ⟨hnode, hW2⟩
      · rw [if_neg hc]
        refine ih _ hInv1 ?_ ?_ ?_
        · rw [writeNext_initb]; exact hnode
        · rw [writeNext_initb]; exact hstart
        · rw [writeNext_rhash, writeNext_rhash]; exact hle
    | found it nx =>
      rw [hw] at hspec
      obtain ⟨⟨q, hq⟩, hrEq, hnx⟩ := hspec
      simp only
      by_cases hm : mode = add_mode.ADD_UNIQUE
      · rw [if_pos hm]; exact hInv
      · rw [if_neg hm]
        have hInvR : Inv (_cds_lfht_replace ht size (some it) nx node fuel).1 := by
          refine inv_replace ht size (some it) nx node fuel hInv ?_
          intro oo hoo
          have hio : oo = it := Option.some.inj hoo.symm
          subst hio
          refine ⟨hInv.linkInit q oo hq, hnode, hrEq.symm, ?_⟩
          intro t htp
          rw [hnx] at htp
          have h1 := hInv.linkInit oo t htp
          have h2 := hInv.sorted oo t htp
          have h3 : (ht.mem node).reverse_hash ≤ (ht.mem t).reverse_hash := by
            rw [← hrEq]; exact h2
          exact ⟨h1, h3⟩
        by_cases hz : (_cds_lfht_replace ht size (some it) nx node fuel).2 = 0
        · rw [if_pos hz]; exact hInvR
        · rw [if_neg hz]
          have hsh := replace_sameShape ht size (some it) nx node fuel
          refine ih _ hInvR ?_ ?_ ?_
          · rw [hsh.2.2.2.2.1]; exact hnode
          · rw [hsh.2.2.2.2.1]; exact hstart
          · rw [replace_memRh, replace_memRh]; exact hle
    | gcNode p iter nx =>
      rw [hw] at hspec
      obtain ⟨hW1, hW2, hWp, x, hx, hnx⟩ := hspec
      simp only
      by_cases hc : (ht.mem p).next = iter
      · rw [if_pos hc]
        have hInv1 : Inv (ht.writeNext p
            (if is_dummy iter = true then flag_dummy (clear_flag nx) else clear_flag nx)) := by
          refine inv_unlink ht p x _ hInv ?_ ?_
          · rw [hc]; exact hx
          · rw [dummy_build_ptr, hnx]
        refine ih _ hInv1 ?_ ?_ ?_
        · rw [writeNext_initb]; exact hnode
        · rw [writeNext_initb]; exact hstart
        · rw [writeNext_rhash, writeNext_rhash]; exact hle
      · rw [if_neg hc]
        exact ih _ hInv hnode hstart hle

/-- `_cds_lfht_add` preserves the invariant for any initialised node whose
reverse hash is a 64-bit value, when called at the published size. -/
theorem inv_add (ht : HT) (size node : Nat) (mode : add_mode) (dummy : Bool) (fuel : Nat)
    (hInv : Inv ht) (hsize : size = ht.size) (hnode : ht.initb node = true)
    (hrh : (ht.mem node).reverse_hash < 2 ^ 64) :
    Inv (_cds_lfht_add ht size node mode dummy fuel).1 := by
  unfold _cds_lfht_add
  by_cases hs : size = 0
  · rw [if_pos hs]
    refine inv_writeNext ht node (flag_dummy get_end) hInv (Or.inl rfl) ?_
    intro b hb
    exact Option.noConfusion hb
  · rw [if_neg hs]
    simp only
    rcases hInv.sizePow with h0 | ⟨k, hk63, hk⟩
    · exact absurd (hsize.trans h0) hs
    · have hsz : size = 2 ^ k := hsize.trans hk
      set r := (ht.mem node).reverse_hash with hr
      have hstart_eq : lookup_bucket ht size (bit_reverse_ulong r)
          = bucketAddr ht (bit_reverse_ulong r % 2 ^ k) := by
        rw [hsz]; exact lookup_bucket_eq ht k (bit_reverse_ulong r) (by omega)
      have hidx : bit_reverse_ulong r % 2 ^ k < ht.size := by
        rw [hk]; exact Nat.mod_lt _ (Nat.two_pow_pos k)
      obtain ⟨hai, har⟩ := hInv.anchors _ hidx
      have hler : revBits 64 (bit_reverse_ulong r % 2 ^ k) ≤ r := by
        rw [bit_reverse_ulong_eq]
        calc revBits 64 (revBits 64 r % 2 ^ k) ≤ revBits 64 (revBits 64 r) :=
              revBits_mod_le k 64 (revBits 64 r) (by omega)
          _ = r := revBits_revBits 64 r hrh
      refine inv_add_loop size node mode dummy _ fuel ht hInv hnode ?_ ?_
      · rw [hstart_eq]; exact hai
      · rw [hstart_eq, har]
        exact hler

/-- `cds_lfht_add` (allocate, hash, insert) preserves the invariant. -/
theorem inv_cds_lfht_add (ht : HT) (key fuel : Nat) (hInv : Inv ht) :
    Inv (cds_lfht_add ht key fuel) := by
  unfold cds_lfht_add
  simp only
  refine inv_add _ _ _ _ _ _ (inv_allocNode ht key _ hInv) rfl ?_ ?_
  · rw [allocNode_snd, allocNode_fst_initb, if_pos rfl]
  · rw [allocNode_snd, allocNode_fst_mem, if_pos rfl]
    exact bit_reverse_ulong_lt _

/-- `cds_lfht_add_unique` preserves the invariant. -/
theorem inv_cds_lfht_add_unique (ht : HT) (key fuel : Nat) (hInv : Inv ht) :
    Inv (cds_lfht_add_unique ht key fuel).1 := by
  unfold cds_lfht_add_unique
  simp only
  refine inv_add _ _ _ _ _ _ (inv_allocNode ht key _ hInv) rfl ?_ ?_
  · rw [allocNode_snd, allocNode_fst_initb, if_pos rfl]
  · rw [allocNode_snd, allocNode_fst_mem, if_pos rfl]
    exact bit_reverse_ulong_lt _

/-- `cds_lfht_add_replace` preserves the invariant. -/
theorem inv_cds_lfht_add_replace (ht : HT) (key fuel : Nat) (hInv : Inv ht) :
    Inv (cds_lfht_add_replace ht key fuel).1 := by
  unfold cds_lfht_add_replace
  simp only
  refine inv_add _ _ _ _ _ _ (inv_allocNode ht key _ hInv) rfl ?_ ?_
  · rw [allocNode_snd, allocNode_fst_initb, if_pos rfl]
  · rw [allocNode_snd, allocNode_fst_mem, if_pos rfl]
    exact bit_reverse_ulong_lt _

/-! ## Invariant preservation: the resize engine -/

theorem populate_step_initb (i fuel : Nat) (ht : HT) (j x : Nat) :
    (populate_step i fuel ht j).initb x
      = if x = ht.tbl i + j then true else ht.initb x := by
  unfold populate_step
  simp only
  rw [(add_sameShape _ _ _ _ _ _).2.2.2.2.1]
  rw [writeHash_initb]

theorem populate_fold_initb_mono (i fuel : Nat) :
    ∀ (js : List Nat) (ht : HT) (x : Nat), ht.initb x = true →
      (js.foldl (populate_step i fuel) ht).initb x = true := by
  intro js
  induction js with
  | nil => intro ht x hx; exact hx
  | cons j js ih =>
    intro ht x hx
    refine ih _ x ?_
    rw [populate_step_initb]
    by_cases h : x = ht.tbl i + j
    · rw [if_pos h]
    · rw [if_neg h]; exact hx

theorem populate_fold_initb_mem (i fuel : Nat) :
    ∀ (js : List Nat) (ht : HT) (j : Nat), j ∈ js →
      (js.foldl (populate_step i fuel) ht).initb (ht.tbl i + j) = true := by
  intro js
  induction js with
  | nil => intro ht j hj; cases hj
  | cons j' js ih =>
    intro ht j hj
    have htbl : (populate_step i fuel ht j').tbl = ht.tbl :=
      (populate_step_eqSkel i fuel ht j').2.2.1
    rcases List.mem_cons.mp hj with rfl | hmem
    · refine populate_fold_initb_mono i fuel js _ _ ?_
      rw [populate_step_initb, if_pos rfl]
    · have h := ih (populate_step i fuel ht j') j hmem
      rw [htbl] at h
      exact h

/-- One populate step preserves the invariant: the reverse-hash store hits a
fresh in-range slot with the correct dummy hash, and the dummy-mode add runs
at the published size. -/
theorem inv_populate_step (i fuel : Nat) (ht : HT) (j : Nat) (hInv : Inv ht)
    (hiN : i < ht.nOrders) (hj : j < lenOrder i)
    (hfresh : ht.initb (ht.tbl i + j) = false)
    (hsz : ht.size = (if i = 0 then 0 else 2 ^ (i - 1))) :
    Inv (populate_step i fuel ht j) := by
  unfold populate_step
  simp only
  have hbrk : ht.tbl i + j < ht.brk := by
    have := hInv.tblRange i hiN
    omega
  have hInv1 : Inv (ht.writeHash (ht.tbl i + j) (bit_reverse_ulong (levelIdx i j))) := by
    refine inv_writeHash ht _ _ hInv hfresh hbrk ?_
    intro o j' ho hj' heq
    rw [bit_reverse_ulong_eq]
    by_cases hoi : o = i
    · subst hoi
      have hjj : j' = j := by omega
      rw [hjj]
    · exact absurd heq (hInv.tblDisjoint o i ho hiN hoi j' j hj' hj)
  refine inv_add _ _ _ _ _ _ hInv1 ?_ ?_ ?_
  · rw [writeHash_size]
    exact hsz.symm
  · rw [writeHash_initb, if_pos rfl]
  · rw [writeHash_mem, if_pos rfl]
    exact bit_reverse_ulong_lt _

theorem inv_populate_fold (i fuel : Nat) :
    ∀ (js : List Nat) (ht : HT), Inv ht → i < ht.nOrders →
      (∀ j ∈ js, j < lenOrder i) →
      (∀ j ∈ js, ht.initb (ht.tbl i + j) = false) →
      js.Nodup →
      ht.size = (if i = 0 then 0 else 2 ^ (i - 1)) →
      Inv (js.foldl (populate_step i fuel) ht) := by
  intro js
  induction js with
  | nil => intro ht hInv _ _ _ _ _; exact hInv
  | cons j js ih =>
    intro ht hInv hiN hlen hfresh hnd hsz
    obtain ⟨hjn, hnd'⟩ := List.nodup_cons.mp hnd
    have hstep : Inv (populate_step i fuel ht j) :=
      inv_populate_step i fuel ht j hInv hiN (hlen j (List.mem_cons_self j js))
        (hfresh j (List.mem_cons_self j js)) hsz
    have hskel := populate_step_eqSkel i fuel ht j
    refine ih _ hstep ?_ ?_ ?_ hnd' ?_
    · rw [hskel.2.2.2.1]; exact hiN
    · intro j' hj'; exact hlen j' (List.mem_cons_of_mem j hj')
    · intro j' hj'
      have hjj : j' ≠ j := fun h => hjn (h ▸ hj')
      have hne : ht.tbl i + j' ≠ ht.tbl i + j := fun h => hjj (by omega)
      rw [hskel.2.2.1, populate_step_initb, if_neg hne]
      exact hfresh j' (List.mem_cons_of_mem j hj')
    · rw [hskel.1]; exact hsz

theorem inv_init_table_populate (ht : HT) (i fuel : Nat) (hInv : Inv ht)
    (hiN : i < ht.nOrders)
    (hfresh : ∀ j, j < lenOrder i → ht.initb (ht.tbl i + j) = false)
    (hsz : ht.size = (if i = 0 then 0 else 2 ^ (i - 1))) :
    Inv (init_table_populate ht i fuel) := by
  unfold init_table_populate
  refine inv_populate_fold i fuel _ ht hInv hiN ?_ ?_ (List.nodup_range _) hsz
  · intro j hj; exact List.mem_range.mp hj
  · intro j hj; exact hfresh j (List.mem_range.mp hj)

theorem init_table_populate_initb (ht : HT) (i fuel : Nat) (j : Nat) (hj : j < lenOrder i) :
    (init_table_populate ht i fuel).initb (ht.tbl i + j) = true := by
  unfold init_table_populate
  exact populate_fold_initb_mem i fuel _ ht j (List.mem_range.mpr hj)

/-- Publishing a new power-of-two size is invariant-preserving once every
bucket below the new size has an initialised anchor with the right reverse
hash. -/
theorem inv_publish_size (ht : HT) (i : Nat) (hInv : Inv ht) (hi63 : i ≤ 63)
    (hiN : i < ht.nOrders)
    (hanch : ∀ idx, idx < 2 ^ i → ht.initb (bucketAddr ht idx) = true ∧
      (ht.mem (bucketAddr ht idx)).reverse_hash = revBits 64 idx) :
    Inv { ht with size := 2 ^ i } := by
  constructor
  · exact hInv.sorted
  · exact hInv.linkInit
  · exact hInv.noOutUninit
  · exact hInv.initBrk
  · exact hInv.tblRange
  · exact hInv.tblDisjoint
  · exact hInv.dh
  · exact Or.inr ⟨i, hi63, rfl⟩
  · intro k hk
    have hk' : (2 : Nat) ^ i = 2 ^ k := hk
    have hik : i = k := Nat.pow_right_injective (by norm_num) hk'
    rw [← hik]
    exact hiN
  · intro idx hidx
    have hidx' : idx < 2 ^ i := hidx
    have hba : bucketAddr { ht with size := 2 ^ i } idx = bucketAddr ht idx :=
      bucketAddr_tbl_congr ht _ idx rfl
    rw [hba]
    exact hanch idx hidx'
  · exact hInv.rtBound

/-- The `init_table` order loop preserves the invariant and keeps the size
positive, starting from order `i ≥ 1` at size `2^(i-1)`. -/
theorem inv_init_table_loop (fuel : Nat) :
    ∀ (len : Nat) (ht : HT) (i : Nat), Inv ht → 1 ≤ i → i ≤ ht.nOrders →
      ht.size = 2 ^ (i - 1) →
      Inv (init_table_loop fuel ht i len) ∧ 0 < (init_table_loop fuel ht i len).size := by
  intro len
  induction len with
  | zero =>
    intro ht i hInv h1 hle hsz
    exact ⟨hInv, by show 0 < ht.size; rw [hsz]; exact Nat.two_pow_pos _⟩
  | succ len ih =>
    intro ht i hInv h1 hle hsz
    unfold init_table_loop
    by_cases hb : ht.resize_target < 2 ^ i
    · rw [if_pos hb]
      exact ⟨hInv, by rw [hsz]; exact Nat.two_pow_pos _⟩
    · rw [if_neg hb]
      simp only
      have hi63 : i ≤ 63 := by
        have h2 := hInv.rtBound
        push_neg at hb
        by_contra hcon
        push_neg at hcon
        have h3 : (2 : Nat) ^ 64 ≤ 2 ^ i := Nat.pow_le_pow_right (by norm_num) (by omega)
        have h4 : (2 : Nat) ^ 63 < 2 ^ 64 := by norm_num
        omega
      have hszlt : ∀ k, ht.size = 2 ^ k → k < i := by
        intro k hk
        rw [hsz] at hk
        have := Nat.pow_right_injective (by norm_num : 2 ≤ 2) hk
        omega
      have hInv1 : Inv (callocLevel ht i) := inv_callocLevel ht i hInv hle hszlt
      have hiN1 : i < (callocLevel ht i).nOrders := by
        rw [callocLevel_nOrders]; omega
      have hfresh1 : ∀ j, j < lenOrder i →
          (callocLevel ht i).initb ((callocLevel ht i).tbl i + j) = false := by
        intro j hj
        rw [callocLevel_initb, callocLevel_tbl, if_pos rfl]
        cases hx : ht.initb (ht.brk + j)
        · rfl
        · exact absurd (hInv.initBrk _ hx) (by omega)
      have hsz1 : (callocLevel ht i).size = (if i = 0 then 0 else 2 ^ (i - 1)) := by
        rw [callocLevel_size, if_neg (by omega), hsz]
      have hInv2 : Inv (init_table_populate (callocLevel ht i) i fuel) :=
        inv_init_table_populate _ i fuel hInv1 hiN1 hfresh1 hsz1
      have hskel2 := init_table_populate_eqSkel (callocLevel ht i) i fuel
      have hInv3 : Inv { init_table_populate (callocLevel ht i) i fuel with size := 2 ^ i } := by
        refine inv_publish_size _ i hInv2 hi63 ?_ ?_
        · rw [hskel2.2.2.2.1, callocLevel_nOrders]; omega
        · intro idx hidx
          by_cases hlow : idx < 2 ^ (i - 1)
          · have hidx2 : idx < (init_table_populate (callocLevel ht i) i fuel).size := by
              rw [hskel2.1, callocLevel_size, hsz]; exact hlow
            exact hInv2.anchors idx hidx2
          · push_neg at hlow
            have hi0 : i ≠ 0 := by omega
            have hidx64 : idx < 2 ^ 64 :=
              lt_of_lt_of_le hidx (Nat.pow_le_pow_right (by norm_num) (by omega))
            have hfls : fls_ulong idx = i := fls_ulong_eq idx i hidx64 (by omega) hlow hidx
            have hjlen : idx - 2 ^ (i - 1) < lenOrder i := by
              unfold lenOrder
              rw [if_neg hi0]
              have h2 : (2 : Nat) ^ (i - 1) * 2 = 2 ^ i := by
                rw [← pow_succ]; congr 1; omega
              omega
            have hba : bucketAddr (init_table_populate (callocLevel ht i) i fuel) idx
                = (init_table_populate (callocLevel ht i) i fuel).tbl i + (idx - 2 ^ (i - 1)) := by
              unfold bucketAddr
              rw [hfls, if_neg hi0]
            rw [hba]
            have htbl2 : (init_table_populate (callocLevel ht i) i fuel).tbl
                = (callocLevel ht i).tbl := hskel2.2.2.1
            have hinit : (init_table_populate (callocLevel ht i) i fuel).initb
                ((init_table_populate (callocLevel ht i) i fuel).tbl i + (idx - 2 ^ (i - 1)))
                = true := by
              rw [htbl2]
              exact init_table_populate_initb (callocLevel ht i) i fuel _ hjlen
            refine ⟨hinit, ?_⟩
            have hdh := hInv2.dh i (idx - 2 ^ (i - 1)) ?_ hjlen hinit
            · rw [hdh]
              congr 1
              unfold levelIdx
              rw [if_neg hi0]
              omega
            · rw [hskel2.2.2.2.1, callocLevel_nOrders]; omega
      refine ih _ (i + 1) hInv3 (by omega) ?_ ?_
      · show i + 1 ≤ (init_table_populate (callocLevel ht i) i fuel).nOrders
        rw [hskel2.2.2.2.1, callocLevel_nOrders]
        omega
      · show (2 : Nat) ^ i = 2 ^ (i + 1 - 1)
        rfl

/-- One remove step preserves the invariant: the reverse-hash rewrite is a
no-op on a live dummy (it already holds that value) or an initialising
store on a never-populated slot, and `del` preserves the invariant. -/
theorem inv_remove_step (i fuel : Nat) (ht : HT) (j : Nat) (hInv : Inv ht)
    (hiN : i < ht.nOrders) (hj : j < lenOrder i) :
    Inv (remove_step i fuel ht j) := by
  unfold remove_step
  simp only
  have hbrk : ht.tbl i + j < ht.brk := by
    have := hInv.tblRange i hiN
    omega
  have hInv1 : Inv (ht.writeHash (ht.tbl i + j) (bit_reverse_ulong (levelIdx i j))) := by
    cases hb : ht.initb (ht.tbl i + j)
    · refine inv_writeHash ht _ _ hInv hb hbrk ?_
      intro o j' ho hj' heq
      rw [bit_reverse_ulong_eq]
      by_cases hoi : o = i
      · subst hoi
        have hjj : j' = j := by omega
        rw [hjj]
      · exact absurd heq (hInv.tblDisjoint o i ho hiN hoi j' j hj' hj)
    · have hrh : (ht.mem (ht.tbl i + j)).reverse_hash = bit_reverse_ulong (levelIdx i j) := by
        rw [bit_reverse_ulong_eq]
        exact hInv.dh i j hiN hj hb
      rw [writeHash_eq_self ht _ _ hb hrh]
      exact hInv
  exact inv_del _ _ _ _ hInv1

theorem inv_remove_fold (i fuel : Nat) :
    ∀ (js : List Nat) (ht : HT), Inv ht → i < ht.nOrders →
      (∀ j ∈ js, j < lenOrder i) →
      Inv (js.foldl (remove_step i fuel) ht) := by
  intro js
  induction js with
  | nil => intro ht hInv _ _; exact hInv
  | cons j js ih =>
    intro ht hInv hiN hlen
    have hstep := inv_remove_step i fuel ht j hInv hiN (hlen j (List.mem_cons_self j js))
    have hskel := remove_step_eqSkel i fuel ht j
    refine ih _ hstep ?_ ?_
    · rw [hskel.2.2.2.1]; exact hiN
    · intro j' hj'; exact hlen j' (List.mem_cons_of_mem j hj')

theorem inv_remove_table (ht : HT) (i fuel : Nat) (hInv : Inv ht) (hiN : i < ht.nOrders) :
    Inv (remove_table ht i fuel) := by
  unfold remove_table
  refine inv_remove_fold i fuel _ ht hInv hiN ?_
  intro j hj
  exact List.mem_range.mp hj

/-- The `fini_table` descending order loop preserves the invariant. -/
theorem inv_fini_table_loop (fuel fo : Nat) (hfo : 1 ≤ fo) :
    ∀ (k : Nat) (ht : HT), Inv ht →
      (0 < k → ht.size = 2 ^ (fo + k - 1)) →
      Inv (fini_table_loop fuel fo ht k) := by
  intro k
  induction k with
  | zero => intro ht hInv _; exact hInv
  | succ k ih =>
    intro ht hInv hsz
    unfold fini_table_loop
    simp only
    by_cases hb : ht.resize_target > 2 ^ (fo + k - 1)
    · rw [if_pos hb]; exact hInv
    · rw [if_neg hb]
      have hszk : ht.size = 2 ^ (fo + k) := by
        have h := hsz (by omega)
        rw [h, (by omega : fo + (k + 1) - 1 = fo + k)]
      obtain hI | ⟨kk, hkk63, hkk⟩ := hInv.sizePow
      · rw [hszk] at hI
        exact absurd hI (Nat.pos_iff_ne_zero.mp (Nat.two_pow_pos _))
      · have hik : fo + k = kk := by
          rw [hszk] at hkk
          exact Nat.pow_right_injective (by norm_num : 2 ≤ 2) hkk
        have hiN : fo + k < ht.nOrders := hInv.sizeOrders (fo + k) hszk
        have hInv1 : Inv { ht with size := 2 ^ (fo + k - 1) } := by
          refine inv_publish_size ht (fo + k - 1) hInv (by omega) (by omega) ?_
          intro idx hidx
          refine hInv.anchors idx ?_
          rw [hszk]
          have h2 : (2 : Nat) ^ (fo + k - 1) ≤ 2 ^ (fo + k) :=
            Nat.pow_le_pow_right (by norm_num) (by omega)
          omega
        have hInv2 : Inv (remove_table { ht with size := 2 ^ (fo + k - 1) } (fo + k) fuel) := by
          refine inv_remove_table _ _ fuel hInv1 ?_
          show fo + k < ht.nOrders
          exact hiN
        refine ih _ hInv2 ?_
        intro hk0
        have hskel := remove_table_eqSkel { ht with size := 2 ^ (fo + k - 1) } (fo + k) fuel
        rw [hskel.1]

theorem pos_fini_table_loop (fuel fo : Nat) :
    ∀ (k : Nat) (ht : HT), 0 < ht.size → 0 < (fini_table_loop fuel fo ht k).size := by
  intro k
  induction k with
  | zero => intro ht h; exact h
  | succ k ih =>
    intro ht h
    unfold fini_table_loop
    simp only
    by_cases hb : ht.resize_target > 2 ^ (fo + k - 1)
    · rw [if_pos hb]; exact h
    · rw [if_neg hb]
      refine ih _ ?_
      have hskel := remove_table_eqSkel { ht with size := 2 ^ (fo + k - 1) } (fo + k) fuel
      rw [hskel.1]
      show 0 < (2 : Nat) ^ (fo + k - 1)
      exact Nat.two_pow_pos _

/-- `_do_cds_lfht_grow` preserves the invariant and size positivity. -/
theorem inv_grow (ht : HT) (new_size fuel : Nat) (hInv : Inv ht) (hpos : 0 < ht.size) :
    Inv (_do_cds_lfht_grow ht ht.size new_size fuel) ∧
    0 < (_do_cds_lfht_grow ht ht.size new_size fuel).size := by
  unfold _do_cds_lfht_grow init_table
  simp only
  obtain hI | ⟨k, hk63, hk⟩ := hInv.sizePow
  · exact absurd hpos (by rw [hI]; omega)
  · have hgco : (get_count_order_ulong ht.size + 1).toNat = k + 1 := by
      rw [hk]; exact gco_pow2 k (by omega)
    rw [hgco]
    refine inv_init_table_loop fuel _ ht (k + 1) hInv (by omega) ?_ ?_
    · have := hInv.sizeOrders k hk
      omega
    · rw [hk, (by omega : k + 1 - 1 = k)]

/-- `_do_cds_lfht_shrink` preserves the invariant and size positivity. -/
theorem inv_shrink (ht : HT) (new_size fuel : Nat) (hInv : Inv ht) (hpos : 0 < ht.size) :
    Inv (_do_cds_lfht_shrink ht ht.size new_size fuel) ∧
    0 < (_do_cds_lfht_shrink ht ht.size new_size fuel).size := by
  unfold _do_cds_lfht_shrink fini_table
  simp only
  have hfo : 1 ≤ (get_count_order_ulong (max new_size MIN_TABLE_SIZE) + 1).toNat := by
    unfold get_count_order_ulong
    rw [if_neg (by unfold MIN_TABLE_SIZE; omega)]
    omega
  obtain hI | ⟨k, hk63, hk⟩ := hInv.sizePow
  · exact absurd hpos (by rw [hI]; omega)
  · have hgco : (get_count_order_ulong ht.size + 1).toNat = k + 1 := by
      rw [hk]; exact gco_pow2 k (by omega)
    rw [hgco]
    constructor
    · refine inv_fini_table_loop fuel _ hfo _ ht hInv ?_
      intro hkpos
      rw [hk]
      congr 1
      omega
    · exact pos_fini_table_loop fuel _ _ ht hpos

/-- One body of the `do {}` loop of `_do_cds_lfht_resize` preserves the
invariant and size positivity. -/
theorem inv_resize_step (fuel : Nat) (ht : HT) (hInv : Inv ht) (hpos : 0 < ht.size) :
    Inv (resize_step fuel ht) ∧ 0 < (resize_step fuel ht).size := by
  unfold resize_step
  simp only
  by_cases h1 : ht.size < ht.resize_target
  · rw [if_pos h1]
    exact inv_grow ht ht.resize_target fuel hInv hpos
  · rw [if_neg h1]
    by_cases h2 : ht.size > ht.resize_target
    · rw [if_pos h2]
      exact inv_shrink ht ht.resize_target fuel hInv hpos
    · rw [if_neg h2]
      exact ⟨hInv, hpos⟩

theorem inv_do_resize (fuel : Nat) :
    ∀ (loops : Nat) (ht : HT), Inv ht → 0 < ht.size →
      Inv (_do_cds_lfht_resize fuel ht loops) ∧
      0 < (_do_cds_lfht_resize fuel ht loops).size := by
  intro loops
  induction loops with
  | zero => intro ht hInv hpos; exact ⟨hInv, hpos⟩
  | succ loops ih =>
    intro ht hInv hpos
    unfold _do_cds_lfht_resize
    simp only
    obtain ⟨hInv1, hpos1⟩ := inv_resize_step fuel ht hInv hpos
    by_cases hc : (resize_step fuel ht).size = (resize_step fuel ht).resize_target
    · rw [if_pos hc]
      exact ⟨hInv1, hpos1⟩
    · rw [if_neg hc]
      exact ih _ hInv1 hpos1

theorem inv_resize_target_update (ht : HT) (c : Nat) (hInv : Inv ht) (hc : c ≤ 2 ^ 63) :
    Inv (resize_target_update_count ht c) := by
  constructor
  · exact hInv.sorted
  · exact hInv.linkInit
  · exact hInv.noOutUninit
  · exact hInv.initBrk
  · exact hInv.tblRange
  · exact hInv.tblDisjoint
  · exact hInv.dh
  · exact hInv.sizePow
  · exact hInv.sizeOrders
  · intro idx hidx
    have hidx' : idx < ht.size := hidx
    have hba : bucketAddr (resize_target_update_count ht c) idx = bucketAddr ht idx :=
      bucketAddr_tbl_congr ht _ idx rfl
    rw [hba]
    exact hInv.anchors idx hidx'
  · show max c MIN_TABLE_SIZE ≤ 2 ^ 63
    have hmin : MIN_TABLE_SIZE = 1 := rfl
    have h63 : (1 : Nat) ≤ 2 ^ 63 := Nat.one_le_two_pow
    omega

/-- The blocking `cds_lfht_resize` preserves the invariant and size
positivity for any requested size up to `2^63`. -/
theorem inv_cds_lfht_resize (ht : HT) (new_size loops fuel : Nat) (hInv : Inv ht)
    (hpos : 0 < ht.size) (hns : new_size ≤ 2 ^ 63) :
    Inv (cds_lfht_resize ht new_size loops fuel) ∧
    0 < (cds_lfht_resize ht new_size loops fuel).size := by
  unfold cds_lfht_resize
  refine inv_do_resize fuel loops _ (inv_resize_target_update ht new_size hInv hns) ?_
  show 0 < ht.size
  exact hpos

theorem and_pred_eq_zero_iff_pow2 (x : Nat) (h0 : 0 < x) :
    x &&& (x - 1) = 0 ↔ ∃ k, x = 2 ^ k := by
  constructor
  · intro h
    refine ⟨Nat.log2 x, ?_⟩
    by_contra hne
    have hx0 : x ≠ 0 := by omega
    have h1 : 2 ^ Nat.log2 x ≤ x := Nat.log2_self_le hx0
    have h2 : x < 2 ^ (Nat.log2 x + 1) := Nat.lt_log2_self
    have h3 : 2 ^ Nat.log2 x < x := lt_of_le_of_ne h1 (fun he => hne he.symm)
    have hpw : (2 : Nat) ^ (Nat.log2 x + 1) = 2 ^ Nat.log2 x * 2 := pow_succ 2 _
    have hd : x / 2 ^ Nat.log2 x = 1 :=
      Nat.div_eq_of_lt_le (by omega) (by omega)
    have hd2 : (x - 1) / 2 ^ Nat.log2 x = 1 :=
      Nat.div_eq_of_lt_le (by omega) (by omega)
    have hb1 : x.testBit (Nat.log2 x) = true := by
      rw [Nat.testBit_to_div_mod, hd]
      rfl
    have hb2 : (x - 1).testBit (Nat.log2 x) = true := by
      rw [Nat.testBit_to_div_mod, hd2]
      rfl
    have hb : (x &&& (x - 1)).testBit (Nat.log2 x) = true := by
      rw [Nat.testBit_and, hb1, hb2]
      rfl
    rw [h] at hb
    simp at hb
  · rintro ⟨k, rfl⟩
    rw [Nat.and_pow_two_sub_one_eq_mod]
    exact Nat.mod_self _

/-! ## Invariant of the freshly created table -/

/-- The zeroed handle (with any resize target up to `2^63`) satisfies the
invariant vacuously. -/
theorem inv_empty_rt (hf : Nat → Nat) (rt : Nat) (hrt : rt ≤ 2 ^ 63) :
    Inv { emptyHT hf with resize_target := rt } := by
  constructor
  · intro a b hab
    exact Option.noConfusion hab
  · intro a b hab
    exact Option.noConfusion hab
  · intro a _
    rfl
  · intro a ha
    exact Bool.noConfusion ha
  · intro o ho
    exact absurd ho (Nat.not_lt_zero o)
  · intro o1 o2 h1
    exact absurd h1 (Nat.not_lt_zero o1)
  · intro o j ho
    exact absurd ho (Nat.not_lt_zero o)
  · exact Or.inl rfl
  · intro k hk
    have hk' : (0 : Nat) = 2 ^ k := hk
    exact absurd hk'.symm (Nat.pos_iff_ne_zero.mp (Nat.two_pow_pos k))
  · intro idx hidx
    exact absurd hidx (Nat.not_lt_zero idx)
  · exact hrt

/-- Running the `init_table` order loop from order 0 on an empty table (the
`_cds_lfht_new` path) yields an invariant-satisfying table of positive
size. -/
theorem inv_init_table_loop_from0 (fuel len : Nat) (ht : HT) (hInv : Inv ht)
    (hsz : ht.size = 0) (h1 : 1 ≤ ht.resize_target) (h0 : 0 < len) :
    Inv (init_table_loop fuel ht 0 len) ∧ 0 < (init_table_loop fuel ht 0 len).size := by
  cases len with
  | zero => omega
  | succ len =>
    unfold init_table_loop
    have hb : ¬ ht.resize_target < 2 ^ 0 := by rw [pow_zero]; omega
    rw [if_neg hb]
    simp only
    have hszlt : ∀ k, ht.size = 2 ^ k → k < 0 := by
      intro k hk
      rw [hsz] at hk
      exact absurd hk.symm (Nat.pos_iff_ne_zero.mp (Nat.two_pow_pos k))
    have hInv1 : Inv (callocLevel ht 0) :=
      inv_callocLevel ht 0 hInv (Nat.zero_le _) hszlt
    have hiN1 : 0 < (callocLevel ht 0).nOrders := by
      rw [callocLevel_nOrders]; omega
    have hfresh1 : ∀ j, j < lenOrder 0 →
        (callocLevel ht 0).initb ((callocLevel ht 0).tbl 0 + j) = false := by
      intro j hj
      rw [callocLevel_initb, callocLevel_tbl, if_pos rfl]
      cases hx : ht.initb (ht.brk + j)
      · rfl
      · exact absurd (hInv.initBrk _ hx) (by omega)
    have hsz1 : (callocLevel ht 0).size = (if (0 : Nat) = 0 then 0 else 2 ^ (0 - 1)) := by
      rw [callocLevel_size, if_pos rfl, hsz]
    have hInv2 : Inv (init_table_populate (callocLevel ht 0) 0 fuel) :=
      inv_init_table_populate _ 0 fuel hInv1 hiN1 hfresh1 hsz1
    have hskel2 := init_table_populate_eqSkel (callocLevel ht 0) 0 fuel
    have hInv3 : Inv { init_table_populate (callocLevel ht 0) 0 fuel with size := 2 ^ 0 } := by
      refine inv_publish_size _ 0 hInv2 (by omega) ?_ ?_
      · rw [hskel2.2.2.2.1, callocLevel_nOrders]; omega
      · intro idx hidx
        rw [pow_zero] at hidx
        have hidx0 : idx = 0 := by omega
        subst hidx0
        have hba : bucketAddr (init_table_populate (callocLevel ht 0) 0 fuel) 0
            = (init_table_populate (callocLevel ht 0) 0 fuel).tbl 0 + 0 := by
          unfold bucketAddr
          rw [fls_ulong_zero, if_pos rfl]
        rw [hba]
        have htbl2 : (init_table_populate (callocLevel ht 0) 0 fuel).tbl
            = (callocLevel ht 0).tbl := hskel2.2.2.1
        have hinit : (init_table_populate (callocLevel ht 0) 0 fuel).initb
            ((init_table_populate (callocLevel ht 0) 0 fuel).tbl 0 + 0) = true := by
          rw [htbl2]
          exact init_table_populate_initb (callocLevel ht 0) 0 fuel 0 (by decide)
        refine ⟨hinit, ?_⟩
        have hdh := hInv2.dh 0 0 ?_ (by decide) hinit
        · rw [hdh]
          decide
        · rw [hskel2.2.2.2.1, callocLevel_nOrders]; omega
    refine inv_init_table_loop fuel len _ 1 hInv3 (by omega) ?_ ?_
    · show 1 ≤ (init_table_populate (callocLevel ht 0) 0 fuel).nOrders
      rw [hskel2.2.2.2.1, callocLevel_nOrders]
      omega
    · show (2 : Nat) ^ 0 = 2 ^ (1 - 1)
      rfl

/-- `_cds_lfht_new` only accepts zero or power-of-two `init_size`; any
table it hands out satisfies the invariant and has positive size. -/
theorem inv_new (hf : Nat → Nat) (isz fuel : Nat) (ht : HT) (hisz : isz ≤ 2 ^ 63)
    (h : _cds_lfht_new hf isz fuel = some ht) : Inv ht ∧ 0 < ht.size := by
  unfold _cds_lfht_new at h
  by_cases hc : isz ≠ 0 ∧ isz &&& (isz - 1) ≠ 0
  · rw [if_pos hc] at h
    cases h
  · rw [if_neg hc] at h
    simp only at h
    have hht : ht = init_table
        { emptyHT hf with resize_target :=
            2 ^ ((get_count_order_ulong (max isz MIN_TABLE_SIZE) + 1).toNat - 1) }
        0 ((get_count_order_ulong (max isz MIN_TABLE_SIZE) + 1).toNat) fuel :=
      (Option.some.inj h).symm
    subst hht
    have hpow : ∃ kk, kk ≤ 63 ∧ max isz MIN_TABLE_SIZE = 2 ^ kk := by
      push_neg at hc
      rcases Nat.eq_zero_or_pos isz with rfl | hpos
      · exact ⟨0, by omega, rfl⟩
      · have hm : isz &&& (isz - 1) = 0 := hc (by omega)
        obtain ⟨kk, hkk⟩ := (and_pred_eq_zero_iff_pow2 isz hpos).mp hm
        have hkk63 : kk ≤ 63 := by
          by_contra hcon
          push_neg at hcon
          have h2 : (2 : Nat) ^ 64 ≤ 2 ^ kk := Nat.pow_le_pow_right (by norm_num) (by omega)
          have h3 : (2 : Nat) ^ 63 < 2 ^ 64 := by norm_num
          omega
        refine ⟨kk, hkk63, ?_⟩
        have hmin : MIN_TABLE_SIZE = 1 := rfl
        have hp := Nat.two_pow_pos kk
        rw [hkk, hmin]
        omega
    obtain ⟨kk, hkk63, hkkeq⟩ := hpow
    have hgco : (get_count_order_ulong (max isz MIN_TABLE_SIZE) + 1).toNat = kk + 1 := by
      rw [hkkeq]; exact gco_pow2 kk (by omega)
    rw [hgco]
    unfold init_table
    refine inv_init_table_loop_from0 fuel (kk + 1) _ ?_ rfl ?_ (by omega)
    · refine inv_empty_rt hf _ ?_
      exact Nat.pow_le_pow_right (by norm_num) (by omega)
    · show 1 ≤ 2 ^ (kk + 1 - 1)
      exact Nat.one_le_two_pow

/-! ## The invariant holds in every reachable state -/

theorem inv_of_reach (ht : HT) (h : Reach ht) : Inv ht ∧ 0 < ht.size := by
  induction h with
  | init hf isz fuel ht hisz hnew => exact inv_new hf isz fuel ht hisz hnew
  | add ht key fuel _ ih =>
    refine ⟨inv_cds_lfht_add ht key fuel ih.1, ?_⟩
    have hs : (cds_lfht_add ht key fuel).size = ht.size := by
      unfold cds_lfht_add
      simp only
      rw [(add_sameShape _ _ _ _ _ _).1, allocNode_fst_size]
    rw [hs]; exact ih.2
  | add_unique ht key fuel _ ih =>
    refine ⟨inv_cds_lfht_add_unique ht key fuel ih.1, ?_⟩
    have hs : (cds_lfht_add_unique ht key fuel).1.size = ht.size := by
      unfold cds_lfht_add_unique
      simp only
      rw [(add_sameShape _ _ _ _ _ _).1, allocNode_fst_size]
    rw [hs]; exact ih.2
  | add_replace ht key fuel _ ih =>
    refine ⟨inv_cds_lfht_add_replace ht key fuel ih.1, ?_⟩
    have hs : (cds_lfht_add_replace ht key fuel).1.size = ht.size := by
      unfold cds_lfht_add_replace
      simp only
      rw [(add_sameShape _ _ _ _ _ _).1, allocNode_fst_size]
    rw [hs]; exact ih.2
  | del ht it fuel _ ih =>
    constructor
    · unfold cds_lfht_del
      exact inv_del ht ht.size it fuel ih.1
    · have hs : (cds_lfht_del ht it fuel).1.size = ht.size := by
        unfold cds_lfht_del
        rw [(del_sameShape _ _ _ _).1]
      rw [hs]; exact ih.2
  | gc ht d n fuel _ ih =>
    refine ⟨inv_gc_bucket d n fuel ht ih.1, ?_⟩
    rw [(gc_bucket_sameShape d n fuel ht).1]
    exact ih.2
  | resize ht ns loops fuel _ hns ih =>
    exact inv_cds_lfht_resize ht ns loops fuel ih.1 ih.2 hns

/-! ## Comparison with the spec-side bit functions -/

theorem fls_ulong_eq_msb_index (x : Nat) (hw : x < 2 ^ 64) : fls_ulong x = msb_index x := by
  rcases Nat.eq_zero_or_pos x with rfl | h0
  · simp [fls_ulong_zero, msb_index]
  · unfold msb_index
    rw [if_neg (by omega)]
    exact fls_ulong_eq x (Nat.log2 x + 1) hw (by omega)
      (Nat.log2_self_le (by omega)) Nat.lt_log2_self

theorem get_count_order_u32_eq_ceil_log2 (x : Nat) (hw : x < 2 ^ 32) :
    get_count_order_u32 x = ceil_log2 x := by
  rcases Nat.eq_zero_or_pos x with rfl | h0
  · simp [get_count_order_u32, ceil_log2]
  · unfold get_count_order_u32 ceil_log2
    rw [if_neg (by omega), if_neg (by omega)]
    norm_cast
    rcases Nat.eq_or_lt_of_le h0 with h1 | h1
    · rw [← h1]
      norm_num [fls_u32_zero]
    · obtain ⟨hf0, _, hfl, hfu⟩ := fls_u32_spec (x - 1) (by omega) (by omega)
      have hle : Nat.clog 2 x ≤ fls_u32 (x - 1) :=
        (Nat.le_pow_iff_clog_le (by norm_num)).1 (by omega)
      have hgt : ¬ Nat.clog 2 x ≤ fls_u32 (x - 1) - 1 := by
        intro hc
        have := (Nat.le_pow_iff_clog_le (show (1:Nat) < 2 by norm_num)).2 hc
        omega
      omega

/-! ## Claim C7: the bucket-index decomposition -/

/-- C7: for every hash `h` and power-of-two size `2^k > 0`, `lookup_bucket`
maps `h` to the anchor of bucket `idx = h mod size` by selecting level
`order = msb_index(idx)` (level 0 when `idx = 0`) and position
`idx - 2^(order-1)` within a level `order > 0` (position 0 at level 0),
and the code's masked indexing `idx & (2^(order-1) - 1)` equals that
position. -/
theorem C7_lookup_bucket_decomposition (ht : HT) (h k : Nat) (hk : k ≤ 64) :
    bucketDecompSpec ht h k := by
  have hidx : h % 2 ^ k < 2 ^ 64 := by
    have h1 : h % 2 ^ k < 2 ^ k := Nat.mod_lt h (Nat.two_pow_pos k)
    have h2 : (2 : Nat) ^ k ≤ 2 ^ 64 := Nat.pow_le_pow_right (by norm_num) hk
    omega
  have hmsb := fls_ulong_eq_msb_index (h % 2 ^ k) hidx
  refine ⟨Nat.and_pow_two_sub_one_eq_mod h k, ?_, hmsb, ?_, ?_⟩
  · constructor
    · intro h0
      by_contra hne
      obtain ⟨hf, _, _, _⟩ := fls_ulong_spec (h % 2 ^ k) (by omega) hidx
      omega
    · intro h0
      rw [h0]
      simp [msb_index]
  · rw [lookup_bucket_eq ht k h hk]
    unfold bucketAddr
    rw [hmsb]
  · rcases Nat.eq_zero_or_pos (h % 2 ^ k) with h0 | h0
    · rw [h0]
      simp [msb_index]
    · have hne : msb_index (h % 2 ^ k) ≠ 0 := by
        rw [← hmsb]
        obtain ⟨hf, _, _, _⟩ := fls_ulong_spec (h % 2 ^ k) h0 hidx
        omega
      rw [if_neg hne, if_neg hne, ← hmsb]
      exact mask_eq_sub (h % 2 ^ k) h0 hidx

/-- Witness for C7 at `h = 6`, `k = 3`. -/
theorem C7_lookup_bucket_decomposition_witness :
    3 ≤ 64 ∧ bucketDecompSpec (emptyHT id) 6 3 :=
  ⟨by norm_num, C7_lookup_bucket_decomposition (emptyHT id) 6 3 (by norm_num)⟩

/-! ## Claim C8: the chain-length resize trigger -/

/-- C8: with auto-resize enabled and the global approximate count below the
first commit threshold `2^COUNT_COMMIT_ORDER`, `check_resize` schedules a
lazy grow exactly when the chain length counted by the add walk reaches
`CHAIN_LEN_RESIZE_THRESHOLD = 3`, and the scheduled growth is
`ceil_log2(chain_len - (CHAIN_LEN_TARGET - 1))` orders; below the
threshold nothing is scheduled. -/
theorem C8_chain_length_trigger (cnt cl : Nat) (hcnt : cnt < 2 ^ COUNT_COMMIT_ORDER)
    (hcl : cl < 2 ^ 32) :
    ((check_resize true cnt cl).isSome ↔ CHAIN_LEN_RESIZE_THRESHOLD ≤ cl) ∧
    (CHAIN_LEN_RESIZE_THRESHOLD ≤ cl →
      check_resize true cnt cl = some (ceil_log2 (cl - (CHAIN_LEN_TARGET - 1)))) := by
  unfold check_resize
  rw [if_neg (by norm_num), if_neg (by omega)]
  constructor
  · constructor
    · intro h
      by_contra hc
      rw [if_neg (by omega)] at h
      simp at h
    · intro h
      rw [if_pos (by omega)]
      rfl
  · intro h
    rw [if_pos (by omega)]
    have : cl - (CHAIN_LEN_TARGET - 1) = cl := by
      unfold CHAIN_LEN_TARGET
      omega
    rw [this, get_count_order_u32_eq_ceil_log2 cl hcl]

/-- Witness for C8 at count 0, chain length 3 and chain length 2. -/
theorem C8_chain_length_trigger_witness :
    (0 < 2 ^ COUNT_COMMIT_ORDER ∧ 3 < 2 ^ 32 ∧
      check_resize true 0 3 = some (ceil_log2 3)) ∧
    check_resize true 0 2 = none := by
  refine ⟨⟨by norm_num [COUNT_COMMIT_ORDER], by norm_num, ?_⟩, by decide⟩
  have h := (C8_chain_length_trigger 0 3 (by norm_num [COUNT_COMMIT_ORDER]) (by norm_num)).2
    (by norm_num [CHAIN_LEN_RESIZE_THRESHOLD])
  simpa [CHAIN_LEN_TARGET] using h

/-! ## Claim C10: nil iterators are rejected -/

/-- C10: `_cds_lfht_del` and `_cds_lfht_replace` called with a nil
(`NULL`) node return `-ENOENT` and leave the table unchanged instead of
dereferencing the nil node. -/
theorem C10_nil_iterator (ht : HT) (size fuel new_node : Nat) (obs : TaggedPtr) :
    _cds_lfht_del ht size none fuel = (ht, -ENOENT) ∧
    _cds_lfht_replace ht size none obs new_node fuel = (ht, -ENOENT) :=
  ⟨rfl, rfl⟩

/-! ## Claim C5: `init_size` validation in `_cds_lfht_new` -/

/-- C5 counterexample: `init_size = 0` is not a power of two, yet
`_cds_lfht_new` does not fail on it (the check `init_size && (init_size &
(init_size - 1))` lets 0 through), so "fails iff `init_size` is not a
power of two" is false at 0. -/
theorem C5_counterexample :
    (¬ ∃ k, (0 : Nat) = 2 ^ k) ∧ (_cds_lfht_new id 0 10).isSome = true ∧
    ((_cds_lfht_new id 0 10).getD (emptyHT id)).size = 1 := by
  refine ⟨?_, by decide, by decide⟩
  rintro ⟨k, hk⟩
  have := Nat.two_pow_pos k
  omega

/-- C5 (amended): creation fails iff `init_size` is nonzero and not a
power of two; whenever it returns a handle the published size is
`max(init_size, MIN_TABLE_SIZE)` (also in the `init_size = 0` case). -/
theorem C5_new_validation (hf : Nat → Nat) (isz fuel : Nat) (hsz : isz ≤ 2 ^ 63) :
    (_cds_lfht_new hf isz fuel = none ↔ (isz ≠ 0 ∧ ¬ ∃ k, isz = 2 ^ k)) ∧
    (∀ ht, _cds_lfht_new hf isz fuel = some ht → ht.size = max isz MIN_TABLE_SIZE) := by
  have hiff : (isz ≠ 0 ∧ isz &&& (isz - 1) ≠ 0) ↔ (isz ≠ 0 ∧ ¬ ∃ k, isz = 2 ^ k) := by
    constructor
    · rintro ⟨h1, h2⟩
      exact ⟨h1, fun hp => h2 ((and_pred_eq_zero_iff_pow2 isz (by omega)).2 hp)⟩
    · rintro ⟨h1, h2⟩
      exact ⟨h1, fun hz => h2 ((and_pred_eq_zero_iff_pow2 isz (by omega)).1 hz)⟩
  constructor
  · unfold _cds_lfht_new
    by_cases hc : isz ≠ 0 ∧ isz &&& (isz - 1) ≠ 0
    · rw [if_pos hc]
      exact iff_of_true rfl (hiff.1 hc)
    · rw [if_neg hc]
      exact iff_of_false (by simp) (fun hr => hc (hiff.2 hr))
  · intro ht hht
    unfold _cds_lfht_new at hht
    by_cases hc : isz ≠ 0 ∧ isz &&& (isz - 1) ≠ 0
    · rw [if_pos hc] at hht
      exact absurd hht (by simp)
    · rw [if_neg hc] at hht
      have hsome := Option.some.inj hht
      obtain ⟨kk, hk63, hmax⟩ : ∃ kk ≤ 63, max isz MIN_TABLE_SIZE = 2 ^ kk := by
        rcases not_and_or.1 hc with h0 | hpow
        · push_neg at h0
          refine ⟨0, by omega, ?_⟩
          rw [h0]
          simp [MIN_TABLE_SIZE]
        · push_neg at hpow
          rcases Nat.eq_zero_or_pos isz with h0 | h0
          · refine ⟨0, by omega, ?_⟩
            rw [h0]
            simp [MIN_TABLE_SIZE]
          · obtain ⟨k, rfl⟩ := (and_pred_eq_zero_iff_pow2 isz h0).1 hpow
            refine ⟨k, ?_, ?_⟩
            · exact (Nat.pow_le_pow_iff_right (by norm_num)).1 hsz
            · have : (1 : Nat) ≤ 2 ^ k := Nat.one_le_two_pow
              simp [MIN_TABLE_SIZE]
              omega
      rw [← hsome]
      simp only [hmax, gco_pow2 kk (by omega)]
      unfold init_table
      have hl := init_table_loop_size fuel (kk + 1) 0
        { emptyHT hf with resize_target := 2 ^ (kk + 1 - 1) } (by omega)
        (fun i hi1 hi2 => by
          show 2 ^ i ≤ 2 ^ (kk + 1 - 1)
          exact Nat.pow_le_pow_right (by norm_num) (by omega))
      rw [hl.1]
      congr 1
      omega

/-- Witness for C5 at `init_size = 8`. -/
theorem C5_new_validation_witness :
    (8 ≤ 2 ^ 63) ∧
    ((_cds_lfht_new id 8 20 = none ↔ ((8 : Nat) ≠ 0 ∧ ¬ ∃ k, (8 : Nat) = 2 ^ k)) ∧
     (∀ ht, _cds_lfht_new id 8 20 = some ht → ht.size = max 8 MIN_TABLE_SIZE)) :=
  ⟨by norm_num, C5_new_validation id 8 20 (by norm_num)⟩

/-! ## Claim C6: the blocking resize -/

theorem stuck5_step_fix (fuel : Nat) : resize_step fuel stuck5 = stuck5 := by
  have hsz : stuck5.size = 4 := by decide
  have hrt : stuck5.resize_target = 5 := by decide
  unfold resize_step
  rw [if_pos (by rw [hsz, hrt]; norm_num)]
  unfold _do_cds_lfht_grow
  simp only [hsz, hrt]
  rw [show (get_count_order_ulong 4 + 1).toNat = 3 by decide,
    show (get_count_order_ulong 5 + 1).toNat = 4 by decide]
  unfold init_table
  show init_table_loop fuel stuck5 3 (0 + 1) = stuck5
  unfold init_table_loop
  rw [if_pos (by rw [hrt]; norm_num)]

theorem stuck5_loop_fix (fuel : Nat) : ∀ loops, _do_cds_lfht_resize fuel stuck5 loops = stuck5 := by
  intro loops
  induction loops with
  | zero => rfl
  | succ loops ih =>
    unfold _do_cds_lfht_resize
    rw [stuck5_step_fix fuel]
    rw [if_neg (by decide)]
    exact ih

/-- C6 counterexample: on the table of size 4 built by `_cds_lfht_new`,
`cds_lfht_resize(ht, 5)` never publishes the claimed size
`8 = roundup_pow2(5)`: the resize loop body is a fixpoint that leaves the
size at 4 (and hence the `do`-loop of `_do_cds_lfht_resize`, whose exit
condition is `size == resize_target`, never terminates in the C code). -/
theorem C6_counterexample :
    (¬ ∃ loops fuel, (cds_lfht_resize newHT4 5 loops fuel).size = 8) ∧
    (cds_lfht_resize newHT4 5 3 20).size = 4 := by
  have hall : ∀ loops fuel, cds_lfht_resize newHT4 5 loops fuel = stuck5 := by
    intro loops fuel
    show _do_cds_lfht_resize fuel stuck5 loops = stuck5
    exact stuck5_loop_fix fuel loops
  constructor
  · rintro ⟨loops, fuel, hc⟩
    rw [hall loops fuel] at hc
    rw [show stuck5.size = 4 by decide] at hc
    omega
  · rw [hall 3 20]
    decide

/-- C6 (amended): for a `new_size` that is zero or a power of two, a
blocking `cds_lfht_resize` drives the published size to
`max(new_size, MIN_TABLE_SIZE)`; a non-power-of-two `new_size` is not
rounded up, and the resize loop can never meet its exit condition
(`C6_counterexample`). -/
theorem C6_resize_pow2 (ht : HT) (new_size j loops fuel : Nat) (hj : ht.size = 2 ^ j)
    (hj63 : j ≤ 63) (hns : new_size = 0 ∨ ∃ m ≤ 63, new_size = 2 ^ m) (hl : 0 < loops) :
    (cds_lfht_resize ht new_size loops fuel).size = max new_size MIN_TABLE_SIZE := by
  obtain ⟨m, hm63, hmax⟩ : ∃ m ≤ 63, max new_size MIN_TABLE_SIZE = 2 ^ m := by
    rcases hns with rfl | ⟨m, hm, rfl⟩
    · exact ⟨0, by omega, by simp [MIN_TABLE_SIZE]⟩
    · refine ⟨m, hm, ?_⟩
      have : (1 : Nat) ≤ 2 ^ m := Nat.one_le_two_pow
      simp [MIN_TABLE_SIZE]
      omega
  unfold cds_lfht_resize resize_target_update_count
  rw [hmax]
  exact do_resize_to_target fuel _ loops j m hj hj63 hm63 (by rw [← hmax]) hl

/-! ## Claim C4: replace on a changed successor -/

/-- C4 counterexample: on `replaceCexHT`, node 1's successor changed
between lookup and replace (the iterator observed `END`, the node now
points at node 2, neither marked `REMOVED`), yet `_cds_lfht_replace`
succeeds with 0 instead of failing with `-ENOENT`, and it does change the
list. -/
theorem C4_counterexample :
    (replaceCexHT.mem 1).next ≠ get_end ∧
    is_removed get_end = false ∧
    is_removed (replaceCexHT.mem 1).next = false ∧
    (_cds_lfht_replace replaceCexHT 1 (some 1) get_end 3 10).2 = 0 ∧
    (_cds_lfht_replace replaceCexHT 1 (some 1) get_end 3 10).2 ≠ -ENOENT ∧
    ((_cds_lfht_replace replaceCexHT 1 (some 1) get_end 3 10).1.mem 0).next ≠
      (replaceCexHT.mem 0).next := by
  decide

/-- C4 (amended): `_cds_lfht_replace` fails with `NOT_FOUND` exactly when
the old node is nil or was logically removed (the observed or the current
successor word carries the `REMOVED` flag); when the successor merely
changed it retries with the new successor and succeeds, and on success the
single CAS that links the new node also flags the old node's `next` as
`REMOVED`; a failing replace leaves every node except the caller's new
node unchanged. -/
theorem C4_replace_semantics (ht : HT) (size o new_node fuel : Nat) (obs : TaggedPtr)
    (hfuel : 2 ≤ fuel) (hne : o ≠ new_node) : replaceSpec ht size o new_node fuel obs := by
  obtain ⟨f, rfl⟩ : ∃ f, fuel = f + 2 := ⟨fuel - 2, by omega⟩
  unfold replaceSpec _cds_lfht_replace
  simp only
  by_cases hro : is_removed obs = true
  · have hloop : replace_loop ht o new_node (f + 2) obs = (ht, false) := by
      unfold replace_loop
      rw [if_pos hro]
    rw [hloop]
    exact ⟨iff_of_true rfl (Or.inl hro), Or.inl rfl, fun _ a _ => rfl,
      fun hc => absurd (show (-ENOENT : Int) = 0 from hc) (by norm_num [ENOENT])⟩
  · have hro' : is_removed obs = false := by
      cases h : is_removed obs
      · rfl
      · exact absurd h hro
    have hm1 : ((ht.writeNext new_node (clear_flag obs)).mem o).next = (ht.mem o).next := by
      rw [writeNext_mem]
      rw [if_neg hne]
    by_cases hobs : (ht.mem o).next = obs
    · have hloop : replace_loop ht o new_node (f + 2) obs =
          ((ht.writeNext new_node (clear_flag obs)).writeNext o
            ⟨some new_node, true, false⟩, true) := by
        unfold replace_loop
        rw [if_neg hro]
        simp only
        rw [if_pos (hm1.trans hobs)]
      rw [hloop]
      refine ⟨iff_of_false
          (fun hc => absurd (show (0 : Int) = -ENOENT from hc) (by norm_num [ENOENT])) ?_,
        Or.inr rfl,
        fun hc => absurd (show (0 : Int) = -ENOENT from hc) (by norm_num [ENOENT]),
        fun _ => ?_⟩
      · rintro (h | h)
        · rw [hro'] at h; cases h
        · rw [hobs, hro'] at h; cases h
      · rw [writeNext_mem, if_pos rfl]
    · by_cases hract : is_removed (ht.mem o).next = true
      · have hloop : replace_loop ht o new_node (f + 2) obs =
            (ht.writeNext new_node (clear_flag obs), false) := by
          unfold replace_loop
          rw [if_neg hro]
          simp only
          rw [if_neg (fun hc => hobs (hm1.symm.trans hc))]
          unfold replace_loop
          rw [if_pos (by rw [hm1]; exact hract)]
        rw [hloop]
        refine ⟨iff_of_true rfl (Or.inr hract), Or.inl rfl, fun _ a ha => ?_,
          fun hc => absurd (show (-ENOENT : Int) = 0 from hc) (by norm_num [ENOENT])⟩
        show (ht.writeNext new_node (clear_flag obs)).mem a = ht.mem a
        rw [writeNext_mem, if_neg ha]
      · have hract' : is_removed (ht.mem o).next = false := by
          cases h : is_removed (ht.mem o).next
          · rfl
          · exact absurd h hract
        have hm2 : (((ht.writeNext new_node (clear_flag obs)).writeNext new_node
            (clear_flag ((ht.writeNext new_node (clear_flag obs)).mem o).next)).mem o).next =
            ((ht.writeNext new_node (clear_flag obs)).mem o).next := by
          rw [writeNext_mem, if_neg hne]
        have hloop : replace_loop ht o new_node (f + 2) obs =
            (((ht.writeNext new_node (clear_flag obs)).writeNext new_node
                (clear_flag ((ht.writeNext new_node (clear_flag obs)).mem o).next)).writeNext o
              ⟨some new_node, true, false⟩, true) := by
          unfold replace_loop
          rw [if_neg hro]
          simp only
          rw [if_neg (fun hc => hobs (hm1.symm.trans hc))]
          unfold replace_loop
          rw [if_neg (by rw [hm1]; exact hract)]
          simp only
          rw [if_pos hm2]
        rw [hloop]
        refine ⟨iff_of_false
            (fun hc => absurd (show (0 : Int) = -ENOENT from hc) (by norm_num [ENOENT])) ?_,
          Or.inr rfl,
          fun hc => absurd (show (0 : Int) = -ENOENT from hc) (by norm_num [ENOENT]),
          fun _ => ?_⟩
        · rintro (h | h)
          · rw [hro'] at h; cases h
          · rw [hract'] at h; cases h
        · show ((((ht.writeNext new_node (clear_flag obs)).writeNext new_node
              (clear_flag ((ht.writeNext new_node (clear_flag obs)).mem o).next)).writeNext o
                ⟨some new_node, true, false⟩).mem o).next = ⟨some new_node, true, false⟩
          rw [writeNext_mem, if_pos rfl]

/-- Witness for C4 on the concrete `replaceCexHT`. -/
theorem C4_replace_semantics_witness :
    (2 ≤ (10 : Nat) ∧ (1 : Nat) ≠ 3) ∧ replaceSpec replaceCexHT 1 1 3 10 get_end :=
  ⟨⟨by norm_num, by norm_num⟩, C4_replace_semantics replaceCexHT 1 1 3 10 get_end
    (by norm_num) (by norm_num)⟩

/-- Witness for C6: resizing the size-4 table to 16. -/
theorem C6_resize_pow2_witness :
    (newHT4.size = 2 ^ 2 ∧ 2 ≤ 63 ∧ ((16 : Nat) = 0 ∨ ∃ m ≤ 63, (16 : Nat) = 2 ^ m) ∧
      0 < 2) ∧
    (cds_lfht_resize newHT4 16 2 40).size = max 16 MIN_TABLE_SIZE :=
  ⟨⟨by decide, by norm_num, Or.inr ⟨4, by norm_num⟩, by norm_num⟩,
    C6_resize_pow2 newHT4 16 2 2 40 (by decide) (by norm_num)
      (Or.inr ⟨4, by norm_num⟩) (by norm_num)⟩


/-! ## Claims C2 and C3: single-table add/del/lookup and add_unique scripts

These evaluate the operation scripts symbolically in the key and the hash
function on the freshly created single-bucket table. -/


theorem lookup_bucket_one (ht : HT) (hash : Nat) (htbl : ht.tbl 0 = 0) :
    lookup_bucket ht 1 hash = 0 := by
  unfold lookup_bucket
  simp only
  have h10 : (1 : Nat) - 1 = 0 := rfl
  rw [h10, Nat.and_zero, fls_ulong_zero, if_pos rfl, Nat.and_zero, htbl]

theorem add_single (ht : HT) (k : Nat)
    (hsz : ht.size = 1) (hbrk : ht.brk = 1) (htbl : ht.tbl 0 = 0)
    (hm0 : ht.mem 0 = ⟨0, 0, ⟨none, false, true⟩⟩)
    (hm1 : ht.mem 1 = ⟨0, 0, get_end⟩) :
    cds_lfht_add ht k 10 =
      ((ht.allocNode k (bit_reverse_ulong (ht.hash_fct k))).1.writeNext 1
          ⟨none, false, false⟩).writeNext 0 ⟨some 1, false, true⟩ := by
  unfold cds_lfht_add
  simp only
  set r := bit_reverse_ulong (ht.hash_fct k) with hrdef
  set A := (ht.allocNode k r).1 with hA
  have hAsz : A.size = 1 := by rw [hA, allocNode_fst_size, hsz]
  have hAtbl : A.tbl 0 = 0 := by rw [hA, allocNode_fst_tbl, htbl]
  have hA0 : A.mem 0 = ⟨0, 0, ⟨none, false, true⟩⟩ := by
    rw [hA, allocNode_fst_mem, if_neg (by omega), hm0]
  have hA1 : A.mem 1 = ⟨k, r, get_end⟩ := by
    rw [hA, allocNode_fst_mem, if_pos hbrk.symm, hbrk, hm1]
  rw [allocNode_snd, hbrk, hAsz]
  unfold _cds_lfht_add
  rw [if_neg (by omega : ¬(1 : Nat) = 0)]
  simp only
  rw [lookup_bucket_one A _ hAtbl]
  show (add_loop 1 1 add_mode.ADD_DEFAULT false 0 A (9 + 1)).1 = _
  unfold add_loop
  rw [hA0]
  have hwalk : add_walk A 1 add_mode.ADD_DEFAULT false (9 + 1) 0
      ((⟨0, 0, ⟨none, false, true⟩⟩ : NodeData)).next = .insert 0 ⟨none, false, true⟩ := rfl
  rw [hwalk]
  simp only
  simp only [writeNext_next]
  rw [if_neg (by omega : ¬(0 : Nat) = 1), hA0]
  rw [if_pos (rfl : ((⟨0, 0, ⟨none, false, true⟩⟩ : NodeData)).next = ⟨none, false, true⟩)]
  simp only
  rfl

theorem lookup_single_found (B : HT) (k : Nat)
    (hsz : B.size = 1) (htbl : B.tbl 0 = 0)
    (hm0 : (B.mem 0).next = ⟨some 1, false, true⟩)
    (hm1 : B.mem 1 = ⟨k, bit_reverse_ulong (B.hash_fct k), ⟨none, false, false⟩⟩) :
    cds_lfht_lookup B k 10 = ⟨some 1, ⟨none, false, false⟩⟩ := by
  unfold cds_lfht_lookup
  simp only
  rw [hsz, lookup_bucket_one B _ htbl, hm0]
  show lookup_loop B k (bit_reverse_ulong (B.hash_fct k)) (9 + 1)
      ((⟨some 1, false, true⟩ : TaggedPtr)).ptr = _
  unfold lookup_loop
  simp only
  rw [hm1]
  rw [if_neg (gt_irrefl (bit_reverse_ulong (B.hash_fct k)))]
  rw [if_pos ⟨rfl, rfl, rfl, rfl⟩]

theorem del_single (B : HT) (k : Nat)
    (hsz : B.size = 1) (htbl : B.tbl 0 = 0)
    (hm0 : B.mem 0 = ⟨0, 0, ⟨some 1, false, true⟩⟩)
    (hm1 : B.mem 1 = ⟨k, bit_reverse_ulong (B.hash_fct k), ⟨none, false, false⟩⟩) :
    cds_lfht_del B (some 1) 10 =
      ((B.writeNext 1 ⟨none, true, false⟩).writeNext 0 ⟨none, false, true⟩, 0) := by
  unfold cds_lfht_del _cds_lfht_del
  simp only
  rw [hm1]
  rw [if_neg (fun h => Bool.noConfusion h)]
  simp only
  set r := bit_reverse_ulong (B.hash_fct k) with hrdef
  set B2 := B.writeNext 1 (flag_removed (⟨none, false, false⟩ : TaggedPtr)) with hB2
  have hB2tbl : B2.tbl 0 = 0 := by rw [hB2, writeNext_tbl, htbl]
  have hB2m0 : B2.mem 0 = ⟨0, 0, ⟨some 1, false, true⟩⟩ := by
    rw [hB2, writeNext_mem, if_neg (by omega), hm0]
  have hB2m1 : B2.mem 1 = ⟨k, r, ⟨none, true, false⟩⟩ := by
    rw [hB2, writeNext_mem, if_pos rfl, hm1]
    rfl
  have hB2r : (B2.mem 1).reverse_hash = r := by rw [hB2m1]
  rw [hB2r, hsz, lookup_bucket_one B2 _ hB2tbl]
  have hgcfix : _cds_lfht_gc_bucket B2 0 1 10 = B2.writeNext 0 ⟨none, false, true⟩ := by
    show _cds_lfht_gc_bucket B2 0 1 (9 + 1) = _
    unfold _cds_lfht_gc_bucket
    rw [hB2m0]
    have hinner : gc_inner B2 (B2.mem 1).reverse_hash (9 + 1) 0
        ((⟨0, 0, ⟨some 1, false, true⟩⟩ : NodeData)).next
        = .unlink 0 ⟨some 1, false, true⟩ ⟨none, true, false⟩ := by
      show gc_inner B2 (B2.mem 1).reverse_hash (9 + 1) 0 ((⟨some 1, false, true⟩ : TaggedPtr))
          = _
      unfold gc_inner
      simp only
      rw [hB2m1]
      rw [if_neg (gt_irrefl _)]
      rfl
    rw [hinner]
    simp only
    rw [if_pos (by rw [hB2m0])]
    rfl
  rw [hgcfix]
  rfl

theorem lookup_single_empty (C : HT) (k : Nat) (hsz : C.size = 1) (htbl : C.tbl 0 = 0)
    (hm0 : ((C.mem 0).next).ptr = none) :
    (cds_lfht_lookup C k 10).node = none := by
  unfold cds_lfht_lookup
  simp only
  rw [hsz, lookup_bucket_one C _ htbl, hm0]
  rfl

/-- C2: for every hash function and every key `k`, on a freshly created
single-bucket table: after `add(k)`, `lookup(k)` finds the added node, a
`del` on the iterator's node succeeds (returns 0), and a subsequent
`lookup(k)` reports not found (the iterator's node is nil). -/
theorem C2_add_del_lookup (hf : Nat → Nat) (k : Nat) (ht0 : HT)
    (h0 : _cds_lfht_new hf 1 10 = some ht0) :
    (cds_lfht_lookup (cds_lfht_add ht0 k 10) k 10).node = some 1 ∧
    (cds_lfht_del (cds_lfht_add ht0 k 10)
        (cds_lfht_lookup (cds_lfht_add ht0 k 10) k 10).node 10).2 = 0 ∧
    (cds_lfht_lookup (cds_lfht_del (cds_lfht_add ht0 k 10)
        (cds_lfht_lookup (cds_lfht_add ht0 k 10) k 10).node 10).1 k 10).node = none := by
  unfold _cds_lfht_new at h0
  rw [if_neg (by decide)] at h0
  simp only at h0
  have hT := (Option.some.inj h0).symm
  have hsz : ht0.size = 1 := by rw [hT]; rfl
  have hbrk : ht0.brk = 1 := by rw [hT]; rfl
  have htbl : ht0.tbl 0 = 0 := by rw [hT]; rfl
  have hm0 : ht0.mem 0 = ⟨0, 0, ⟨none, false, true⟩⟩ := by rw [hT]; rfl
  have hm1 : ht0.mem 1 = ⟨0, 0, get_end⟩ := by rw [hT]; rfl
  have hadd := add_single ht0 k hsz hbrk htbl hm0 hm1
  set r := bit_reverse_ulong (ht0.hash_fct k) with hrdef
  set B := ((ht0.allocNode k r).1.writeNext 1 ⟨none, false, false⟩).writeNext 0
    ⟨some 1, false, true⟩ with hB
  have hBsz : B.size = 1 := by
    rw [hB, writeNext_size, writeNext_size, allocNode_fst_size, hsz]
  have hBtbl : B.tbl 0 = 0 := by
    rw [hB, writeNext_tbl, writeNext_tbl, allocNode_fst_tbl, htbl]
  have hBhf : B.hash_fct = ht0.hash_fct := by
    rw [hB, writeNext_hf, writeNext_hf, allocNode_fst_hf]
  have hBm0n : (B.mem 0).next = ⟨some 1, false, true⟩ := by
    rw [hB, writeNext_next, if_pos rfl]
  have hBm0 : B.mem 0 = ⟨0, 0, ⟨some 1, false, true⟩⟩ := by
    rw [hB, writeNext_mem, if_pos rfl, writeNext_mem, if_neg (by omega),
      allocNode_fst_mem, if_neg (by omega), hm0]
  have hBm1 : B.mem 1 = ⟨k, bit_reverse_ulong (B.hash_fct k), ⟨none, false, false⟩⟩ := by
    rw [hBhf, ← hrdef]
    rw [hB, writeNext_mem, if_neg (by omega), writeNext_mem, if_pos rfl,
      allocNode_fst_mem, if_pos hbrk.symm, hbrk, hm1]
  have hlook := lookup_single_found B k hBsz hBtbl hBm0n hBm1
  have hdel := del_single B k hBsz hBtbl hBm0 hBm1
  refine ⟨?_, ?_, ?_⟩
  · rw [hadd, hlook]
  · rw [hadd, hlook]
    show (cds_lfht_del B (some 1) 10).2 = 0
    rw [hdel]
  · rw [hadd, hlook]
    show (cds_lfht_lookup (cds_lfht_del B (some 1) 10).1 k 10).node = none
    rw [hdel]
    refine lookup_single_empty _ k ?_ ?_ ?_
    · show ((B.writeNext 1 ⟨none, true, false⟩).writeNext 0 ⟨none, false, true⟩).size = 1
      rw [writeNext_size, writeNext_size, hBsz]
    · show ((B.writeNext 1 ⟨none, true, false⟩).writeNext 0 ⟨none, false, true⟩).tbl 0 = 0
      rw [writeNext_tbl, writeNext_tbl, hBtbl]
    · show ((((B.writeNext 1 ⟨none, true, false⟩).writeNext 0
          ⟨none, false, true⟩).mem 0).next).ptr = none
      rw [writeNext_next, if_pos rfl]

theorem add_unique_single (ht : HT) (k : Nat)
    (hsz : ht.size = 1) (hbrk : ht.brk = 1) (htbl : ht.tbl 0 = 0)
    (hm0 : ht.mem 0 = ⟨0, 0, ⟨none, false, true⟩⟩) :
    cds_lfht_add_unique ht k 10 =
      (((ht.allocNode k (bit_reverse_ulong (ht.hash_fct k))).1.writeNext 1
          ⟨none, false, false⟩).writeNext 0 ⟨some 1, false, true⟩, some 1) := by
  unfold cds_lfht_add_unique
  simp only
  set r := bit_reverse_ulong (ht.hash_fct k) with hrdef
  set A := (ht.allocNode k r).1 with hA
  have hAsz : A.size = 1 := by rw [hA, allocNode_fst_size, hsz]
  have hAtbl : A.tbl 0 = 0 := by rw [hA, allocNode_fst_tbl, htbl]
  have hA0 : A.mem 0 = ⟨0, 0, ⟨none, false, true⟩⟩ := by
    rw [hA, allocNode_fst_mem, if_neg (by omega), hm0]
  rw [allocNode_snd, hbrk, hAsz]
  unfold _cds_lfht_add
  rw [if_neg (by omega : ¬(1 : Nat) = 0)]
  simp only
  rw [lookup_bucket_one A _ hAtbl]
  show add_loop 1 1 add_mode.ADD_UNIQUE false 0 A (9 + 1) = _
  unfold add_loop
  rw [hA0]
  have hwalk : add_walk A 1 add_mode.ADD_UNIQUE false (9 + 1) 0
      ((⟨0, 0, ⟨none, false, true⟩⟩ : NodeData)).next = .insert 0 ⟨none, false, true⟩ := rfl
  rw [hwalk]
  simp only
  simp only [writeNext_next]
  rw [if_neg (by omega : ¬(0 : Nat) = 1), hA0]
  rw [if_pos (rfl : ((⟨0, 0, ⟨none, false, true⟩⟩ : NodeData)).next = ⟨none, false, true⟩)]
  rfl

theorem add_unique_found (B : HT) (k : Nat)
    (hsz : B.size = 1) (htbl : B.tbl 0 = 0) (hbrk : B.brk = 2)
    (hm0 : B.mem 0 = ⟨0, 0, ⟨some 1, false, true⟩⟩)
    (hm1 : B.mem 1 = ⟨k, bit_reverse_ulong (B.hash_fct k), ⟨none, false, false⟩⟩)
    (hm2 : B.mem 2 = ⟨0, 0, get_end⟩) :
    cds_lfht_add_unique B k 10 =
      ((B.allocNode k (bit_reverse_ulong (B.hash_fct k))).1, some 1) := by
  unfold cds_lfht_add_unique
  simp only
  set r := bit_reverse_ulong (B.hash_fct k) with hrdef
  set A2 := (B.allocNode k r).1 with hA2
  have hA2sz : A2.size = 1 := by rw [hA2, allocNode_fst_size, hsz]
  have hA2tbl : A2.tbl 0 = 0 := by rw [hA2, allocNode_fst_tbl, htbl]
  have hA2m0 : A2.mem 0 = ⟨0, 0, ⟨some 1, false, true⟩⟩ := by
    rw [hA2, allocNode_fst_mem, if_neg (by omega), hm0]
  have hA2m1 : A2.mem 1 = ⟨k, r, ⟨none, false, false⟩⟩ := by
    rw [hA2, allocNode_fst_mem, if_neg (by omega), hm1]
  have hA2m2 : A2.mem 2 = ⟨k, r, get_end⟩ := by
    rw [hA2, allocNode_fst_mem, if_pos hbrk.symm, hbrk, hm2]
  rw [allocNode_snd, hbrk, hA2sz]
  unfold _cds_lfht_add
  rw [if_neg (by omega : ¬(1 : Nat) = 0)]
  simp only
  rw [lookup_bucket_one A2 _ hA2tbl]
  show add_loop 1 2 add_mode.ADD_UNIQUE false 0 A2 (9 + 1) = _
  unfold add_loop
  rw [hA2m0]
  have hwalk : add_walk A2 2 add_mode.ADD_UNIQUE false (9 + 1) 0
      ((⟨0, 0, ⟨some 1, false, true⟩⟩ : NodeData)).next = .found 1 ⟨none, false, false⟩ := by
    show add_walk A2 2 add_mode.ADD_UNIQUE false (9 + 1) 0
        ((⟨some 1, false, true⟩ : TaggedPtr)) = _
    unfold add_walk
    simp only
    rw [hA2m1, hA2m2]
    rw [if_neg (gt_irrefl r)]
    rw [if_neg (fun hc => Bool.noConfusion hc.1)]
    rw [if_neg (fun hc => Bool.noConfusion hc)]
    rw [if_pos ⟨Or.inl trivial, rfl, rfl, rfl⟩]
  rw [hwalk]
  simp only
  rfl

theorem count_single_empty (C : HT) (htbl : C.tbl 0 = 0)
    (hm0 : C.mem 0 = ⟨0, 0, ⟨none, false, true⟩⟩) :
    cds_lfht_count_nodes C 10 = (0, 0) := by
  unfold cds_lfht_count_nodes
  rw [htbl]
  show count_loop C (9 + 1) 0 (0, 0) = _
  unfold count_loop
  rw [hm0]
  rfl

theorem count_single_one (C : HT) (k : Nat) (htbl : C.tbl 0 = 0)
    (hm0 : C.mem 0 = ⟨0, 0, ⟨some 1, false, true⟩⟩)
    (hm1 : C.mem 1 = ⟨k, bit_reverse_ulong (C.hash_fct k), ⟨none, false, false⟩⟩) :
    cds_lfht_count_nodes C 10 = (1, 0) := by
  unfold cds_lfht_count_nodes
  rw [htbl]
  show count_loop C (9 + 1) 0 (0, 0) = _
  unfold count_loop
  rw [hm0]
  simp only
  show count_loop C (8 + 1) 1 (0, 0) = _
  unfold count_loop
  rw [hm1]
  rfl

/-- C3: for every hash function and every key `k`, on a freshly created
single-bucket table, `add_unique(k)` returns the inserted node; a second
`add_unique(k)` returns that same node and leaves the table unchanged (the
resulting state is exactly the caller-side allocation of the unused new
node, with no list modification); the population grows by exactly 1 across
the two calls: 0 nodes initially, 1 after the first, 1 after the second. -/
theorem C3_add_unique_twice (hf : Nat → Nat) (k : Nat) (ht0 : HT)
    (h0 : _cds_lfht_new hf 1 10 = some ht0) :
    (cds_lfht_add_unique ht0 k 10).2 = some 1 ∧
    (cds_lfht_add_unique (cds_lfht_add_unique ht0 k 10).1 k 10).2
      = (cds_lfht_add_unique ht0 k 10).2 ∧
    (cds_lfht_add_unique (cds_lfht_add_unique ht0 k 10).1 k 10).1
      = ((cds_lfht_add_unique ht0 k 10).1.allocNode k
          (bit_reverse_ulong ((cds_lfht_add_unique ht0 k 10).1.hash_fct k))).1 ∧
    cds_lfht_count_nodes ht0 10 = (0, 0) ∧
    cds_lfht_count_nodes (cds_lfht_add_unique ht0 k 10).1 10 = (1, 0) ∧
    cds_lfht_count_nodes (cds_lfht_add_unique (cds_lfht_add_unique ht0 k 10).1 k 10).1 10
      = (1, 0) := by
  unfold _cds_lfht_new at h0
  rw [if_neg (by decide)] at h0
  simp only at h0
  have hT := (Option.some.inj h0).symm
  have hsz : ht0.size = 1 := by rw [hT]; rfl
  have hbrk : ht0.brk = 1 := by rw [hT]; rfl
  have htbl : ht0.tbl 0 = 0 := by rw [hT]; rfl
  have hm0 : ht0.mem 0 = ⟨0, 0, ⟨none, false, true⟩⟩ := by rw [hT]; rfl
  have hm1 : ht0.mem 1 = ⟨0, 0, get_end⟩ := by rw [hT]; rfl
  have hm2 : ht0.mem 2 = ⟨0, 0, get_end⟩ := by rw [hT]; rfl
  have hu1 := add_unique_single ht0 k hsz hbrk htbl hm0
  set r := bit_reverse_ulong (ht0.hash_fct k) with hrdef
  set B := ((ht0.allocNode k r).1.writeNext 1 ⟨none, false, false⟩).writeNext 0
    ⟨some 1, false, true⟩ with hB
  have hBsz : B.size = 1 := by
    rw [hB, writeNext_size, writeNext_size, allocNode_fst_size, hsz]
  have hBtbl : B.tbl 0 = 0 := by
    rw [hB, writeNext_tbl, writeNext_tbl, allocNode_fst_tbl, htbl]
  have hBbrk : B.brk = 2 := by
    rw [hB, writeNext_brk, writeNext_brk, allocNode_fst_brk, hbrk]
  have hBhf : B.hash_fct = ht0.hash_fct := by
    rw [hB, writeNext_hf, writeNext_hf, allocNode_fst_hf]
  have hBm0 : B.mem 0 = ⟨0, 0, ⟨some 1, false, true⟩⟩ := by
    rw [hB, writeNext_mem, if_pos rfl, writeNext_mem, if_neg (by omega),
      allocNode_fst_mem, if_neg (by omega), hm0]
  have hBm1 : B.mem 1 = ⟨k, bit_reverse_ulong (B.hash_fct k), ⟨none, false, false⟩⟩ := by
    rw [hBhf, ← hrdef]
    rw [hB, writeNext_mem, if_neg (by omega), writeNext_mem, if_pos rfl,
      allocNode_fst_mem, if_pos hbrk.symm, hbrk, hm1]
  have hBm2 : B.mem 2 = ⟨0, 0, get_end⟩ := by
    rw [hB, writeNext_mem, if_neg (by omega), writeNext_mem, if_neg (by omega),
      allocNode_fst_mem, if_neg (by omega), hm2]
  have hu2 := add_unique_found B k hBsz hBtbl hBbrk hBm0 hBm1 hBm2
  refine ⟨?_, ?_, ?_, ?_, ?_, ?_⟩
  · rw [hu1]
  · rw [hu1]
    show (cds_lfht_add_unique B k 10).2 = some 1
    rw [hu2]
  · rw [hu1]
    show (cds_lfht_add_unique B k 10).1
      = (B.allocNode k (bit_reverse_ulong (B.hash_fct k))).1
    rw [hu2]
  · exact count_single_empty ht0 htbl hm0
  · rw [hu1]
    show cds_lfht_count_nodes B 10 = (1, 0)
    exact count_single_one B k hBtbl hBm0 hBm1
  · rw [hu1]
    show cds_lfht_count_nodes (cds_lfht_add_unique B k 10).1 10 = (1, 0)
    rw [hu2]
    refine count_single_one _ k ?_ ?_ ?_
    · show (B.allocNode k (bit_reverse_ulong (B.hash_fct k))).1.tbl 0 = 0
      rw [allocNode_fst_tbl, hBtbl]
    · show (B.allocNode k (bit_reverse_ulong (B.hash_fct k))).1.mem 0
        = ⟨0, 0, ⟨some 1, false, true⟩⟩
      rw [allocNode_fst_mem, if_neg (by omega), hBm0]
    · show (B.allocNode k (bit_reverse_ulong (B.hash_fct k))).1.mem 1
        = ⟨k, bit_reverse_ulong
            ((B.allocNode k (bit_reverse_ulong (B.hash_fct k))).1.hash_fct k),
          ⟨none, false, false⟩⟩
      rw [allocNode_fst_hf, allocNode_fst_mem, if_neg (by omega), hBm1]


/-- The freshly created single-bucket table with the identity hash. -/
def newHT1 : HT := (_cds_lfht_new id 1 10).getD (emptyHT id)

/-- Witness for C2 at `hf = id`, `k = 5`. -/
theorem C2_add_del_lookup_witness :
    _cds_lfht_new id 1 10 = some newHT1 ∧
    ((cds_lfht_lookup (cds_lfht_add newHT1 5 10) 5 10).node = some 1 ∧
    (cds_lfht_del (cds_lfht_add newHT1 5 10)
        (cds_lfht_lookup (cds_lfht_add newHT1 5 10) 5 10).node 10).2 = 0 ∧
    (cds_lfht_lookup (cds_lfht_del (cds_lfht_add newHT1 5 10)
        (cds_lfht_lookup (cds_lfht_add newHT1 5 10) 5 10).node 10).1 5 10).node = none) :=
  ⟨rfl, C2_add_del_lookup id 5 newHT1 rfl⟩

/-- Witness for C3 at `hf = id`, `k = 7`. -/
theorem C3_add_unique_twice_witness :
    _cds_lfht_new id 1 10 = some newHT1 ∧
    ((cds_lfht_add_unique newHT1 7 10).2 = some 1 ∧
    (cds_lfht_add_unique (cds_lfht_add_unique newHT1 7 10).1 7 10).2
      = (cds_lfht_add_unique newHT1 7 10).2 ∧
    (cds_lfht_add_unique (cds_lfht_add_unique newHT1 7 10).1 7 10).1
      = ((cds_lfht_add_unique newHT1 7 10).1.allocNode 7
          (bit_reverse_ulong ((cds_lfht_add_unique newHT1 7 10).1.hash_fct 7))).1 ∧
    cds_lfht_count_nodes newHT1 10 = (0, 0) ∧
    cds_lfht_count_nodes (cds_lfht_add_unique newHT1 7 10).1 10 = (1, 0) ∧
    cds_lfht_count_nodes
      (cds_lfht_add_unique (cds_lfht_add_unique newHT1 7 10).1 7 10).1 10 = (1, 0)) :=
  ⟨rfl, C3_add_unique_twice id 7 newHT1 rfl⟩

/-! ## Claim C1: reverse hashes are sorted along next links -/

/-- C1: in every table state reachable (modelled sequentially) from
`_cds_lfht_new` by any sequence of `add`, `add_unique`, `add_replace`,
`del`, bucket-GC and `resize` operations, every pair of adjacent reachable
nodes `a, b` linked by a `next` pointer satisfies
`a.reverse_hash ≤ b.reverse_hash`. -/
theorem C1_sorted_reachable (ht : HT) (h : Reach ht) (a b : Nat)
    (hr : reachable ht a) (hl : ((ht.mem a).next).ptr = some b) :
    (ht.mem a).reverse_hash ≤ (ht.mem b).reverse_hash :=
  (inv_of_reach ht h).1.sorted a b hl

/-- Witness for C1 on the freshly created size-4 table, whose bucket-0 head
links to the bucket-2 dummy. -/
theorem C1_sorted_reachable_witness :
    Reach newHT4 ∧ reachable newHT4 0 ∧ ((newHT4.mem 0).next).ptr = some 2 ∧
      (newHT4.mem 0).reverse_hash ≤ (newHT4.mem 2).reverse_hash := by
  have hreach : Reach newHT4 := Reach.init id 4 20 newHT4 (by norm_num) rfl
  exact ⟨hreach, ⟨0, rfl⟩, rfl, C1_sorted_reachable newHT4 hreach 0 2 ⟨0, rfl⟩ rfl⟩

end Urcu
